import Mathlib

/-!
# Unity-Wakatime: heartbeat dispatch, process discovery, directory watching

A shallow embedding of `src/src/wakatime_client.cpp`, of the process scan, the instance
map and the path and version parsing of `src/src/process_monitor.cpp`, and of the filter
policy, the record processing and the watched set of `src/src/file_watcher.cpp` (with the
types of `src/include/wakatime_client.h`, `src/include/file_watcher.h`,
`src/include/process_monitor.h` and `src/include/globals.h`).

Modelling conventions

* A `std::string` is a list of bytes (`Str`).  A `char` is kept as its raw byte
  (`Byte = Fin 256`); where the C++ code compares or switches on a `char` the
  value used is the signed 8-bit value `charVal` (the program is Windows-only,
  where plain `char` is signed).
* `std::queue<HeartbeatData>` is a list: `push` appends at the back, `front`/`pop`
  take the head.  Each critical section under `queueMutex` is one atomic step; the
  section on the queue lock cuts the routines into finer steps and keeps the owner of
  the mutex in the state.
* `std::map<DWORD, UnityInstance>` is a list of key-value pairs in ascending key order.
* A call that can leave through `std::out_of_range` returns an `Outcome`.
* `std::atomic<int>` counters are integers with two's-complement 32-bit wrap on `++`.
* Results of operating-system calls (WinHTTP, clock, file system) are explicit inputs.
* Positions in strings are `size_t` values: natural numbers below `2 ^ 64`, with `npos`
  the largest one and wrap-around arithmetic.
* `std::vector<std::unique_ptr<WatchedProject>>` is a list of entries; each member
  function of `FileWatcher` runs under `projectsMutex` and is one atomic step.
-/

namespace UnityWakatime

/-! ## Strings -/

/-- One `char` of a `std::string`, kept as its raw byte value. -/
abbrev Byte := Fin 256

/-- A `std::string`: a finite sequence of bytes. -/
abbrev Str := List Byte

/-- The bytes of an ASCII string literal of the source. -/
def lit (s : String) : Str := s.toList.map (fun c => Fin.ofNat c.toNat)

/-- The integer value of a plain `char` holding byte `b` (signed 8-bit). -/
def charVal (b : Byte) : Int := if b.val < 128 then (b.val : Int) else (b.val : Int) - 256

/-! ## `HeartbeatData` (wakatime_client.h) -/

/-- The heartbeat record; the defaults are those of the C++ default constructor. -/
structure HeartbeatData where
  entity : Str := []
  type : Str := lit "file"
  category : Str := lit "coding"
  project : Str := []
  language : Str := []
  editor : Str := []
  operating_system : Str := lit "Windows"
  machine : Str := []
  time : Int := 0
  is_write : Bool := false
deriving DecidableEq, Repr

/-! ## `EscapeJsonString` -/

/-- The body of the `switch (c)` of `EscapeJsonString`: the text appended for one `char`. -/
def escapeChar (c : Byte) : Str :=
  if c.val = 0x22 then lit "\\\""          -- case '"'
  else if c.val = 0x5C then lit "\\\\"     -- case '\\'
  else if c.val = 0x08 then lit "\\b"      -- case '\b'
  else if c.val = 0x0C then lit "\\f"      -- case '\f'
  else if c.val = 0x0A then lit "\\n"      -- case '\n'
  else if c.val = 0x0D then lit "\\r"      -- case '\r'
  else if c.val = 0x09 then lit "\\t"      -- case '\t'
  else if charVal c < 0x20 then lit "\\u" ++ lit "0000"
  else [c]

/-- `WakaTimeClient::EscapeJsonString`: the range-for loop appending to `escaped`. -/
def EscapeJsonString (str : Str) : Str :=
  str.foldl (fun escaped c => escaped ++ escapeChar c) []

/-! ## Decimal output of `int64_t` (`operator<<`) -/

/-- The ASCII digit for `d < 10`. -/
def digitChar (d : Nat) : Byte := Fin.ofNat (0x30 + d)

/-- Digits of `n`, most significant first, pushed in front of `acc`. -/
def decDigitsAux : Nat → Nat → Str → Str
  | 0, _, acc => acc
  | fuel + 1, n, acc =>
    if n / 10 = 0 then digitChar (n % 10) :: acc
    else decDigitsAux fuel (n / 10) (digitChar (n % 10) :: acc)

/-- Decimal text of a natural number (no leading zeros, `0` is "0"). -/
def natToDec (n : Nat) : Str := decDigitsAux (n + 1) n []

/-- Decimal text of an integer as `std::ostream` prints it. -/
def intToDec (z : Int) : Str :=
  if z < 0 then lit "-" ++ natToDec z.natAbs else natToDec z.natAbs

/-! ## `HeartbeatToJson` -/

/-- `WakaTimeClient::HeartbeatToJson`. -/
def HeartbeatToJson (heartbeat : HeartbeatData) : Str :=
  lit "\x7b"
    ++ lit "\"entity\":\"" ++ EscapeJsonString heartbeat.entity ++ lit "\","
    ++ lit "\"type\":\"" ++ heartbeat.type ++ lit "\","
    ++ lit "\"category\":\"" ++ heartbeat.category ++ lit "\","
    ++ lit "\"project\":\"" ++ EscapeJsonString heartbeat.project ++ lit "\","
    ++ lit "\"language\":\"" ++ heartbeat.language ++ lit "\","
    ++ lit "\"editor\":\"" ++ heartbeat.editor ++ lit "\","
    ++ lit "\"operating_system\":\"" ++ heartbeat.operating_system ++ lit "\","
    ++ lit "\"machine\":\"" ++ EscapeJsonString heartbeat.machine ++ lit "\","
    ++ lit "\"time\":" ++ intToDec heartbeat.time ++ lit ","
    ++ lit "\"is_write\":" ++ (if heartbeat.is_write then lit "true" else lit "false")
    ++ lit "\x7d"

/-! ## `Base64Encode` -/

/-- The local `chars` of `Base64Encode`. -/
def base64Chars : Str :=
  lit "ABCDEFGHIJKLMNOPQRSTUVWXYZabcdefghijklmnopqrstuvwxyz0123456789+/"

/-- Storing an `int` expression into an `unsigned char`. -/
def toUChar (n : Nat) : Nat := n % 256

/-- `chars[k]` (`std::string::operator[]`; the fallback byte stands for an index past the end). -/
def charsAt (k : Nat) : Byte := base64Chars.getD k 0

/-- The array `unsigned char char_array_3[3]`. -/
structure CharArray3 where
  c0 : Nat
  c1 : Nat
  c2 : Nat
deriving DecidableEq, Repr

/-- `char_array_3[i] = v`. -/
def CharArray3.set (a : CharArray3) (i : Nat) (v : Nat) : CharArray3 :=
  if i = 0 then { a with c0 := v }
  else if i = 1 then { a with c1 := v }
  else if i = 2 then { a with c2 := v }
  else a

/-- The four assignments to `char_array_4[0..3]`, which occur twice in `Base64Encode`. -/
def charArray4 (a : CharArray3) : List Nat :=
  [ toUChar ((a.c0 &&& 0xfc) >>> 2),
    toUChar (((a.c0 &&& 0x03) <<< 4) + ((a.c1 &&& 0xf0) >>> 4)),
    toUChar (((a.c1 &&& 0x0f) <<< 2) + ((a.c2 &&& 0xc0) >>> 6)),
    toUChar (a.c2 &&& 0x3f) ]

/-- The loop state of `Base64Encode`: the counter `i`, `char_array_3` and `encoded`. -/
structure B64State where
  i : Nat
  arr : CharArray3
  encoded : Str
deriving DecidableEq, Repr

/-- One pass of the body of `for (const char c: input)`. -/
def b64Step (s : B64State) (c : Byte) : B64State :=
  let arr := s.arr.set s.i (toUChar c.val)
  let i := s.i + 1
  if i = 3 then
    { i := 0, arr := arr, encoded := s.encoded ++ (charArray4 arr).map charsAt }
  else
    { i := i, arr := arr, encoded := s.encoded }

/-- The `if (i)` block after the loop: zero fill, `i + 1` characters, then `=` up to four. -/
def b64Finish (s : B64State) : Str :=
  if s.i ≠ 0 then
    let arr := (List.range' s.i (3 - s.i)).foldl (fun a j => a.set j 0) s.arr
    s.encoded ++ ((charArray4 arr).take (s.i + 1)).map charsAt
      ++ List.replicate (3 - s.i) (0x3D : Byte)
  else s.encoded

/-- `WakaTimeClient::Base64Encode`.  The indeterminate initial content of `char_array_3`
is never read before it is written; it is taken as zero. -/
def Base64Encode (input : Str) : Str :=
  b64Finish (input.foldl b64Step { i := 0, arr := ⟨0, 0, 0⟩, encoded := [] })

/-! ## The client state (wakatime_client.h) -/

/-- The operator `++` of a `std::atomic<int>` counter (32-bit two's-complement wrap). -/
def atomicIncr (x : Int) : Int := (x + 1 + 2 ^ 31) % 2 ^ 32 - 2 ^ 31

/-- The data members of `class WakaTimeClient`.  A handle is `none` when it is `nullptr`;
`senderThread` and `queueMutex` are represented by the atomic steps below. -/
structure WakaTimeClient where
  apiKey : Str
  userAgent : Str
  machineName : Str
  hSession : Option Nat
  initialized : Bool
  heartbeatQueue : List HeartbeatData
  shouldStop : Bool
  totalSent : Int
  totalFailed : Int
deriving DecidableEq, Repr

/-- The constructor `WakaTimeClient::WakaTimeClient()`; `machineName` is what
`GetMachineName()` returned. -/
def WakaTimeClient.create (machineName : Str) : WakaTimeClient :=
  { apiKey := [], userAgent := lit "unity-wakatime/1.0 (Windows)", machineName := machineName,
    hSession := none, initialized := false, heartbeatQueue := [], shouldStop := false,
    totalSent := 0, totalFailed := 0 }

/-- What the WinHTTP calls of one `SendHttpRequest` return: the two handles, the two
`BOOL` results, and the status code stored by `WinHttpQueryHeaders` when it succeeds. -/
structure HttpEnv where
  connect : Option Nat
  openRequest : Option Nat
  sendRequest : Bool
  receiveResponse : Bool
  queryHeaders : Option Nat
deriving DecidableEq, Repr

/-! ## `SendHttpRequest` -/

/-- `WakaTimeClient::SendHttpRequest`: the returned `bool` and the client afterwards. -/
def SendHttpRequest (c : WakaTimeClient) (_jsonData : Str) (env : HttpEnv) :
    Bool × WakaTimeClient :=
  if !c.initialized || c.hSession.isNone then (false, c)
  else if env.connect.isNone then (false, c)
  else if env.openRequest.isNone then (false, c)
  else if env.sendRequest then
    if env.receiveResponse then
      match env.queryHeaders with
      | some statusCode =>
        if statusCode ≥ 200 && statusCode < 300 then
          (true, { c with totalSent := atomicIncr c.totalSent })
        else
          (false, { c with totalFailed := atomicIncr c.totalFailed })
      | none => (false, c)
    else (false, c)
  else (false, { c with totalFailed := atomicIncr c.totalFailed })

/-- The `Authorization` header line built in `SendHttpRequest`. -/
def authHeader (c : WakaTimeClient) : Str :=
  lit "Authorization: Basic " ++ Base64Encode (c.apiKey ++ lit ":")

/-! ## `SenderThreadFunction` -/

/-- What one pass of the sender loop did: the client afterwards, the record taken from
the queue (if `hasData`) and the text handed to `SendHttpRequest`. -/
structure SenderPass where
  client : WakaTimeClient
  heartbeat : Option HeartbeatData
  jsonData : Option Str
  success : Bool

/-- One pass of the body of `while (!shouldStop)` in `SenderThreadFunction`. -/
def senderIteration (c : WakaTimeClient) (env : HttpEnv) : SenderPass :=
  match c.heartbeatQueue with
  | [] => { client := c, heartbeat := none, jsonData := none, success := false }
  | heartbeat :: rest =>
    let c1 := { c with heartbeatQueue := rest }
    let jsonData := HeartbeatToJson heartbeat
    let r := SendHttpRequest c1 jsonData env
    { client := r.2, heartbeat := some heartbeat, jsonData := some jsonData, success := r.1 }

/-- `WakaTimeClient::SenderThreadFunction`: the loop, one element of `envs` per pass. -/
def SenderThreadFunction : WakaTimeClient → List HttpEnv → WakaTimeClient
  | c, [] => c
  | c, env :: envs =>
    if c.shouldStop then c else SenderThreadFunction (senderIteration c env).client envs

/-! ## `SendHeartbeat` -/

/-- `WakaTimeClient::SendHeartbeat`; `now` is the value of `GetUnixTimestamp()`. -/
def SendHeartbeat (c : WakaTimeClient) (filePath projectName unityVersion : Str)
    (isWrite : Bool) (now : Int) : WakaTimeClient :=
  if !c.initialized then c
  else
    let heartbeat : HeartbeatData :=
      { entity := filePath, project := projectName, language := lit "Unity",
        machine := c.machineName, time := now, is_write := isWrite,
        editor := if unityVersion ≠ [] then lit "Unity " ++ unityVersion else lit "Unity" }
    { c with heartbeatQueue := c.heartbeatQueue ++ [heartbeat] }

/-! ## Interleavings of producers and the sender -/

/-- An atomic step on the client: a call of `SendHeartbeat` (its critical section is the
`push`), or one sender-loop pass.  The pass takes the record under the lock and sends it
after the lock is released; the send reads only the local copy of the record and never
the queue, so the pass is taken as one step. -/
inductive ClientOp where
  | enqueue (filePath projectName unityVersion : Str) (isWrite : Bool) (now : Int)
  | senderStep (env : HttpEnv)

/-- The outcome of a run: the final client, the records pushed on the queue and the
records taken from it by the sender, both in the order in which that happened. -/
structure Trace where
  client : WakaTimeClient
  pushed : List HeartbeatData
  popped : List HeartbeatData

/-- Run a sequence of atomic steps.  The records pushed by a `SendHeartbeat` call are
read off the queue: whatever stands behind the records that were there before. -/
def runOps : WakaTimeClient → List ClientOp → Trace
  | c, [] => { client := c, pushed := [], popped := [] }
  | c, ClientOp.enqueue f p v w t :: ops =>
    let c1 := SendHeartbeat c f p v w t
    let r := runOps c1 ops
    { r with pushed := c1.heartbeatQueue.drop c.heartbeatQueue.length ++ r.pushed }
  | c, ClientOp.senderStep env :: ops =>
    let it := senderIteration c env
    let r := runOps it.client ops
    { r with popped := it.heartbeat.toList ++ r.popped }

/-- Enqueue the records `recs` one after the other (file path, project, version, write
flag and time stamp of each call). -/
def enqueueAll (c : WakaTimeClient) (recs : List (Str × Str × Str × Bool × Int)) :
    WakaTimeClient :=
  recs.foldl (fun c r => SendHeartbeat c r.1 r.2.1 r.2.2.1 r.2.2.2.1 r.2.2.2.2) c

/-- An initialized client as `Initialize` leaves it on success. -/
def readyClient (apiKey machineName : Str) (session : Nat) : WakaTimeClient :=
  { WakaTimeClient.create machineName with
    apiKey := apiKey, hSession := some session, initialized := true }

/-! ## RFC 4648 base64, written from the RFC (reference for `Base64Encode`) -/

/-- Table 1 of RFC 4648: the character for a 6-bit value. -/
def rfc4648Alphabet (v : Nat) : Byte :=
  if v < 26 then Fin.ofNat (0x41 + v)
  else if v < 52 then Fin.ofNat (0x61 + (v - 26))
  else if v < 62 then Fin.ofNat (0x30 + (v - 52))
  else if v = 62 then 0x2B
  else 0x2F

/-- The pad character `=`. -/
def rfc4648Pad : Byte := 0x3D

/-- RFC 4648 section 4: each 24-bit group of three input bytes becomes four characters;
a final group of 8 bits becomes two characters and `==`, one of 16 bits three characters
and `=` (the missing bits are zero). -/
def rfc4648Encode : Str → Str
  | [] => []
  | [a] =>
    [rfc4648Alphabet (a.val * 16 / 64 % 64), rfc4648Alphabet (a.val * 16 % 64),
     rfc4648Pad, rfc4648Pad]
  | [a, b] =>
    [rfc4648Alphabet ((a.val * 256 + b.val) * 4 / 4096 % 64),
     rfc4648Alphabet ((a.val * 256 + b.val) * 4 / 64 % 64),
     rfc4648Alphabet ((a.val * 256 + b.val) * 4 % 64), rfc4648Pad]
  | a :: b :: c :: rest =>
    [rfc4648Alphabet ((a.val * 65536 + b.val * 256 + c.val) / 262144 % 64),
     rfc4648Alphabet ((a.val * 65536 + b.val * 256 + c.val) / 4096 % 64),
     rfc4648Alphabet ((a.val * 65536 + b.val * 256 + c.val) / 64 % 64),
     rfc4648Alphabet ((a.val * 65536 + b.val * 256 + c.val) % 64)] ++ rfc4648Encode rest

/-- The 6-bit value of an alphabet character (the inverse of Table 1). -/
def rfc4648Value (c : Byte) : Option Nat :=
  if 0x41 ≤ c.val ∧ c.val ≤ 0x5A then some (c.val - 0x41)
  else if 0x61 ≤ c.val ∧ c.val ≤ 0x7A then some (c.val - 0x61 + 26)
  else if 0x30 ≤ c.val ∧ c.val ≤ 0x39 then some (c.val - 0x30 + 52)
  else if c.val = 0x2B then some 62
  else if c.val = 0x2F then some 63
  else none

/-- Decode one group of four characters; padding is accepted in the final group only and
the unused low bits of a padded group must be zero. -/
def rfc4648DecodeGroup (c0 c1 c2 c3 : Byte) (final : Bool) : Option Str :=
  if final = true ∧ c2 = rfc4648Pad ∧ c3 = rfc4648Pad then
    match rfc4648Value c0, rfc4648Value c1 with
    | some v0, some v1 =>
      if v1 % 16 = 0 then some [Fin.ofNat (v0 * 4 + v1 / 16)] else none
    | _, _ => none
  else if final = true ∧ c3 = rfc4648Pad then
    match rfc4648Value c0, rfc4648Value c1, rfc4648Value c2 with
    | some v0, some v1, some v2 =>
      if v2 % 4 = 0 then
        some [Fin.ofNat (v0 * 4 + v1 / 16), Fin.ofNat (v1 % 16 * 16 + v2 / 4)]
      else none
    | _, _, _ => none
  else
    match rfc4648Value c0, rfc4648Value c1, rfc4648Value c2, rfc4648Value c3 with
    | some v0, some v1, some v2, some v3 =>
      some [Fin.ofNat (v0 * 4 + v1 / 16), Fin.ofNat (v1 % 16 * 16 + v2 / 4),
            Fin.ofNat (v2 % 4 * 64 + v3)]
    | _, _, _, _ => none

/-- The standard decoder: groups of four characters, `none` on any malformed input. -/
def rfc4648Decode : Str → Option Str
  | [] => some []
  | c0 :: c1 :: c2 :: c3 :: rest =>
    match rfc4648DecodeGroup c0 c1 c2 c3 rest.isEmpty, rfc4648Decode rest with
    | some g, some r => some (g ++ r)
    | _, _ => none
  | _ => none

/-! ## JSON texts, written from RFC 8259 (reference for `EscapeJsonString` and
`HeartbeatToJson`)

The reader works on the bytes of a UTF-8 text.  Bytes from `0x80` on belong to multi-byte
characters and are copied; `\uXXXX` yields the UTF-8 bytes of the code point (surrogate
escapes are not supported and make the reader fail).  Member values are strings, integers
and booleans; any other value makes the reader fail. -/

/-- The value of a hexadecimal digit. -/
def hexVal (c : Byte) : Option Nat :=
  if 0x30 ≤ c.val ∧ c.val ≤ 0x39 then some (c.val - 0x30)
  else if 0x41 ≤ c.val ∧ c.val ≤ 0x46 then some (c.val - 0x41 + 10)
  else if 0x61 ≤ c.val ∧ c.val ≤ 0x66 then some (c.val - 0x61 + 10)
  else none

/-- UTF-8 bytes of a code point of the basic plane that is not a surrogate. -/
def utf8OfCodePoint (cp : Nat) : Option Str :=
  if cp < 0x80 then some [Fin.ofNat cp]
  else if cp < 0x800 then some [Fin.ofNat (0xC0 + cp / 64), Fin.ofNat (0x80 + cp % 64)]
  else if 0xD800 ≤ cp ∧ cp < 0xE000 then none
  else if cp < 0x10000 then
    some [Fin.ofNat (0xE0 + cp / 4096), Fin.ofNat (0x80 + cp / 64 % 64),
          Fin.ofNat (0x80 + cp % 64)]
  else none

/-- Put the bytes `b` in front of the text of a parse result. -/
def prependTo (b : Option Str) (r : Option (Str × Str)) : Option (Str × Str) :=
  match b, r with
  | some b, some (text, rest) => some (b ++ text, rest)
  | _, _ => none

/-- The two-character escapes of RFC 8259 section 7: the byte denoted by the character
after the backslash. -/
def simpleEscape (e : Byte) : Option Byte :=
  if e.val = 0x22 then some 0x22        -- \"
  else if e.val = 0x5C then some 0x5C   -- \\
  else if e.val = 0x2F then some 0x2F   -- \/
  else if e.val = 0x62 then some 0x08   -- \b
  else if e.val = 0x66 then some 0x0C   -- \f
  else if e.val = 0x6E then some 0x0A   -- \n
  else if e.val = 0x72 then some 0x0D   -- \r
  else if e.val = 0x74 then some 0x09   -- \t
  else none

/-- The characters of a JSON string after its opening quote: the text denoted up to the
closing quote and what follows the closing quote. -/
def parseJsonChars : Str → Option (Str × Str)
  | [] => none
  | c :: rest =>
    if c.val = 0x22 then some ([], rest)
    else if c.val = 0x5C then
      match rest with
      | [] => none
      | e :: rest1 =>
        if e.val = 0x75 then
          match rest1 with
          | h1 :: h2 :: h3 :: h4 :: rest2 =>
            match hexVal h1, hexVal h2, hexVal h3, hexVal h4 with
            | some d1, some d2, some d3, some d4 =>
              prependTo (utf8OfCodePoint (d1 * 4096 + d2 * 256 + d3 * 16 + d4))
                (parseJsonChars rest2)
            | _, _, _, _ => none
          | _ => none
        else
          prependTo ((simpleEscape e).map (fun b => [b])) (parseJsonChars rest1)
    else if c.val < 0x20 then none
    else prependTo (some [c]) (parseJsonChars rest)

/-- A JSON string literal at the head of the input. -/
def parseJsonString : Str → Option (Str × Str)
  | [] => none
  | q :: rest => if q.val = 0x22 then parseJsonChars rest else none

/-- The values read by the reference reader. -/
inductive JsonValue where
  | str (s : Str)
  | int (z : Int)
  | bool (b : Bool)
deriving DecidableEq, Repr

/-- A decimal digit. -/
def isDigit (c : Byte) : Bool := decide (0x30 ≤ c.val) && decide (c.val ≤ 0x39)

/-- Read the longest run of digits, continuing the number `acc`. -/
def parseDigits : Str → Nat → Nat × Str
  | [], acc => (acc, [])
  | c :: rest, acc =>
    if isDigit c then parseDigits rest (acc * 10 + (c.val - 0x30)) else (acc, c :: rest)

/-- The digits of a JSON number without sign: at least one digit, no leading zero, and
neither a fraction nor an exponent behind it. -/
def parseJsonNat : Str → Option (Nat × Str)
  | [] => none
  | d :: rest =>
    if isDigit d then
      if d.val = 0x30 ∧ (rest.head?.map isDigit) = some true then none
      else
        match parseDigits (d :: rest) 0 with
        | (n, c :: rest1) =>
          if c.val = 0x2E ∨ c.val = 0x65 ∨ c.val = 0x45 then none else some (n, c :: rest1)
        | (n, []) => some (n, [])
    else none

/-- A JSON number that is an integer. -/
def parseJsonInt : Str → Option (Int × Str)
  | [] => none
  | c :: rest =>
    if c.val = 0x2D then (parseJsonNat rest).map (fun p => (-(p.1 : Int), p.2))
    else (parseJsonNat (c :: rest)).map (fun p => ((p.1 : Int), p.2))

/-- A member value at the head of the input. -/
def parseJsonValue (s : Str) : Option (JsonValue × Str) :=
  if s.head? = some 0x22 then (parseJsonString s).map (fun p => (JsonValue.str p.1, p.2))
  else if lit "true" <+: s then some (JsonValue.bool true, s.drop 4)
  else if lit "false" <+: s then some (JsonValue.bool false, s.drop 5)
  else (parseJsonInt s).map (fun p => (JsonValue.int p.1, p.2))

/-- JSON white space. -/
def isWs (c : Byte) : Bool :=
  decide (c.val = 0x20) || decide (c.val = 0x09) || decide (c.val = 0x0A)
    || decide (c.val = 0x0D)

/-- Drop leading white space. -/
def skipWs : Str → Str
  | [] => []
  | c :: rest => if isWs c then skipWs rest else c :: rest

/-- The members of an object from the first member on, up to and including the closing
brace; `fuel` bounds the number of members. -/
def parseJsonMembers : Nat → Str → Option (List (Str × JsonValue) × Str)
  | 0, _ => none
  | fuel + 1, s =>
    match parseJsonString (skipWs s) with
    | none => none
    | some (key, s1) =>
      match skipWs s1 with
      | [] => none
      | c :: s2 =>
        if c.val = 0x3A then
          match parseJsonValue (skipWs s2) with
          | none => none
          | some (v, s3) =>
            match skipWs s3 with
            | [] => none
            | d :: s4 =>
              if d.val = 0x2C then
                match parseJsonMembers fuel s4 with
                | some (ms, r) => some ((key, v) :: ms, r)
                | none => none
              else if d.val = 0x7D then some ([(key, v)], s4)
              else none
        else none

/-- A text that is exactly one JSON object: its members in the order of the text. -/
def parseJsonObject (s : Str) : Option (List (Str × JsonValue)) :=
  match skipWs s with
  | [] => none
  | c :: s1 =>
    if c.val = 0x7B then
      match skipWs s1 with
      | [] => none
      | d :: s2 =>
        if d.val = 0x7D then (if skipWs s2 = [] then some [] else none)
        else
          match parseJsonMembers s1.length s1 with
          | some (ms, r) => if skipWs r = [] then some ms else none
          | none => none
    else none

/-- The ten members the wire format prescribes for a heartbeat, with the record's values. -/
def heartbeatMembers (h : HeartbeatData) : List (Str × JsonValue) :=
  [ (lit "entity", JsonValue.str h.entity),
    (lit "type", JsonValue.str h.type),
    (lit "category", JsonValue.str h.category),
    (lit "project", JsonValue.str h.project),
    (lit "language", JsonValue.str h.language),
    (lit "editor", JsonValue.str h.editor),
    (lit "operating_system", JsonValue.str h.operating_system),
    (lit "machine", JsonValue.str h.machine),
    (lit "time", JsonValue.int h.time),
    (lit "is_write", JsonValue.bool h.is_write) ]

/-- Printable ASCII: the bytes `0x20` to `0x7E`. -/
def isPrintable (c : Byte) : Prop := 0x20 ≤ c.val ∧ c.val ≤ 0x7E

/-- The named controls `\b`, `\t`, `\n`, `\f`, `\r`. -/
def isNamedControl (c : Byte) : Prop :=
  c.val = 0x08 ∨ c.val = 0x09 ∨ c.val = 0x0A ∨ c.val = 0x0C ∨ c.val = 0x0D

/-- Printable ASCII other than the double quote and the backslash: the bytes that stand
for themselves inside a JSON string. -/
def isPlain (c : Byte) : Prop := isPrintable c ∧ c.val ≠ 0x22 ∧ c.val ≠ 0x5C

instance (c : Byte) : Decidable (isPrintable c) := by
  unfold isPrintable
  exact inferInstance

instance (c : Byte) : Decidable (isNamedControl c) := by
  unfold isNamedControl
  exact inferInstance

instance (c : Byte) : Decidable (isPlain c) := by
  unfold isPlain
  exact inferInstance

/-- A string literal of the wire text: `body` between double quotes. -/
def quoted (body : Str) : Str := (0x22 : Byte) :: (body ++ [(0x22 : Byte)])

/-- One member of the wire text: the quoted `key`, a colon, the text `tv` of the value, the
delimiter `d` (comma or closing brace) and what follows. -/
def memberText (key tv : Str) (d : Byte) (rest : Str) : Str :=
  (0x22 : Byte) :: (key ++ (0x22 : Byte) :: (0x3A : Byte) :: (tv ++ d :: rest))

/-- A heartbeat as `SendHeartbeat` builds it for a file of project `P` at time `t`. -/
def sampleHeartbeat (t : Int) : HeartbeatData :=
  { entity := lit "C:/P/Assets/a.unity", project := lit "P", language := lit "Unity",
    editor := lit "Unity", machine := lit "PC", time := t, is_write := true }

/-- An initialized client with the records `q` pending. -/
def queuedClient (q : List HeartbeatData) : WakaTimeClient :=
  { readyClient (lit "key") (lit "PC") 1 with heartbeatQueue := q }

/-! ## `std::string` searching

Positions are `size_t` values of the 64-bit target; a search that fails returns `npos`,
the largest `size_t`.  Arithmetic on positions wraps modulo `2 ^ 64`. -/

/-- `std::string::npos`. -/
def npos : Nat := 2 ^ 64 - 1

/-- Subtraction of two `size_t` values. -/
def sizeSub (a b : Nat) : Nat := (a + 2 ^ 64 - b % 2 ^ 64) % 2 ^ 64

/-- Addition of two `size_t` values. -/
def sizeAdd (a b : Nat) : Nat := (a + b) % 2 ^ 64

/-- Scan `s`, whose first character has position `i`, for a character satisfying `p`. -/
def firstIdxAux (p : Byte → Bool) : Str → Nat → Nat
  | [], _ => npos
  | c :: rest, i => if p c then i else firstIdxAux p rest (i + 1)

/-- The first position from `pos` on whose character satisfies `p`, or `npos`. -/
def firstIdx (p : Byte → Bool) (s : Str) (pos : Nat) : Nat :=
  if pos < s.length then firstIdxAux p (s.drop pos) pos else npos

/-- Scan `s` from position `i` on, remembering in `best` the last position found. -/
def lastIdxAux (p : Byte → Bool) : Str → Nat → Nat → Nat
  | [], _, best => best
  | c :: rest, i, best => lastIdxAux p rest (i + 1) (if p c then i else best)

/-- The last position whose character satisfies `p`, or `npos`. -/
def lastIdx (p : Byte → Bool) (s : Str) : Nat := lastIdxAux p s 0 npos

/-- The member `find_first_of(set, pos)`. -/
def find_first_of (s set : Str) (pos : Nat) : Nat := firstIdx (fun c => decide (c ∈ set)) s pos

/-- The member `find_first_not_of(set, pos)`. -/
def find_first_not_of (s set : Str) (pos : Nat) : Nat :=
  firstIdx (fun c => !decide (c ∈ set)) s pos

/-- The member `find_last_not_of(set)`. -/
def find_last_not_of (s set : Str) : Nat := lastIdx (fun c => !decide (c ∈ set)) s

/-- The member `find(ch, pos)` for one character. -/
def findChar (s : Str) (ch : Byte) (pos : Nat) : Nat := firstIdx (fun c => decide (c = ch)) s pos

/-- The member `find_last_of(ch)` for one character. -/
def find_last_of (s : Str) (ch : Byte) : Nat := lastIdx (fun c => decide (c = ch)) s

/-- Scan for the first position at which `needle` starts. -/
def findAux (needle : Str) : Str → Nat → Nat
  | [], _ => npos
  | c :: rest, i => if needle.isPrefixOf (c :: rest) then i else findAux needle rest (i + 1)

/-- The member `find(needle, pos)` for a non-empty `needle`. -/
def find (s needle : Str) (pos : Nat) : Nat :=
  if pos < s.length then findAux needle (s.drop pos) pos else npos

/-- The member `substr(pos, n)`; every call in the program has `pos ≤ size()`. -/
def substr (s : Str) (pos n : Nat) : Str := (s.drop pos).take n

/-- The C function `tolower` in the "C" locale (the program never sets another one):
`A`..`Z` become `a`..`z`, every other value is returned unchanged. -/
def tolower (c : Byte) : Byte :=
  if 0x41 ≤ c.val ∧ c.val ≤ 0x5A then Fin.ofNat (c.val + 0x20) else c

/-- The loop `while (std::getline(stream, segment, delim))`: the segments it reads from the
remaining input, `cur` being the characters already extracted for the current segment. -/
def getlineAux (delim : Byte) : Str → Str → List Str
  | [], cur => if cur = [] then [] else [cur]
  | c :: rest, cur =>
    if c = delim then cur :: getlineAux delim rest [] else getlineAux delim rest (cur ++ [c])

/-- All strings successive `std::getline(stream, _, delim)` calls deliver for the text `s`. -/
def getlineAll (delim : Byte) (s : Str) : List Str := getlineAux delim s []

/-! ## `ProcessMonitor` (process_monitor.cpp) -/

/-- `ProcessMonitor::ExtractProjectPath`. -/
def ExtractProjectPath (commandLine : Str) : Str :=
  let lowerCommandLine := commandLine.map tolower
  let pos := find lowerCommandLine (lit "-projectpath") 0
  if pos = npos then []
  else
    let pos := find commandLine (lit "-projectpath")
      (sizeSub pos (sizeSub lowerCommandLine.length commandLine.length))
    let pos :=
      if pos = npos then
        find commandLine (lit "-projectpath")
          (sizeSub pos (sizeSub lowerCommandLine.length commandLine.length))
      else pos
    let pos := find_first_of commandLine (lit " \t") pos
    if pos = npos then []
    else
      let pos := find_first_not_of commandLine (lit " \t") pos
      if pos = npos then []
      else if commandLine.getD pos 0 = (0x22 : Byte) then
        let pos := pos + 1
        let endPos := findChar commandLine 0x22 pos
        if endPos ≠ npos then substr commandLine pos (endPos - pos) else []
      else
        let endPos := find_first_of commandLine (lit " \t") pos
        let endPos := if endPos = npos then commandLine.length else endPos
        substr commandLine pos (endPos - pos)

/-! ### `std::filesystem::path::filename` as the Windows standard library parses it

A path is decomposed into root-name, root-directory and relative-path; `filename()` is the
part of the relative-path after its last separator.  The conversion between the narrow
string and the path's wide characters is the identity on ASCII text; the theorems about
`GetProjectName` are stated for ASCII paths. -/

/-- A directory separator: `/` or `\`. -/
def isSlash (c : Byte) : Bool := decide (c.val = 0x2F) || decide (c.val = 0x5C)

/-- An ASCII letter (a drive letter). -/
def isDriveLetter (c : Byte) : Bool :=
  (decide (0x41 ≤ c.val) && decide (c.val ≤ 0x5A)) || (decide (0x61 ≤ c.val) && decide (c.val ≤ 0x7A))

/-- The length of the root-name of a path: `X:` for a drive, the first three characters
of `\\?\`, `\\.\` and `\??\` device prefixes, `\\server` up to the next separator, and
nothing otherwise. -/
def findRootNameEnd (s : Str) : Nat :=
  match s with
  | c0 :: c1 :: rest =>
    if isDriveLetter c0 && decide (c1.val = 0x3A) then 2
    else if !isSlash c0 then 0
    else
      match rest with
      | c2 :: c3 :: rest4 =>
        if isSlash c3 && (rest4.isEmpty || !isSlash (rest4.headD 0))
            && ((isSlash c1 && (decide (c2.val = 0x3F) || decide (c2.val = 0x2E)))
              || (decide (c1.val = 0x3F) && decide (c2.val = 0x3F))) then 3
        else if isSlash c1 && !isSlash c2 then
          3 + ((c3 :: rest4).takeWhile (fun c => !isSlash c)).length
        else 0
      | [c2] => if isSlash c1 && !isSlash c2 then 3 else 0
      | [] => 0
  | _ => 0

/-- The relative-path of a path: what follows the root-name and the separators behind it. -/
def relativePath (s : Str) : Str := (s.drop (findRootNameEnd s)).dropWhile isSlash

/-- The member `filename()`: going back from the end of the relative-path while the
character before is not a separator. -/
def filename (s : Str) : Str :=
  ((relativePath s).reverse.takeWhile (fun c => !isSlash c)).reverse

/-- `ProcessMonitor::GetProjectName`. -/
def GetProjectName (projectPath : Str) : Str :=
  if projectPath = [] then [] else filename projectPath

/-- The body of the `while (std::getline(file, line))` loop of `ParseProjectVersionFile`:
the value returned from inside the loop for this line, `none` when the loop goes on. -/
def parseVersionLine (line : Str) : Option Str :=
  if find line (lit "m_EditorVersion:") 0 ≠ npos then
    let colonPos := findChar line 0x3A 0
    if colonPos ≠ npos then
      let version := substr line (colonPos + 1) npos
      let version := version.drop (find_first_not_of version (lit " \t") 0)
      let version := version.take (sizeAdd (find_last_not_of version (lit " \t\r\n")) 1)
      if version ≠ [] then
        let parts := (getlineAll 0x2E version).take 2
        if parts.length ≥ 2 then some (parts.getD 0 [] ++ lit "." ++ parts.getD 1 [])
        else none
      else none
    else none
  else none

/-- `ProcessMonitor::ParseProjectVersionFile`; `file` is the text the opened stream
delivers, `none` when the file cannot be opened. -/
def ParseProjectVersionFile (file : Option Str) : Str :=
  match file with
  | none => []
  | some content => ((getlineAll 0x0A content).findSome? parseVersionLine).getD []

/-- `ProcessMonitor::GetUnityEditorVersion`; `fileExists` is the result of
`std::filesystem::exists` for `ProjectSettings\ProjectVersion.txt` under the project. -/
def GetUnityEditorVersion (fileExists : Bool) (file : Option Str) : Str :=
  if !fileExists then [] else ParseProjectVersionFile file

/-! ## Filter policy (`globals.h`, file_watcher.cpp) -/

/-- `Config::UNITY_FILE_EXTENSIONS`. -/
def UNITY_FILE_EXTENSIONS : List Str :=
  [lit ".unity", lit ".prefab", lit ".asset", lit ".mat", lit ".shader", lit ".hlsl",
   lit ".anim", lit ".controller", lit ".json"]

/-- `Config::IGNORE_FOLDERS`. -/
def IGNORE_FOLDERS : List Str :=
  [lit "Library", lit "Temp", lit "Logs", lit "obj", lit "bin", lit "UserSettings",
   lit ".vs", lit ".idea", lit ".vscode", lit ".git", lit "Build"]

/-- `FileWatcher::IsUnityFile`. -/
def IsUnityFile (fileName : Str) : Bool :=
  let dotPos := find_last_of fileName 0x2E
  if dotPos = npos then false
  else
    let extension := (substr fileName dotPos npos).map tolower
    decide (extension ∈ UNITY_FILE_EXTENSIONS)

/-- `FileWatcher::ShouldIgnoreFolder`. -/
def ShouldIgnoreFolder (folderName : Str) : Bool := decide (folderName ∈ IGNORE_FOLDERS)

/-- The call `std::replace(begin, end, old, new)`. -/
def replaceChar (old new : Byte) (s : Str) : Str := s.map (fun c => if c = old then new else c)

/-- `struct FileChangeEvent` (globals.h); `timestamp` in clock ticks. -/
structure FileChangeEvent where
  filePath : Str := []
  fileName : Str := []
  projectPath : Str := []
  projectName : Str := []
  unityVersion : Str := []
  action : Nat := 0
  timestamp : Int := 0
deriving DecidableEq, Repr

/-- One `FILE_NOTIFY_INFORMATION` record of the buffer: its action code and the UTF-8 text
`WideCharToMultiByte` yields for its name (`none` when that call returns no length). -/
structure NotifyRecord where
  Action : Nat
  FileName : Option Str
deriving DecidableEq, Repr

/-- The flag `shouldIgnore` computed in `ProcessFileChanges` from the normalized name. -/
def shouldIgnoreName (fileName : Str) : Bool :=
  (getlineAll 0x2F fileName).any ShouldIgnoreFolder

/-- The body of the `do` loop of `ProcessFileChanges` for one record: the event handed to
the callback, if any.  `now` is the clock value read for the event. -/
def processRecord (projectPath projectName : Str) (now : Int) (r : NotifyRecord) :
    Option FileChangeEvent :=
  match r.FileName with
  | none => none
  | some name =>
    let fullPath := replaceChar 0x5C 0x2F (projectPath ++ lit "\\" ++ name)
    let fileName := replaceChar 0x5C 0x2F name
    if !shouldIgnoreName fileName && IsUnityFile fileName then
      some { filePath := fullPath, fileName := fileName, projectPath := projectPath,
             projectName := projectName, action := r.Action, timestamp := now }
    else none

/-- `FileWatcher::ProcessFileChanges` on the chain of records of a buffer: the events
handed to the callback, in order. -/
def ProcessFileChanges (projectPath projectName : Str) (now : Int)
    (records : List NotifyRecord) : List FileChangeEvent :=
  records.filterMap (processRecord projectPath projectName now)

/-! ## `FileWatcher` (file_watcher.h, file_watcher.cpp) -/

/-- The fields of `struct WatchedProject` the manager acts on. -/
structure WatchedProject where
  projectPath : Str
  projectName : Str
  directoryHandle : Nat
  shouldStop : Bool
deriving DecidableEq, Repr

/-- The watched set of `class FileWatcher`, with counters of the worker threads started
and of the worker threads detached after a join time-out.  Every member function holds
`projectsMutex` for its whole body, so each call is one atomic step. -/
structure FileWatcher where
  watchedProjects : List WatchedProject
  threadsStarted : Nat
  threadsDetached : Nat
deriving DecidableEq, Repr

/-- The constructor `FileWatcher::FileWatcher()`. -/
def FileWatcher.create : FileWatcher :=
  { watchedProjects := [], threadsStarted := 0, threadsDetached := 0 }

/-- What the operating system answers during one `StartWatching` call:
`std::filesystem::exists(projectPath)` and the handle of `CreateFileA` (`none` for
`INVALID_HANDLE_VALUE`). -/
structure StartEnv where
  pathExists : Bool
  createFile : Option Nat
deriving DecidableEq, Repr

/-- `FileWatcher::StartWatching`: the returned `bool` and the manager afterwards. -/
def StartWatching (w : FileWatcher) (projectPath projectName : Str) (env : StartEnv) :
    Bool × FileWatcher :=
  if w.watchedProjects.any (fun project => decide (project.projectPath = projectPath)) then
    (true, w)
  else if !env.pathExists then (false, w)
  else
    match env.createFile with
    | none => (false, w)
    | some handle =>
      (true,
        { w with
          watchedProjects := w.watchedProjects ++
            [{ projectPath := projectPath, projectName := projectName,
               directoryHandle := handle, shouldStop := false }],
          threadsStarted := w.threadsStarted + 1 })

/-- `FileWatcher::StopWatching`; `joined project` tells whether the worker of that entry
ends within the five seconds the call waits for it. -/
def StopWatching (w : FileWatcher) (projectPath : Str) (joined : WatchedProject → Bool) :
    FileWatcher :=
  { w with
    watchedProjects := w.watchedProjects.filter (fun project => !decide (project.projectPath = projectPath)),
    threadsDetached := w.threadsDetached +
      ((w.watchedProjects.filter
        (fun project => decide (project.projectPath = projectPath))).filter
          (fun project => !joined project)).length }

/-- `FileWatcher::StopAllWatching`; `joined` as for `StopWatching`, with three seconds. -/
def StopAllWatching (w : FileWatcher) (joined : WatchedProject → Bool) : FileWatcher :=
  { w with
    watchedProjects := [],
    threadsDetached := w.threadsDetached +
      (w.watchedProjects.filter (fun project => !joined project)).length }

/-- `FileWatcher::GetWatchedProjects`. -/
def GetWatchedProjects (w : FileWatcher) : List Str :=
  w.watchedProjects.map (fun project => project.projectPath)

/-- `FileWatcher::GetWatchedProjectCount`. -/
def GetWatchedProjectCount (w : FileWatcher) : Nat := w.watchedProjects.length

/-- A call on the watch manager. -/
inductive WatchOp where
  | start (projectPath projectName : Str) (env : StartEnv)
  | stop (projectPath : Str) (joined : WatchedProject → Bool)
  | stopAll (joined : WatchedProject → Bool)

/-- The manager after one call. -/
def applyWatchOp (w : FileWatcher) : WatchOp → FileWatcher
  | WatchOp.start projectPath projectName env => (StartWatching w projectPath projectName env).2
  | WatchOp.stop projectPath joined => StopWatching w projectPath joined
  | WatchOp.stopAll joined => StopAllWatching w joined

/-- The manager after a sequence of calls. -/
def runWatchOps (w : FileWatcher) (ops : List WatchOp) : FileWatcher :=
  ops.foldl applyWatchOp w

/-! ## Reference notions for the filter and path claims -/

/-- The segments of a path split at every `/` (an empty path has one empty segment). -/
def pathSegments : Str → List Str
  | [] => [[]]
  | c :: rest =>
    if c.val = 0x2F then [] :: pathSegments rest
    else
      match pathSegments rest with
      | seg :: more => (c :: seg) :: more
      | [] => [[c]]

/-! ## Process discovery (`process_monitor.cpp`) -/

/-- `struct UnityInstance` (globals.h). -/
structure UnityInstance where
  processId : Nat
  projectPath : Str
  projectName : Str
  editorVersion : Str
deriving DecidableEq, Repr

/-- `std::map<DWORD, UnityInstance>`: its entries in the order of iteration. -/
abbrev ActiveMap := List (Nat × UnityInstance)

/-- The member `find(key)`: the mapped instance, `none` for `end()`. -/
def mapFind : ActiveMap → Nat → Option UnityInstance
  | [], _ => none
  | (k, v) :: rest, key => if k = key then some v else mapFind rest key

/-- The assignment `activeInstances[key] = value`, keeping the keys ascending. -/
def mapAssign : ActiveMap → Nat → UnityInstance → ActiveMap
  | [], key, value => [(key, value)]
  | (k, v) :: rest, key, value =>
    if key < k then (key, value) :: (k, v) :: rest
    else if key = k then (key, value) :: rest
    else (k, v) :: mapAssign rest key value

/-- The keys of the map. -/
def mapKeys (m : ActiveMap) : List Nat := m.map (fun e => e.1)

/-- `ProcessMonitor::GetNewInstances`; `currentInstances` is what `ScanUnityProcesses()`
returned.  The result is `newInstances` and the map afterwards. -/
def GetNewInstances (activeInstances : ActiveMap) (currentInstances : List UnityInstance) :
    List UnityInstance × ActiveMap :=
  currentInstances.foldl
    (fun st inst =>
      if (mapFind st.2 inst.processId).isNone then
        (st.1 ++ [inst], mapAssign st.2 inst.processId inst)
      else st)
    ([], activeInstances)

/-- `ProcessMonitor::GetClosedInstances`; `isProcessRunning` is `IsProcessRunning`.  The
result is `closedInstances` and the map afterwards. -/
def GetClosedInstances : ActiveMap → (Nat → Bool) → List UnityInstance × ActiveMap
  | [], _ => ([], [])
  | (pid, inst) :: rest, isProcessRunning =>
    if !isProcessRunning pid then
      (inst :: (GetClosedInstances rest isProcessRunning).1,
        (GetClosedInstances rest isProcessRunning).2)
    else
      ((GetClosedInstances rest isProcessRunning).1,
        (pid, inst) :: (GetClosedInstances rest isProcessRunning).2)

/-- The C function `isspace` in the "C" locale: space and the controls `\t` to `\r`; for a
`char` of negative value the runtime answers no. -/
def isspace (c : Byte) : Bool :=
  decide (c.val = 0x20) || (decide (0x09 ≤ c.val) && decide (c.val ≤ 0x0D))

/-- How a call ends: with a value, or with the exception `std::out_of_range`. -/
inductive Outcome (α : Type) where
  | returned (value : α)
  | out_of_range
deriving DecidableEq, Repr

/-- The member `substr(pos, n)` with its range check: it throws when `pos > size()`. -/
def substrChecked (s : Str) (pos n : Nat) : Outcome Str :=
  if pos > s.length then Outcome.out_of_range else Outcome.returned ((s.drop pos).take n)

/-- Sequencing: the rest of an expression is evaluated with the value of its first part,
and not at all when that part threw. -/
def Outcome.bind {α β : Type} : Outcome α → (α → Outcome β) → Outcome β
  | Outcome.returned value, rest => rest value
  | Outcome.out_of_range, _ => Outcome.out_of_range

/-- `WakaTimeClient::GetMaskedApiKey`. -/
def GetMaskedApiKey (c : WakaTimeClient) : Outcome Str :=
  Outcome.bind (substrChecked c.apiKey 0 8) (fun first =>
    Outcome.bind (substrChecked c.apiKey (sizeSub c.apiKey.length 4) npos) (fun last =>
      Outcome.returned (first ++ lit "****" ++ last)))

/-- `WakaTimeClient::LoadApiKeyFromFile`; `file` is the text the stream on
`wakatime_config.txt` delivers, `none` when it cannot be opened.  The result is how the
call ends (the returned `bool`, or the exception leaving it) and the client afterwards. -/
def LoadApiKeyFromFile (c : WakaTimeClient) (file : Option Str) :
    Outcome Bool × WakaTimeClient :=
  match file with
  | none => (Outcome.returned false, c)
  | some content =>
    let line := (getlineAll 0x0A content).headD []
    let c := { c with apiKey := line.filter (fun ch => !isspace ch) }
    if c.apiKey = [] then (Outcome.returned false, c)
    else (Outcome.bind (GetMaskedApiKey c) (fun _ => Outcome.returned true), c)

/-! ## From change events to heartbeats -/

/-- The action code `FILE_ACTION_ADDED` of the Windows SDK. -/
def FILE_ACTION_ADDED : Nat := 1

/-- The action code `FILE_ACTION_MODIFIED` of the Windows SDK. -/
def FILE_ACTION_MODIFIED : Nat := 3

/-- The action code `FILE_ACTION_RENAMED_NEW_NAME` of the Windows SDK. -/
def FILE_ACTION_RENAMED_NEW_NAME : Nat := 5

/-- `WakaTimeClient::SendHeartbeatFromEvent`; `now` is the value of `GetUnixTimestamp()`. -/
def SendHeartbeatFromEvent (c : WakaTimeClient) (event : FileChangeEvent) (now : Int) :
    WakaTimeClient :=
  let isWrite := decide (event.action = FILE_ACTION_MODIFIED)
    || decide (event.action = FILE_ACTION_ADDED)
    || decide (event.action = FILE_ACTION_RENAMED_NEW_NAME)
  SendHeartbeat c event.filePath event.projectName event.unityVersion isWrite now

/-! ## The queue lock (`queueMutex`) and the threads that take it

The three places that construct a `std::lock_guard` on `queueMutex` are the block in
`SenderThreadFunction`, the block in `SendHeartbeat` and `GetQueueSize`.  Each routine is
cut into steps at the construction and the destruction of its guard and at its calls; a
schedule picks the thread that takes the next step. -/

/-- What a step does besides reading and writing memory. -/
inductive StepKind where
  | compute
  | blocked
  | network
  | sleeps
  | idle
deriving DecidableEq, Repr

/-- A thread, as the owner of `queueMutex`: the sender thread, or one of the threads that
call into the client. -/
inductive ThreadId where
  | sender
  | caller (t : Nat)
deriving DecidableEq, Repr

/-- Where the sender thread stands in `SenderThreadFunction`, with its locals. -/
inductive SenderPc where
  | loopTest
  | lockQueue
  | takeFront
  | unlockQueue (taken : Option HeartbeatData)
  | serialize (heartbeat : HeartbeatData)
  | send (jsonData : Str)
  | sleepAfterSend
  | sleepIdle
  | stopped
deriving DecidableEq, Repr

/-- Where a calling thread stands: in `SendHeartbeat` (the first four points, with the
arguments or the record built from them), in `GetQueueSize` (the next three), or outside
the client. -/
inductive CallerPc where
  | entry (filePath projectName unityVersion : Str) (isWrite : Bool)
  | lockQueue (heartbeat : HeartbeatData)
  | push (heartbeat : HeartbeatData)
  | unlockQueue
  | sizeLock
  | sizeRead
  | sizeUnlock (size : Nat)
  | returned
deriving DecidableEq, Repr

/-- The client, the owner of `queueMutex` if it is locked, and the threads. -/
structure SysState where
  client : WakaTimeClient
  owner : Option ThreadId
  sender : SenderPc
  callers : Nat → CallerPc

/-- The sender thread stands between the construction and the destruction of its guard. -/
def senderHolds : SenderPc → Bool
  | SenderPc.takeFront => true
  | SenderPc.unlockQueue _ => true
  | _ => false

/-- A calling thread stands between the construction and the destruction of its guard. -/
def callerHolds : CallerPc → Bool
  | CallerPc.push _ => true
  | CallerPc.unlockQueue => true
  | CallerPc.sizeRead => true
  | CallerPc.sizeUnlock _ => true
  | _ => false

/-- The next step of `SenderThreadFunction`; `env` is what the WinHTTP calls return if the
step is the call of `SendHttpRequest`. -/
def stepSender (s : SysState) (env : HttpEnv) : SysState × StepKind :=
  match s.sender with
  | SenderPc.loopTest =>
    if s.client.shouldStop then ({ s with sender := SenderPc.stopped }, StepKind.compute)
    else ({ s with sender := SenderPc.lockQueue }, StepKind.compute)
  | SenderPc.lockQueue =>
    match s.owner with
    | none =>
      ({ s with owner := some ThreadId.sender, sender := SenderPc.takeFront }, StepKind.compute)
    | some _ => (s, StepKind.blocked)
  | SenderPc.takeFront =>
    match s.client.heartbeatQueue with
    | [] => ({ s with sender := SenderPc.unlockQueue none }, StepKind.compute)
    | heartbeat :: rest =>
      ({ s with client := { s.client with heartbeatQueue := rest },
                sender := SenderPc.unlockQueue (some heartbeat) }, StepKind.compute)
  | SenderPc.unlockQueue taken =>
    ({ s with owner := none,
              sender := match taken with
                | some heartbeat => SenderPc.serialize heartbeat
                | none => SenderPc.sleepIdle }, StepKind.compute)
  | SenderPc.serialize heartbeat =>
    ({ s with sender := SenderPc.send (HeartbeatToJson heartbeat) }, StepKind.compute)
  | SenderPc.send jsonData =>
    ({ s with client := (SendHttpRequest s.client jsonData env).2,
              sender := SenderPc.sleepAfterSend }, StepKind.network)
  | SenderPc.sleepAfterSend => ({ s with sender := SenderPc.loopTest }, StepKind.sleeps)
  | SenderPc.sleepIdle => ({ s with sender := SenderPc.loopTest }, StepKind.sleeps)
  | SenderPc.stopped => (s, StepKind.idle)

/-- Move the calling thread `t` to the point `pc`. -/
def setCaller (s : SysState) (t : Nat) (pc : CallerPc) : SysState :=
  { s with callers := fun u => if u = t then pc else s.callers u }

/-- The next step of the calling thread `t`; `now` is what `GetUnixTimestamp()` returns if
the step reads the clock. -/
def stepCaller (s : SysState) (t : Nat) (now : Int) : SysState × StepKind :=
  match s.callers t with
  | CallerPc.entry filePath projectName unityVersion isWrite =>
    if !s.client.initialized then (setCaller s t CallerPc.returned, StepKind.compute)
    else
      (setCaller s t (CallerPc.lockQueue
        { entity := filePath, project := projectName, language := lit "Unity",
          machine := s.client.machineName, time := now, is_write := isWrite,
          editor := if unityVersion ≠ [] then lit "Unity " ++ unityVersion else lit "Unity" }),
       StepKind.compute)
  | CallerPc.lockQueue heartbeat =>
    match s.owner with
    | none =>
      (setCaller { s with owner := some (ThreadId.caller t) } t (CallerPc.push heartbeat),
       StepKind.compute)
    | some _ => (s, StepKind.blocked)
  | CallerPc.push heartbeat =>
    (setCaller { s with client :=
        { s.client with heartbeatQueue := s.client.heartbeatQueue ++ [heartbeat] } }
      t CallerPc.unlockQueue, StepKind.compute)
  | CallerPc.unlockQueue =>
    (setCaller { s with owner := none } t CallerPc.returned, StepKind.compute)
  | CallerPc.sizeLock =>
    match s.owner with
    | none =>
      (setCaller { s with owner := some (ThreadId.caller t) } t CallerPc.sizeRead,
       StepKind.compute)
    | some _ => (s, StepKind.blocked)
  | CallerPc.sizeRead =>
    (setCaller s t (CallerPc.sizeUnlock s.client.heartbeatQueue.length), StepKind.compute)
  | CallerPc.sizeUnlock _ =>
    (setCaller { s with owner := none } t CallerPc.returned, StepKind.compute)
  | CallerPc.returned => (s, StepKind.idle)

/-- What the schedule lets happen next: a step of the sender thread, a step of a calling
thread, a calling thread that is outside the client entering `SendHeartbeat` or
`GetQueueSize`, or the store `shouldStop = true` of the destructor. -/
inductive Sched where
  | sender (env : HttpEnv)
  | caller (t : Nat) (now : Int)
  | callSendHeartbeat (t : Nat) (filePath projectName unityVersion : Str) (isWrite : Bool)
  | callGetQueueSize (t : Nat)
  | requestStop

/-- One scheduled event, with the kind of the step taken. -/
def stepSys (s : SysState) : Sched → SysState × StepKind
  | Sched.sender env => stepSender s env
  | Sched.caller t now => stepCaller s t now
  | Sched.callSendHeartbeat t filePath projectName unityVersion isWrite =>
    if s.callers t = CallerPc.returned then
      (setCaller s t (CallerPc.entry filePath projectName unityVersion isWrite),
       StepKind.compute)
    else (s, StepKind.idle)
  | Sched.callGetQueueSize t =>
    if s.callers t = CallerPc.returned then (setCaller s t CallerPc.sizeLock, StepKind.compute)
    else (s, StepKind.idle)
  | Sched.requestStop =>
    ({ s with client := { s.client with shouldStop := true } }, StepKind.compute)

/-- The state after a schedule. -/
def runSys (s : SysState) (schedule : List Sched) : SysState :=
  schedule.foldl (fun st ev => (stepSys st ev).1) s

/-- The start: the sender thread enters its loop, the lock is free, every other thread is
outside the client. -/
def initSys (c : WakaTimeClient) : SysState :=
  { client := c, owner := none, sender := SenderPc.loopTest, callers := fun _ => CallerPc.returned }

/-- The lock is owned by exactly the thread that stands inside its guarded block. -/
def lockInvariant (s : SysState) : Prop :=
  (s.owner = some ThreadId.sender ↔ senderHolds s.sender = true) ∧
  (∀ t, s.owner = some (ThreadId.caller t) ↔ callerHolds (s.callers t) = true)

/-! ## Reference notions for the discovery and credential claims -/

/-- The instances of a scan whose process id is not in `seen`, each process id once (its
first occurrence), in scan order. -/
def firstOccurrences : List Nat → List UnityInstance → List UnityInstance
  | _, [] => []
  | seen, inst :: rest =>
    if inst.processId ∈ seen then firstOccurrences seen rest
    else inst :: firstOccurrences (inst.processId :: seen) rest

/-- A string without its leading and trailing white space. -/
def trimSpaces (s : Str) : Str :=
  ((s.dropWhile isspace).reverse.dropWhile isspace).reverse

/-- A space or a tab. -/
def isBlank (c : Byte) : Bool := decide (c ∈ lit " \t")

/-- The command line from the first place on where the flag `-projectpath` stands in any
letter case; `none` when it stands nowhere. -/
def suffixFromFlag : Str → Option Str
  | [] => none
  | c :: rest =>
    if (lit "-projectpath").isPrefixOf ((c :: rest).map tolower) then some (c :: rest)
    else suffixFromFlag rest

/-- The reference for `ExtractProjectPath`: from the flag skip to the first blank and over
the run of blanks; a quoted argument is the text up to the closing quote (empty without
one), any other argument the text up to the next blank or the end. -/
def extractProjectPathRef (commandLine : Str) : Str :=
  match suffixFromFlag commandLine with
  | none => []
  | some fromFlag =>
    match (fromFlag.dropWhile (fun c => !isBlank c)).dropWhile isBlank with
    | [] => []
    | c :: rest =>
      if c = (0x22 : Byte) then
        if (0x22 : Byte) ∈ rest then rest.takeWhile (fun x => !decide (x = (0x22 : Byte)))
        else []
      else (c :: rest).takeWhile (fun x => !isBlank x)

/-! # Theorems -/

/-! ## Queue discipline -/

theorem SendHttpRequest_queue (c : WakaTimeClient) (j : Str) (env : HttpEnv) :
    (SendHttpRequest c j env).2.heartbeatQueue = c.heartbeatQueue := by
  unfold SendHttpRequest
  repeat' split
  all_goals rfl

theorem senderIteration_nil (c : WakaTimeClient) (env : HttpEnv) (h : c.heartbeatQueue = []) :
    (senderIteration c env).client = c ∧ (senderIteration c env).heartbeat = none := by
  unfold senderIteration
  rw [h]
  exact ⟨rfl, rfl⟩

theorem senderIteration_cons (c : WakaTimeClient) (env : HttpEnv) (hb : HeartbeatData)
    (rest : List HeartbeatData) (h : c.heartbeatQueue = hb :: rest) :
    (senderIteration c env).client.heartbeatQueue = rest ∧
      (senderIteration c env).heartbeat = some hb := by
  unfold senderIteration
  rw [h]
  exact ⟨SendHttpRequest_queue _ _ _, rfl⟩

theorem senderIteration_queue (c : WakaTimeClient) (env : HttpEnv) :
    (senderIteration c env).heartbeat.toList ++ (senderIteration c env).client.heartbeatQueue
      = c.heartbeatQueue := by
  cases h : c.heartbeatQueue with
  | nil =>
    obtain ⟨h1, h2⟩ := senderIteration_nil c env h
    rw [h1, h2, h]
    rfl
  | cons hb rest =>
    obtain ⟨h1, h2⟩ := senderIteration_cons c env hb rest h
    rw [h1, h2]
    rfl

theorem SendHeartbeat_queue (c : WakaTimeClient) (f p v : Str) (w : Bool) (t : Int) :
    (SendHeartbeat c f p v w t).heartbeatQueue
      = c.heartbeatQueue
        ++ (SendHeartbeat c f p v w t).heartbeatQueue.drop c.heartbeatQueue.length := by
  unfold SendHeartbeat
  split <;> simp

/-- Nothing is lost or duplicated in a run: the records taken by the sender followed by
the records still pending are the records pending at the start followed by those pushed. -/
theorem runOps_conservation (ops : List ClientOp) :
    ∀ c : WakaTimeClient,
      (runOps c ops).popped ++ (runOps c ops).client.heartbeatQueue
        = c.heartbeatQueue ++ (runOps c ops).pushed := by
  induction ops with
  | nil => intro c; simp [runOps]
  | cons op ops ih =>
    intro c
    cases op with
    | enqueue f p v w t =>
      simp only [runOps]
      rw [ih, ← List.append_assoc, ← SendHeartbeat_queue]
    | senderStep env =>
      simp only [runOps]
      rw [List.append_assoc, ih, ← List.append_assoc, senderIteration_queue]

/-- C1 (the code departs from the claim): one record is enqueued on an initialized client
and the sender loop runs until the queue is empty.  When `WinHttpConnect` returns
`nullptr`, and likewise when the request is sent but `WinHttpReceiveResponse` fails, the
record is consumed but neither counter moves, so `sent + failed` is 0 and not 1. -/
theorem C1_connect_failure_not_counted :
    (enqueueAll (queuedClient []) [(lit "C:/P/a.unity", lit "P", [], true, 1700000000)]
      ).heartbeatQueue.length = 1 ∧
    (SenderThreadFunction
        (enqueueAll (queuedClient []) [(lit "C:/P/a.unity", lit "P", [], true, 1700000000)])
        [⟨none, none, false, false, none⟩]).heartbeatQueue = [] ∧
    (SenderThreadFunction
        (enqueueAll (queuedClient []) [(lit "C:/P/a.unity", lit "P", [], true, 1700000000)])
        [⟨none, none, false, false, none⟩]).totalSent
      + (SenderThreadFunction
        (enqueueAll (queuedClient []) [(lit "C:/P/a.unity", lit "P", [], true, 1700000000)])
        [⟨none, none, false, false, none⟩]).totalFailed = 0 ∧
    (SenderThreadFunction
        (enqueueAll (queuedClient []) [(lit "C:/P/a.unity", lit "P", [], true, 1700000000)])
        [⟨some 1, some 2, true, false, none⟩]).heartbeatQueue = [] ∧
    (SenderThreadFunction
        (enqueueAll (queuedClient []) [(lit "C:/P/a.unity", lit "P", [], true, 1700000000)])
        [⟨some 1, some 2, true, false, none⟩]).totalSent
      + (SenderThreadFunction
        (enqueueAll (queuedClient []) [(lit "C:/P/a.unity", lit "P", [], true, 1700000000)])
        [⟨some 1, some 2, true, false, none⟩]).totalFailed = 0 := by
  decide

/-- C2: in every interleaving of `SendHeartbeat` calls and sender-loop passes that starts
with an empty queue, the records the sender takes from the queue are, in order, a prefix
of the records pushed on it. -/
theorem C2_dispatch_is_fifo (c : WakaTimeClient) (ops : List ClientOp)
    (h : c.heartbeatQueue = []) :
    (runOps c ops).popped <+: (runOps c ops).pushed := by
  have hc := runOps_conservation ops c
  rw [h, List.nil_append] at hc
  exact ⟨_, hc⟩

theorem C2_dispatch_is_fifo_witness :
    (readyClient (lit "key") (lit "PC") 1).heartbeatQueue = [] ∧
    (runOps (readyClient (lit "key") (lit "PC") 1)
        [ClientOp.enqueue (lit "a.unity") (lit "P") [] true 1,
         ClientOp.enqueue (lit "b.mat") (lit "P") [] true 2,
         ClientOp.senderStep ⟨some 1, some 2, true, true, some 201⟩,
         ClientOp.enqueue (lit "c.anim") (lit "P") [] true 3,
         ClientOp.senderStep ⟨none, none, false, false, none⟩]).popped
      <+: (runOps (readyClient (lit "key") (lit "PC") 1)
        [ClientOp.enqueue (lit "a.unity") (lit "P") [] true 1,
         ClientOp.enqueue (lit "b.mat") (lit "P") [] true 2,
         ClientOp.senderStep ⟨some 1, some 2, true, true, some 201⟩,
         ClientOp.enqueue (lit "c.anim") (lit "P") [] true 3,
         ClientOp.senderStep ⟨none, none, false, false, none⟩]).pushed :=
  ⟨rfl, C2_dispatch_is_fifo _ _ rfl⟩

/-- C4: a sender-loop pass on a queue `hb :: rest` takes exactly `hb` and leaves `rest`
as it was, whatever the WinHTTP calls return; and in every run the records handed to
a send attempt are no more than the records pending or pushed, counted with
multiplicity, so a record is sent at most once per time it was enqueued. -/
theorem C4_pass_removes_head_only (c : WakaTimeClient) (env : HttpEnv) (hb : HeartbeatData)
    (rest : List HeartbeatData) (h : c.heartbeatQueue = hb :: rest) :
    (senderIteration c env).client.heartbeatQueue = rest ∧
    (senderIteration c env).heartbeat = some hb ∧
    (senderIteration c env).jsonData = some (HeartbeatToJson hb) ∧
    ∀ (ops : List ClientOp) (r : HeartbeatData),
      (runOps c ops).popped.count r ≤ (c.heartbeatQueue ++ (runOps c ops).pushed).count r := by
  refine ⟨(senderIteration_cons c env hb rest h).1, (senderIteration_cons c env hb rest h).2,
    ?_, ?_⟩
  · unfold senderIteration
    rw [h]
  · intro ops r
    rw [← runOps_conservation ops c, List.count_append]
    exact Nat.le_add_right _ _

theorem C4_pass_removes_head_only_witness :
    (queuedClient [sampleHeartbeat 1, sampleHeartbeat 2]).heartbeatQueue
      = sampleHeartbeat 1 :: [sampleHeartbeat 2] ∧
    (senderIteration (queuedClient [sampleHeartbeat 1, sampleHeartbeat 2])
        ⟨some 1, some 2, true, true, some 500⟩).client.heartbeatQueue
      = [sampleHeartbeat 2] ∧
    (senderIteration (queuedClient [sampleHeartbeat 1, sampleHeartbeat 2])
        ⟨some 1, some 2, true, true, some 500⟩).heartbeat = some (sampleHeartbeat 1) :=
  ⟨rfl,
   (C4_pass_removes_head_only (queuedClient [sampleHeartbeat 1, sampleHeartbeat 2])
      ⟨some 1, some 2, true, true, some 500⟩ (sampleHeartbeat 1) [sampleHeartbeat 2] rfl).1,
   (C4_pass_removes_head_only (queuedClient [sampleHeartbeat 1, sampleHeartbeat 2])
      ⟨some 1, some 2, true, true, some 500⟩ (sampleHeartbeat 1) [sampleHeartbeat 2] rfl).2.1⟩

/-! ## Counting the outcome of a send -/

/-- Below `INT_MAX` the counter operator `++` adds one. -/
theorem atomicIncr_eq_add_one (x : Int) (hlo : -2 ^ 31 ≤ x) (hhi : x < 2 ^ 31 - 1) :
    atomicIncr x = x + 1 := by
  unfold atomicIncr
  omega

/-- C10: when the WinHTTP calls succeed up to the status query and the status code is `s`,
`SendHttpRequest` returns `true` exactly when `200 ≤ s < 300`; in that case `totalSent` is
incremented (`++`) and `totalFailed` is untouched, and for every other `s` it returns
`false`, `totalFailed` is incremented and `totalSent` is untouched.  The increment is
`+ 1` for every counter value below `INT_MAX`. -/
theorem C10_status_decides_success (c : WakaTimeClient) (jsonData : Str) (env : HttpEnv)
    (s : Nat) (hinit : c.initialized = true) (hsess : c.hSession.isSome = true)
    (hconn : env.connect.isSome = true) (hopen : env.openRequest.isSome = true)
    (hsend : env.sendRequest = true) (hrecv : env.receiveResponse = true)
    (hq : env.queryHeaders = some s) :
    ((SendHttpRequest c jsonData env).1 = true ↔ (200 ≤ s ∧ s < 300)) ∧
    ((200 ≤ s ∧ s < 300) →
      (SendHttpRequest c jsonData env).2.totalSent = atomicIncr c.totalSent ∧
      (SendHttpRequest c jsonData env).2.totalFailed = c.totalFailed) ∧
    (¬ (200 ≤ s ∧ s < 300) →
      (SendHttpRequest c jsonData env).1 = false ∧
      (SendHttpRequest c jsonData env).2.totalFailed = atomicIncr c.totalFailed ∧
      (SendHttpRequest c jsonData env).2.totalSent = c.totalSent) ∧
    (∀ x : Int, -2 ^ 31 ≤ x → x < 2 ^ 31 - 1 → atomicIncr x = x + 1) := by
  have hsess' : c.hSession.isNone = false := by
    cases hx : c.hSession with
    | none => rw [hx] at hsess; cases hsess
    | some _ => rfl
  have hconn' : env.connect.isNone = false := by
    cases hx : env.connect with
    | none => rw [hx] at hconn; cases hconn
    | some _ => rfl
  have hopen' : env.openRequest.isNone = false := by
    cases hx : env.openRequest with
    | none => rw [hx] at hopen; cases hopen
    | some _ => rfl
  refine ⟨?_, ?_, ?_, atomicIncr_eq_add_one⟩
  · unfold SendHttpRequest
    simp only [hinit, hsess', hconn', hopen', hsend, hrecv, hq]
    by_cases h1 : 200 ≤ s ∧ s < 300
    · simp [h1.1, h1.2]
    · simp [h1]
  · intro h1
    unfold SendHttpRequest
    simp only [hinit, hsess', hconn', hopen', hsend, hrecv, hq]
    simp [h1.1, h1.2]
  · intro h1
    have h2 : ¬ (s ≥ 200 ∧ s < 300) := h1
    unfold SendHttpRequest
    simp only [hinit, hsess', hconn', hopen', hsend, hrecv, hq]
    have h3 : (decide (s ≥ 200) && decide (s < 300)) = false := by
      simp only [Bool.and_eq_false_iff, decide_eq_false_iff_not]
      by_cases h4 : s ≥ 200
      · exact Or.inr (fun h5 => h2 ⟨h4, h5⟩)
      · exact Or.inl h4
    simp [h3]

theorem C10_status_decides_success_witness :
    (queuedClient []).initialized = true ∧
    ((SendHttpRequest (queuedClient []) (lit "\x7b\x7d") ⟨some 1, some 2, true, true, some 201⟩).1
        = true ↔ (200 ≤ 201 ∧ 201 < 300)) ∧
    ((SendHttpRequest (queuedClient []) (lit "\x7b\x7d") ⟨some 1, some 2, true, true, some 404⟩).1
        = false ∧
      (SendHttpRequest (queuedClient []) (lit "\x7b\x7d")
        ⟨some 1, some 2, true, true, some 404⟩).2.totalFailed
        = atomicIncr (queuedClient []).totalFailed ∧
      (SendHttpRequest (queuedClient []) (lit "\x7b\x7d")
        ⟨some 1, some 2, true, true, some 404⟩).2.totalSent = (queuedClient []).totalSent) :=
  ⟨rfl,
   (C10_status_decides_success (queuedClient []) (lit "\x7b\x7d")
      ⟨some 1, some 2, true, true, some 201⟩ 201 rfl rfl rfl rfl rfl rfl rfl).1,
   (C10_status_decides_success (queuedClient []) (lit "\x7b\x7d")
      ⟨some 1, some 2, true, true, some 404⟩ 404 rfl rfl rfl rfl rfl rfl rfl).2.2.1
      (by decide)⟩

/-! ## Base64 -/

set_option maxRecDepth 100000 in
/-- The mask-and-shift expressions of `Base64Encode` on an `unsigned char`. -/
theorem uchar_bits : ∀ x : Fin 256,
    (x.val &&& 0xfc) >>> 2 = x.val / 4 ∧ (x.val &&& 0x03) <<< 4 = x.val % 4 * 16 ∧
    (x.val &&& 0xf0) >>> 4 = x.val / 16 ∧ (x.val &&& 0x0f) <<< 2 = x.val % 16 * 4 ∧
    (x.val &&& 0xc0) >>> 6 = x.val / 64 ∧ x.val &&& 0x3f = x.val % 64 := by
  decide

set_option maxRecDepth 100000 in
/-- The local string `chars` is Table 1 of the RFC. -/
theorem charsAt_eq_alphabet : ∀ k : Fin 64, charsAt k.val = rfc4648Alphabet k.val := by
  decide

set_option maxRecDepth 100000 in
theorem rfc4648Value_alphabet : ∀ k : Fin 64,
    rfc4648Value (rfc4648Alphabet k.val) = some k.val ∧ rfc4648Alphabet k.val ≠ rfc4648Pad := by
  decide

theorem charsAt_of_lt (k : Nat) (h : k < 64) : charsAt k = rfc4648Alphabet k :=
  charsAt_eq_alphabet ⟨k, h⟩

theorem toUChar_val (a : Byte) : toUChar a.val = a.val := Nat.mod_eq_of_lt a.isLt

/-- The four 6-bit values computed by the code from three bytes are the four 6-bit
groups of the 24-bit number the bytes form. -/
theorem charArray4_eq (a b c : Byte) :
    charArray4 ⟨a.val, b.val, c.val⟩
      = [ (a.val * 65536 + b.val * 256 + c.val) / 262144 % 64,
          (a.val * 65536 + b.val * 256 + c.val) / 4096 % 64,
          (a.val * 65536 + b.val * 256 + c.val) / 64 % 64,
          (a.val * 65536 + b.val * 256 + c.val) % 64 ] := by
  obtain ⟨a1, a2, -, -, -, -⟩ := uchar_bits a
  obtain ⟨-, -, b3, b4, -, -⟩ := uchar_bits b
  obtain ⟨-, -, -, -, c5, c6⟩ := uchar_bits c
  have ha := a.isLt
  have hb := b.isLt
  have hc := c.isLt
  simp only [charArray4, toUChar, a1, a2, b3, b4, c5, c6]
  refine congrArg₂ _ (by omega) (congrArg₂ _ (by omega) (congrArg₂ _ (by omega)
    (congrArg₂ _ (by omega) rfl)))

theorem map_charsAt_charArray4 (a b c : Byte) :
    (charArray4 ⟨a.val, b.val, c.val⟩).map charsAt
      = [ rfc4648Alphabet ((a.val * 65536 + b.val * 256 + c.val) / 262144 % 64),
          rfc4648Alphabet ((a.val * 65536 + b.val * 256 + c.val) / 4096 % 64),
          rfc4648Alphabet ((a.val * 65536 + b.val * 256 + c.val) / 64 % 64),
          rfc4648Alphabet ((a.val * 65536 + b.val * 256 + c.val) % 64) ] := by
  rw [charArray4_eq]
  simp only [List.map]
  rw [charsAt_of_lt _ (Nat.mod_lt _ (by decide)), charsAt_of_lt _ (Nat.mod_lt _ (by decide)),
    charsAt_of_lt _ (Nat.mod_lt _ (by decide)), charsAt_of_lt _ (Nat.mod_lt _ (by decide))]

theorem b64Step_three (arr : CharArray3) (acc : Str) (a b c : Byte) :
    b64Step (b64Step (b64Step ⟨0, arr, acc⟩ a) b) c
      = ⟨0, ⟨a.val, b.val, c.val⟩, acc ++ (charArray4 ⟨a.val, b.val, c.val⟩).map charsAt⟩ := by
  simp [b64Step, CharArray3.set, toUChar_val]

theorem b64Finish_one (arr : CharArray3) (acc : Str) (a : Byte) :
    b64Finish (b64Step ⟨0, arr, acc⟩ a)
      = acc ++ ((charArray4 ⟨a.val, (0 : Byte).val, (0 : Byte).val⟩).map charsAt).take 2
          ++ [rfc4648Pad, rfc4648Pad] := by
  simp [b64Step, b64Finish, CharArray3.set, toUChar_val, List.range', rfc4648Pad, List.map_take]

theorem b64Finish_two (arr : CharArray3) (acc : Str) (a b : Byte) :
    b64Finish (b64Step (b64Step ⟨0, arr, acc⟩ a) b)
      = acc ++ ((charArray4 ⟨a.val, b.val, (0 : Byte).val⟩).map charsAt).take 3
          ++ [rfc4648Pad] := by
  simp [b64Step, b64Finish, CharArray3.set, toUChar_val, List.range', rfc4648Pad, List.map_take]

/-- The loop of `Base64Encode`, started with an empty group, computes the RFC encoding. -/
theorem b64_loop : ∀ (input : Str) (arr : CharArray3) (acc : Str),
    b64Finish (input.foldl b64Step ⟨0, arr, acc⟩) = acc ++ rfc4648Encode input
  | [], arr, acc => by simp [b64Finish, rfc4648Encode]
  | [a], arr, acc => by
    rw [List.foldl_cons, List.foldl_nil, b64Finish_one, map_charsAt_charArray4]
    have ha := a.isLt
    have h1 : (a.val * 65536 + 0 * 256 + 0) / 262144 % 64 = a.val * 16 / 64 % 64 := by omega
    have h2 : (a.val * 65536 + 0 * 256 + 0) / 4096 % 64 = a.val * 16 % 64 := by omega
    simp only [rfc4648Encode, List.take, List.append_assoc, Fin.val_zero, h1, h2]
    rfl
  | [a, b], arr, acc => by
    rw [List.foldl_cons, List.foldl_cons, List.foldl_nil, b64Finish_two, map_charsAt_charArray4]
    have ha := a.isLt
    have hb := b.isLt
    have h1 : (a.val * 65536 + b.val * 256 + 0) / 262144 % 64
        = (a.val * 256 + b.val) * 4 / 4096 % 64 := by omega
    have h2 : (a.val * 65536 + b.val * 256 + 0) / 4096 % 64
        = (a.val * 256 + b.val) * 4 / 64 % 64 := by omega
    have h3 : (a.val * 65536 + b.val * 256 + 0) / 64 % 64
        = (a.val * 256 + b.val) * 4 % 64 := by omega
    simp only [rfc4648Encode, List.take, List.append_assoc, Fin.val_zero, h1, h2, h3]
    rfl
  | a :: b :: c :: rest, arr, acc => by
    rw [List.foldl_cons, List.foldl_cons, List.foldl_cons, b64Step_three, b64_loop rest,
      map_charsAt_charArray4]
    simp only [rfc4648Encode, List.append_assoc]

theorem Base64Encode_eq_rfc4648Encode (s : Str) : Base64Encode s = rfc4648Encode s := by
  unfold Base64Encode
  rw [b64_loop]
  rfl

theorem byte_ofNat_eq (a : Byte) (n : Nat) (h : n = a.val) : (Fin.ofNat n : Byte) = a := by
  apply Fin.ext
  subst h
  exact Nat.mod_eq_of_lt a.isLt

theorem rfc4648Value_of_lt (v : Nat) (h : v < 64) :
    rfc4648Value (rfc4648Alphabet v) = some v :=
  (rfc4648Value_alphabet ⟨v, h⟩).1

theorem rfc4648Alphabet_ne_pad (v : Nat) (h : v < 64) : rfc4648Alphabet v ≠ rfc4648Pad :=
  (rfc4648Value_alphabet ⟨v, h⟩).2

/-- A group of four alphabet characters decodes to the three bytes its 24 bits form. -/
theorem rfc4648DecodeGroup_full (v0 v1 v2 v3 : Nat) (h0 : v0 < 64) (h1 : v1 < 64)
    (h2 : v2 < 64) (h3 : v3 < 64) (final : Bool) :
    rfc4648DecodeGroup (rfc4648Alphabet v0) (rfc4648Alphabet v1) (rfc4648Alphabet v2)
        (rfc4648Alphabet v3) final
      = some [Fin.ofNat (v0 * 4 + v1 / 16), Fin.ofNat (v1 % 16 * 16 + v2 / 4),
              Fin.ofNat (v2 % 4 * 64 + v3)] := by
  unfold rfc4648DecodeGroup
  rw [if_neg (fun h => rfc4648Alphabet_ne_pad v2 h2 h.2.1),
    if_neg (fun h => rfc4648Alphabet_ne_pad v3 h3 h.2),
    rfc4648Value_of_lt v0 h0, rfc4648Value_of_lt v1 h1, rfc4648Value_of_lt v2 h2,
    rfc4648Value_of_lt v3 h3]

/-- The standard decoder inverts the RFC encoder. -/
theorem rfc4648Decode_encode : ∀ s : Str, rfc4648Decode (rfc4648Encode s) = some s
  | [] => rfl
  | [a] => by
    have ha := a.isLt
    have e0 : rfc4648Value (rfc4648Alphabet (a.val * 16 / 64 % 64)) = some (a.val * 16 / 64 % 64) :=
      rfc4648Value_of_lt _ (Nat.mod_lt _ (by decide))
    have e1 : rfc4648Value (rfc4648Alphabet (a.val * 16 % 64)) = some (a.val * 16 % 64) :=
      rfc4648Value_of_lt _ (Nat.mod_lt _ (by decide))
    have hz : a.val * 16 % 64 % 16 = 0 := by omega
    have hb : (Fin.ofNat (a.val * 16 / 64 % 64 * 4 + a.val * 16 % 64 / 16) : Byte) = a :=
      byte_ofNat_eq a _ (by omega)
    simp only [rfc4648Encode, rfc4648Decode, rfc4648DecodeGroup, List.isEmpty, and_self,
      if_true, e0, e1, hz, hb, List.append_nil]
  | [a, b] => by
    have ha := a.isLt
    have hb := b.isLt
    have e0 := rfc4648Value_of_lt ((a.val * 256 + b.val) * 4 / 4096 % 64)
      (Nat.mod_lt _ (by decide))
    have e1 := rfc4648Value_of_lt ((a.val * 256 + b.val) * 4 / 64 % 64)
      (Nat.mod_lt _ (by decide))
    have e2 := rfc4648Value_of_lt ((a.val * 256 + b.val) * 4 % 64) (Nat.mod_lt _ (by decide))
    have hne := rfc4648Alphabet_ne_pad ((a.val * 256 + b.val) * 4 % 64)
      (Nat.mod_lt _ (by decide))
    have hz : (a.val * 256 + b.val) * 4 % 64 % 4 = 0 := by omega
    have hb0 : (Fin.ofNat ((a.val * 256 + b.val) * 4 / 4096 % 64 * 4
        + (a.val * 256 + b.val) * 4 / 64 % 64 / 16) : Byte) = a := byte_ofNat_eq a _ (by omega)
    have hb1 : (Fin.ofNat ((a.val * 256 + b.val) * 4 / 64 % 64 % 16 * 16
        + (a.val * 256 + b.val) * 4 % 64 / 4) : Byte) = b := byte_ofNat_eq b _ (by omega)
    simp only [rfc4648Encode, rfc4648Decode, rfc4648DecodeGroup, List.isEmpty, hne, and_false,
      false_and, and_self, if_true, if_false, e0, e1, e2, hz, hb0, hb1, List.append_nil]
  | a :: b :: c :: rest => by
    have ha := a.isLt
    have hb := b.isLt
    have hc := c.isLt
    have hb0 : (Fin.ofNat ((a.val * 65536 + b.val * 256 + c.val) / 262144 % 64 * 4
        + (a.val * 65536 + b.val * 256 + c.val) / 4096 % 64 / 16) : Byte) = a :=
      byte_ofNat_eq a _ (by omega)
    have hb1 : (Fin.ofNat ((a.val * 65536 + b.val * 256 + c.val) / 4096 % 64 % 16 * 16
        + (a.val * 65536 + b.val * 256 + c.val) / 64 % 64 / 4) : Byte) = b :=
      byte_ofNat_eq b _ (by omega)
    have hb2 : (Fin.ofNat ((a.val * 65536 + b.val * 256 + c.val) / 64 % 64 % 4 * 64
        + (a.val * 65536 + b.val * 256 + c.val) % 64) : Byte) = c :=
      byte_ofNat_eq c _ (by omega)
    rw [show rfc4648Encode (a :: b :: c :: rest)
        = rfc4648Alphabet ((a.val * 65536 + b.val * 256 + c.val) / 262144 % 64)
          :: rfc4648Alphabet ((a.val * 65536 + b.val * 256 + c.val) / 4096 % 64)
          :: rfc4648Alphabet ((a.val * 65536 + b.val * 256 + c.val) / 64 % 64)
          :: rfc4648Alphabet ((a.val * 65536 + b.val * 256 + c.val) % 64)
          :: rfc4648Encode rest from rfl]
    simp only [rfc4648Decode]
    rw [rfc4648DecodeGroup_full _ _ _ _ (Nat.mod_lt _ (by decide)) (Nat.mod_lt _ (by decide))
      (Nat.mod_lt _ (by decide)) (Nat.mod_lt _ (by decide)), rfc4648Decode_encode rest,
      hb0, hb1, hb2]
    rfl

/-- The shape of an RFC encoding: four characters per started group of three bytes,
alphabet characters followed by the pad characters. -/
theorem rfc4648Encode_shape : ∀ s : Str,
    (rfc4648Encode s).length = 4 * ((s.length + 2) / 3) ∧
    ∃ body : Str,
      rfc4648Encode s = body ++ List.replicate ((3 - s.length % 3) % 3) rfc4648Pad ∧
      ∀ c ∈ body, c ≠ rfc4648Pad ∧ ∃ v, v < 64 ∧ c = rfc4648Alphabet v
  | [] => ⟨rfl, [], rfl, by simp⟩
  | [a] => by
    refine ⟨by simp [rfc4648Encode],
      [rfc4648Alphabet (a.val * 16 / 64 % 64), rfc4648Alphabet (a.val * 16 % 64)], rfl, ?_⟩
    intro c hc
    simp only [List.mem_cons, List.mem_singleton, List.not_mem_nil, or_false] at hc
    rcases hc with rfl | rfl
    · exact ⟨rfc4648Alphabet_ne_pad _ (Nat.mod_lt _ (by decide)), _,
        Nat.mod_lt _ (by decide), rfl⟩
    · exact ⟨rfc4648Alphabet_ne_pad _ (Nat.mod_lt _ (by decide)), _,
        Nat.mod_lt _ (by decide), rfl⟩
  | [a, b] => by
    refine ⟨by simp [rfc4648Encode], [rfc4648Alphabet ((a.val * 256 + b.val) * 4 / 4096 % 64),
      rfc4648Alphabet ((a.val * 256 + b.val) * 4 / 64 % 64),
      rfc4648Alphabet ((a.val * 256 + b.val) * 4 % 64)], rfl, ?_⟩
    intro c hc
    simp only [List.mem_cons, List.mem_singleton, List.not_mem_nil, or_false] at hc
    rcases hc with rfl | rfl | rfl
    all_goals
      exact ⟨rfc4648Alphabet_ne_pad _ (Nat.mod_lt _ (by decide)), _,
        Nat.mod_lt _ (by decide), rfl⟩
  | a :: b :: c :: rest => by
    obtain ⟨hlen, body, hbody, hmem⟩ := rfc4648Encode_shape rest
    have hk : (3 - (a :: b :: c :: rest).length % 3) % 3 = (3 - rest.length % 3) % 3 := by
      simp only [List.length_cons]
      omega
    refine ⟨?_, [rfc4648Alphabet ((a.val * 65536 + b.val * 256 + c.val) / 262144 % 64),
      rfc4648Alphabet ((a.val * 65536 + b.val * 256 + c.val) / 4096 % 64),
      rfc4648Alphabet ((a.val * 65536 + b.val * 256 + c.val) / 64 % 64),
      rfc4648Alphabet ((a.val * 65536 + b.val * 256 + c.val) % 64)] ++ body, ?_, ?_⟩
    · simp only [rfc4648Encode, List.length_append, List.length_cons, List.length_nil, hlen]
      omega
    · rw [hk]
      simp only [rfc4648Encode, List.append_assoc, hbody]
    · intro x hx
      rcases List.mem_append.1 hx with hx | hx
      · simp only [List.mem_cons, List.mem_singleton, List.not_mem_nil, or_false] at hx
        rcases hx with rfl | rfl | rfl | rfl
        all_goals
          exact ⟨rfc4648Alphabet_ne_pad _ (Nat.mod_lt _ (by decide)), _,
            Nat.mod_lt _ (by decide), rfl⟩
      · exact hmem x hx

/-- C5: for every byte string `s` (bytes of any value), `Base64Encode s` is the RFC 4648
base64 encoding of `s` (standard alphabet, `=` padding), the standard decoder applied to
it returns `s`, and `Base64Encode "apikey:"` is `"YXBpa2V5Og=="`. -/
theorem C5_base64_is_rfc4648 (s : Str) :
    Base64Encode s = rfc4648Encode s ∧
    rfc4648Decode (Base64Encode s) = some s ∧
    Base64Encode (lit "apikey:") = lit "YXBpa2V5Og==" := by
  refine ⟨Base64Encode_eq_rfc4648Encode s, ?_, by decide⟩
  rw [Base64Encode_eq_rfc4648Encode]
  exact rfc4648Decode_encode s

/-- C6: for a byte string of length `n`, `Base64Encode` yields `4 * g` characters where
`g = (n + 2) / 3` is `n / 3` rounded up (so the length is a multiple of 4, and 0 for the
empty string); the output is a run of characters of the RFC 4648 alphabet, none of them
`=`, followed by exactly `(3 - n % 3) % 3` characters `=`. -/
theorem C6_base64_shape (s : Str) :
    (Base64Encode s).length = 4 * ((s.length + 2) / 3) ∧
    (s.length ≤ 3 * ((s.length + 2) / 3) ∧ 3 * ((s.length + 2) / 3) < s.length + 3) ∧
    (Base64Encode s).length % 4 = 0 ∧
    (Base64Encode []).length = 0 ∧
    ∃ body : Str,
      Base64Encode s = body ++ List.replicate ((3 - s.length % 3) % 3) rfc4648Pad ∧
      ∀ c ∈ body, c ≠ rfc4648Pad ∧ ∃ v, v < 64 ∧ c = rfc4648Alphabet v := by
  obtain ⟨hlen, hbody⟩ := rfc4648Encode_shape s
  rw [Base64Encode_eq_rfc4648Encode]
  refine ⟨hlen, by omega, by omega, by decide, hbody⟩

/-! ## JSON escaping -/

theorem escape_foldl (s : Str) : ∀ acc : Str,
    s.foldl (fun escaped c => escaped ++ escapeChar c) acc
      = acc ++ s.foldl (fun escaped c => escaped ++ escapeChar c) [] := by
  induction s with
  | nil => intro acc; simp
  | cons c s ih =>
    intro acc
    rw [List.foldl_cons, List.foldl_cons, ih (acc ++ escapeChar c), ih ([] ++ escapeChar c)]
    simp

theorem EscapeJsonString_nil : EscapeJsonString [] = [] := rfl

/-- The loop of `EscapeJsonString` appends the text of each `char` in turn. -/
theorem EscapeJsonString_cons (c : Byte) (s : Str) :
    EscapeJsonString (c :: s) = escapeChar c ++ EscapeJsonString s := by
  unfold EscapeJsonString
  rw [List.foldl_cons, escape_foldl]
  simp

theorem byte_eq_of_val (c : Byte) (n : Nat) (hn : n < 256) (h : c.val = n) :
    c = ⟨n, hn⟩ := Fin.ext h

theorem charVal_of_lt (c : Byte) (h : c.val < 128) : charVal c = (c.val : Int) := by
  unfold charVal
  rw [if_pos h]

theorem parseJsonChars_quote (q : Byte) (rest : Str) (h : q.val = 0x22) :
    parseJsonChars (q :: rest) = some ([], rest) := by
  rw [parseJsonChars.eq_def]
  simp [h]

theorem parseJsonChars_plain (c : Byte) (tail : Str) (h1 : c.val ≠ 0x22) (h2 : c.val ≠ 0x5C)
    (h3 : ¬ c.val < 0x20) :
    parseJsonChars (c :: tail) = prependTo (some [c]) (parseJsonChars tail) := by
  rw [parseJsonChars.eq_def]
  simp [h1, h2, h3]

theorem parseJsonChars_simpleEscape (b e c : Byte) (tail : Str) (hb : b.val = 0x5C)
    (he : e.val ≠ 0x75) (hs : simpleEscape e = some c) :
    parseJsonChars (b :: e :: tail) = prependTo (some [c]) (parseJsonChars tail) := by
  rw [parseJsonChars.eq_def]
  simp [hb, he, hs]

/-- Reading back the text that `EscapeJsonString` writes for a printable or named-control
`char` gives that `char`. -/
theorem parseJsonChars_escapeChar (c : Byte) (hc : isPrintable c ∨ isNamedControl c)
    (tail : Str) :
    parseJsonChars (escapeChar c ++ tail) = prependTo (some [c]) (parseJsonChars tail) := by
  unfold escapeChar
  split
  · next h =>
    rw [byte_eq_of_val c _ (by decide) h, show lit "\\\"" = [0x5C, 0x22] by decide]
    exact parseJsonChars_simpleEscape _ _ _ tail rfl (by decide) (by decide)
  split
  · next h =>
    rw [byte_eq_of_val c _ (by decide) h, show lit "\\\\" = [0x5C, 0x5C] by decide]
    exact parseJsonChars_simpleEscape _ _ _ tail rfl (by decide) (by decide)
  split
  · next h =>
    rw [byte_eq_of_val c _ (by decide) h, show lit "\\b" = [0x5C, 0x62] by decide]
    exact parseJsonChars_simpleEscape _ _ _ tail rfl (by decide) (by decide)
  split
  · next h =>
    rw [byte_eq_of_val c _ (by decide) h, show lit "\\f" = [0x5C, 0x66] by decide]
    exact parseJsonChars_simpleEscape _ _ _ tail rfl (by decide) (by decide)
  split
  · next h =>
    rw [byte_eq_of_val c _ (by decide) h, show lit "\\n" = [0x5C, 0x6E] by decide]
    exact parseJsonChars_simpleEscape _ _ _ tail rfl (by decide) (by decide)
  split
  · next h =>
    rw [byte_eq_of_val c _ (by decide) h, show lit "\\r" = [0x5C, 0x72] by decide]
    exact parseJsonChars_simpleEscape _ _ _ tail rfl (by decide) (by decide)
  split
  · next h =>
    rw [byte_eq_of_val c _ (by decide) h, show lit "\\t" = [0x5C, 0x74] by decide]
    exact parseJsonChars_simpleEscape _ _ _ tail rfl (by decide) (by decide)
  next h1 h2 h3 h4 h5 h6 h7 =>
  have hp : isPrintable c := by
    rcases hc with hc | hc
    · exact hc
    · unfold isNamedControl at hc
      omega
  unfold isPrintable at hp
  have hv : charVal c = (c.val : Int) := charVal_of_lt c (by omega)
  split
  · next h => rw [hv] at h; omega
  · exact parseJsonChars_plain c tail h1 h2 (by omega)

/-- Reading back an escaped string up to the closing quote, with any continuation `rest`
behind the closing quote. -/
theorem parseJsonChars_escape (s : Str) (hs : ∀ c ∈ s, isPrintable c ∨ isNamedControl c)
    (q : Byte) (hq : q.val = 0x22) (rest : Str) :
    parseJsonChars (EscapeJsonString s ++ q :: rest) = some (s, rest) := by
  induction s with
  | nil => exact parseJsonChars_quote q rest hq
  | cons c s ih =>
    rw [EscapeJsonString_cons, List.append_assoc,
      parseJsonChars_escapeChar c (hs c (List.mem_cons_self _ _)),
      ih (fun x hx => hs x (List.mem_cons_of_mem _ hx))]
    rfl

/-- C7: for every string made of printable ASCII characters (which include the double
quote and the backslash) and the controls `\b`, `\t`, `\n`, `\f`, `\r`, the text
`EscapeJsonString s` put between double quotes reads back, as a JSON string literal, as
`s` byte for byte, with nothing left over. -/
theorem C7_escape_round_trip (s : Str) (hs : ∀ c ∈ s, isPrintable c ∨ isNamedControl c) :
    parseJsonString (lit "\"" ++ EscapeJsonString s ++ lit "\"") = some (s, []) := by
  rw [show lit "\"" = [(0x22 : Byte)] by decide]
  exact parseJsonChars_escape s hs 0x22 rfl []

set_option maxRecDepth 100000 in
theorem C7_escape_round_trip_witness :
    (∀ c ∈ lit "C:\\Proj \"One\"\n\t", isPrintable c ∨ isNamedControl c) ∧
    parseJsonString (lit "\"" ++ EscapeJsonString (lit "C:\\Proj \"One\"\n\t") ++ lit "\"")
      = some (lit "C:\\Proj \"One\"\n\t", []) :=
  ⟨by decide, C7_escape_round_trip _ (by decide)⟩

/-- Every control character below `0x20` other than the five named ones is written as the
constant text `\u0000`. -/
theorem escapeChar_other_control (c : Byte) (h : c.val < 0x20) (hn : ¬ isNamedControl c) :
    escapeChar c = lit "\\u0000" := by
  unfold isNamedControl at hn
  have hv : charVal c = (c.val : Int) := charVal_of_lt c (by omega)
  unfold escapeChar
  rw [if_neg (by omega), if_neg (by omega), if_neg (by omega), if_neg (by omega),
    if_neg (by omega), if_neg (by omega), if_neg (by omega), if_pos (by rw [hv]; omega)]
  decide

set_option maxRecDepth 100000 in
/-- C8 (the code departs from the claim): for the control character `0x01` the escape
written is `\u0000`, which denotes the character `0x00`; reading the escaped text back
yields the byte `0x00` and not `0x01`. -/
theorem C8_control_code_not_carried :
    EscapeJsonString [0x01] = lit "\\u0000" ∧
    parseJsonString (lit "\"" ++ EscapeJsonString [0x01] ++ lit "\"") = some ([0x00], []) ∧
    parseJsonString (lit "\"" ++ EscapeJsonString [0x01] ++ lit "\"") ≠ some ([0x01], []) := by
  decide

/-! ## Decimal numbers -/

theorem digitChar_val (d : Nat) (h : d < 10) : (digitChar d).val = 0x30 + d := by
  show (0x30 + d) % 256 = 0x30 + d
  omega

theorem isDigit_digitChar (d : Nat) (h : d < 10) : isDigit (digitChar d) = true := by
  unfold isDigit
  rw [digitChar_val d h]
  simp
  omega

theorem parseDigits_cons_digit (c : Byte) (rest : Str) (acc : Nat) (h : isDigit c = true) :
    parseDigits (c :: rest) acc = parseDigits rest (acc * 10 + (c.val - 0x30)) := by
  rw [parseDigits, if_pos h]

theorem parseDigits_cons_other (c : Byte) (rest : Str) (acc : Nat) (h : isDigit c = false) :
    parseDigits (c :: rest) acc = (acc, c :: rest) := by
  rw [parseDigits, if_neg (by rw [h]; decide)]

theorem decDigitsAux_append (fuel : Nat) : ∀ (n : Nat) (acc rest : Str),
    decDigitsAux fuel n acc ++ rest = decDigitsAux fuel n (acc ++ rest) := by
  induction fuel with
  | zero => intro n acc rest; rfl
  | succ fuel ih =>
    intro n acc rest
    simp only [decDigitsAux]
    split
    · rfl
    · rw [ih]; rfl

/-- Reading the digits written for `n` gives `n`. -/
theorem parseDigits_decDigitsAux (fuel : Nat) : ∀ (n : Nat) (acc : Str), n < fuel →
    parseDigits (decDigitsAux fuel n acc) 0 = parseDigits acc n := by
  induction fuel with
  | zero => intro n acc h; omega
  | succ fuel ih =>
    intro n acc h
    have hd : n % 10 < 10 := Nat.mod_lt _ (by decide)
    simp only [decDigitsAux]
    split
    · next h0 =>
      rw [parseDigits_cons_digit _ _ _ (isDigit_digitChar _ hd), digitChar_val _ hd]
      congr 1
      omega
    · next h0 =>
      rw [ih (n / 10) _ (by omega), parseDigits_cons_digit _ _ _ (isDigit_digitChar _ hd),
        digitChar_val _ hd]
      congr 1
      omega

/-- The text written for a number starts with a digit, and with a digit other than `0`
when the number is not zero. -/
theorem decDigitsAux_head (fuel : Nat) : ∀ (n : Nat) (acc : Str), n < fuel →
    ∃ d tl, decDigitsAux fuel n acc = d :: tl ∧ isDigit d = true ∧
      (d.val = 0x30 → n = 0 ∧ tl = acc) := by
  induction fuel with
  | zero => intro n acc h; omega
  | succ fuel ih =>
    intro n acc h
    have hd : n % 10 < 10 := Nat.mod_lt _ (by decide)
    simp only [decDigitsAux]
    split
    · next h0 =>
      refine ⟨_, _, rfl, isDigit_digitChar _ hd, ?_⟩
      rw [digitChar_val _ hd]
      intro hz
      exact ⟨by omega, rfl⟩
    · next h0 =>
      obtain ⟨d, tl, h1, h2, h3⟩ := ih (n / 10) (digitChar (n % 10) :: acc) (by omega)
      refine ⟨d, tl, h1, h2, ?_⟩
      intro hz
      exact absurd (h3 hz).1 h0

/-- Reading back the decimal text of a natural number that is followed by a character
which neither continues the number nor is a digit. -/
theorem parseJsonNat_natToDec (n : Nat) (c : Byte) (rest : Str) (hc : isDigit c = false)
    (h1 : c.val ≠ 0x2E) (h2 : c.val ≠ 0x65) (h3 : c.val ≠ 0x45) :
    parseJsonNat (natToDec n ++ c :: rest) = some (n, c :: rest) := by
  unfold natToDec
  obtain ⟨d, tl, hd, hdig, hzero⟩ := decDigitsAux_head (n + 1) n [] (Nat.lt_succ_self n)
  have hp : parseDigits (decDigitsAux (n + 1) n [] ++ c :: rest) 0 = (n, c :: rest) := by
    rw [decDigitsAux_append, parseDigits_decDigitsAux _ _ _ (Nat.lt_succ_self n),
      List.nil_append, parseDigits_cons_other _ _ _ hc]
  rw [hd] at hp ⊢
  rw [List.cons_append] at hp ⊢
  rw [parseJsonNat, if_pos hdig, if_neg, hp]
  · simp [h1, h2, h3]
  · rintro ⟨hz, hh⟩
    rw [(hzero hz).2] at hh
    simp [hc] at hh

theorem lit_minus : lit "-" = [(0x2D : Byte)] := by decide

/-- Reading back the decimal text of an integer. -/
theorem parseJsonInt_intToDec (z : Int) (c : Byte) (rest : Str) (hc : isDigit c = false)
    (h1 : c.val ≠ 0x2E) (h2 : c.val ≠ 0x65) (h3 : c.val ≠ 0x45) :
    parseJsonInt (intToDec z ++ c :: rest) = some (z, c :: rest) := by
  unfold intToDec
  split
  · next hneg =>
    rw [lit_minus, List.append_assoc, List.singleton_append, parseJsonInt,
      if_pos (by rfl), parseJsonNat_natToDec _ _ _ hc h1 h2 h3]
    simp only [Option.map_some', Option.some.injEq, Prod.mk.injEq, and_true]
    omega
  · next hpos =>
    obtain ⟨d, tl, hd, hdig, -⟩ :=
      decDigitsAux_head (z.natAbs + 1) z.natAbs [] (Nat.lt_succ_self _)
    have hne : d.val ≠ 0x2D := by
      unfold isDigit at hdig
      simp at hdig
      omega
    have hn := parseJsonNat_natToDec z.natAbs c rest hc h1 h2 h3
    unfold natToDec at hn ⊢
    rw [hd] at hn ⊢
    rw [List.cons_append] at hn ⊢
    rw [parseJsonInt, if_neg hne, hn]
    simp only [Option.map_some', Option.some.injEq, Prod.mk.injEq, and_true]
    omega

/-! ## Reading the wire text of a heartbeat -/

/-- A string of plain characters reads back as itself. -/
theorem parseJsonChars_plain_string (s : Str) (hs : ∀ c ∈ s, isPlain c) (q : Byte)
    (hq : q.val = 0x22) (rest : Str) :
    parseJsonChars (s ++ q :: rest) = some (s, rest) := by
  induction s with
  | nil => exact parseJsonChars_quote q rest hq
  | cons c s ih =>
    have hc := hs c (List.mem_cons_self _ _)
    unfold isPlain isPrintable at hc
    rw [List.cons_append, parseJsonChars_plain c _ hc.2.1 hc.2.2 (by omega),
      ih (fun x hx => hs x (List.mem_cons_of_mem _ hx))]
    rfl

theorem skipWs_cons (c : Byte) (rest : Str) (h : isWs c = false) :
    skipWs (c :: rest) = c :: rest := by
  rw [skipWs, if_neg (by rw [h]; decide)]

theorem parseJsonString_quoted (body text : Str) (rest : Str)
    (h : ∀ q : Byte, q.val = 0x22 → parseJsonChars (body ++ q :: rest) = some (text, rest)) :
    parseJsonString (quoted body ++ rest) = some (text, rest) := by
  unfold quoted
  rw [List.cons_append, List.append_assoc, List.singleton_append, parseJsonString,
    if_pos (by rfl)]
  exact h _ rfl

/-- The value reader on a string literal. -/
theorem parseJsonValue_quoted (body text : Str) (rest : Str)
    (h : ∀ q : Byte, q.val = 0x22 → parseJsonChars (body ++ q :: rest) = some (text, rest)) :
    parseJsonValue (quoted body ++ rest) = some (JsonValue.str text, rest) := by
  unfold parseJsonValue
  rw [if_pos (by rfl), parseJsonString_quoted body text rest h]
  rfl

theorem lit_true : lit "true" = [(0x74 : Byte), 0x72, 0x75, 0x65] := by decide

theorem lit_false : lit "false" = [(0x66 : Byte), 0x61, 0x6C, 0x73, 0x65] := by decide

/-- The value reader on the text written for `is_write`. -/
theorem parseJsonValue_bool (b : Bool) (rest : Str) :
    parseJsonValue ((if b = true then lit "true" else lit "false") ++ rest)
      = some (JsonValue.bool b, rest) := by
  cases b
  · simp [parseJsonValue, lit_true, lit_false]
  · simp [parseJsonValue, lit_true]

/-- The value reader on the decimal text of an integer. -/
theorem parseJsonValue_int (z : Int) (c : Byte) (rest : Str) (hc : isDigit c = false)
    (h1 : c.val ≠ 0x2E) (h2 : c.val ≠ 0x65) (h3 : c.val ≠ 0x45) :
    parseJsonValue (intToDec z ++ c :: rest) = some (JsonValue.int z, c :: rest) := by
  have hhead : ∃ d tl, intToDec z ++ c :: rest = d :: tl ∧
      (d.val = 0x2D ∨ isDigit d = true) := by
    unfold intToDec
    split
    · exact ⟨0x2D, _, by rw [lit_minus]; rfl, Or.inl rfl⟩
    · obtain ⟨d, tl, hd, hdig, -⟩ :=
        decDigitsAux_head (z.natAbs + 1) z.natAbs [] (Nat.lt_succ_self _)
      refine ⟨d, tl ++ c :: rest, ?_, Or.inr hdig⟩
      unfold natToDec
      rw [hd]
      rfl
  obtain ⟨d, tl, hd, hdv⟩ := hhead
  have hdv' : d.val ≠ 0x22 ∧ d.val ≠ 0x74 ∧ d.val ≠ 0x66 := by
    rcases hdv with h | h
    · omega
    · unfold isDigit at h
      simp at h
      omega
  unfold parseJsonValue
  rw [parseJsonInt_intToDec z c rest hc h1 h2 h3, hd]
  have e1 : ¬ ((d :: tl).head? = some (0x22 : Byte)) := by
    intro h
    simp only [List.head?_cons, Option.some.injEq] at h
    exact hdv'.1 (by rw [h]; rfl)
  have e2 : ¬ (lit "true" <+: d :: tl) := by
    rw [lit_true]
    intro h
    have := (List.cons_prefix_cons.1 h).1
    exact hdv'.2.1 (by rw [← this]; rfl)
  have e3 : ¬ (lit "false" <+: d :: tl) := by
    rw [lit_false]
    intro h
    have := (List.cons_prefix_cons.1 h).1
    exact hdv'.2.2 (by rw [← this]; rfl)
  rw [if_neg e1, if_neg e2, if_neg e3]
  rfl

theorem intToDec_head (z : Int) (rest : Str) :
    ∃ d tl, intToDec z ++ rest = d :: tl ∧ (d.val = 0x2D ∨ isDigit d = true) := by
  unfold intToDec
  split
  · exact ⟨0x2D, _, by rw [lit_minus]; rfl, Or.inl rfl⟩
  · obtain ⟨d, tl, hd, hdig, -⟩ :=
      decDigitsAux_head (z.natAbs + 1) z.natAbs [] (Nat.lt_succ_self _)
    refine ⟨d, tl ++ rest, ?_, Or.inr hdig⟩
    unfold natToDec
    rw [hd]
    rfl

theorem skipWs_intToDec (z : Int) (rest : Str) :
    skipWs (intToDec z ++ rest) = intToDec z ++ rest := by
  obtain ⟨d, tl, hd, hdv⟩ := intToDec_head z rest
  rw [hd]
  apply skipWs_cons
  unfold isWs
  rcases hdv with h | h
  · simp [h]
  · unfold isDigit at h
    simp at h
    simp
    omega

theorem skipWs_bool (b : Bool) (rest : Str) :
    skipWs ((if b = true then lit "true" else lit "false") ++ rest)
      = (if b = true then lit "true" else lit "false") ++ rest := by
  cases b
  · simp only [lit_false, Bool.false_eq_true, if_false, List.cons_append]
    exact skipWs_cons _ _ (by decide)
  · simp only [lit_true, if_true, List.cons_append]
    exact skipWs_cons _ _ (by decide)

theorem skipWs_quoted (body rest : Str) : skipWs (quoted body ++ rest) = quoted body ++ rest := by
  unfold quoted
  rw [List.cons_append]
  exact skipWs_cons _ _ (by decide)

/-- Reading one member `"key":value` and the delimiter behind it. -/
theorem parseJsonMembers_member (fuel : Nat) (hf : fuel ≠ 0) (key tv : Str) (v : JsonValue)
    (d : Byte) (rest : Str) (hkey : ∀ c ∈ key, isPlain c)
    (hws : skipWs (tv ++ d :: rest) = tv ++ d :: rest)
    (hv : parseJsonValue (tv ++ d :: rest) = some (v, d :: rest))
    (hd : isWs d = false) :
    parseJsonMembers fuel (memberText key tv d rest) =
      if d.val = 0x2C then
        match parseJsonMembers (fuel - 1) rest with
        | some (ms, r) => some ((key, v) :: ms, r)
        | none => none
      else if d.val = 0x7D then some ([(key, v)], rest) else none := by
  cases fuel with
  | zero => exact absurd rfl hf
  | succ fuel =>
    have h1 : skipWs (memberText key tv d rest) = memberText key tv d rest :=
      skipWs_cons _ _ (by decide)
    have h2 : parseJsonString (memberText key tv d rest)
        = some (key, (0x3A : Byte) :: (tv ++ d :: rest)) := by
      unfold memberText
      rw [parseJsonString, if_pos (by rfl)]
      exact parseJsonChars_plain_string key hkey _ rfl _
    have h3 : skipWs ((0x3A : Byte) :: (tv ++ d :: rest)) = (0x3A : Byte) :: (tv ++ d :: rest) :=
      skipWs_cons _ _ (by decide)
    have h4 : skipWs (d :: rest) = d :: rest := skipWs_cons _ _ hd
    have h5 : ((0x3A : Byte).val = 0x3A) := rfl
    rw [parseJsonMembers]
    simp only [h1, h2, h3, h5, if_true, hws, hv, h4, Nat.add_sub_cancel]

theorem memberText_length (key tv : Str) (d : Byte) (rest : Str) :
    (memberText key tv d rest).length = key.length + tv.length + rest.length + 4 := by
  unfold memberText
  simp only [List.length_cons, List.length_append]
  omega

/-- An opening brace followed by members and nothing else is one object. -/
theorem parseJsonObject_of_members (c : Byte) (tl : Str) (ms : List (Str × JsonValue))
    (hc : isWs c = false) (hc2 : c.val ≠ 0x7D)
    (hm : parseJsonMembers (c :: tl).length (c :: tl) = some (ms, [])) :
    parseJsonObject ((0x7B : Byte) :: c :: tl) = some ms := by
  have h1 : skipWs ((0x7B : Byte) :: c :: tl) = (0x7B : Byte) :: c :: tl :=
    skipWs_cons _ _ (by decide)
  have h2 : skipWs (c :: tl) = c :: tl := skipWs_cons _ _ hc
  have h3 : (0x7B : Byte).val = 0x7B := rfl
  have h4 : skipWs ([] : Str) = [] := rfl
  unfold parseJsonObject
  simp only [h1, h2, h3, h4, if_true, if_neg hc2, hm]

set_option maxRecDepth 100000 in
/-- The text written by `HeartbeatToJson`, member by member. -/
theorem HeartbeatToJson_eq (h : HeartbeatData) :
    HeartbeatToJson h = (0x7B : Byte) ::
      memberText (lit "entity") (quoted (EscapeJsonString h.entity)) 0x2C
      (memberText (lit "type") (quoted h.type) 0x2C
      (memberText (lit "category") (quoted h.category) 0x2C
      (memberText (lit "project") (quoted (EscapeJsonString h.project)) 0x2C
      (memberText (lit "language") (quoted h.language) 0x2C
      (memberText (lit "editor") (quoted h.editor) 0x2C
      (memberText (lit "operating_system") (quoted h.operating_system) 0x2C
      (memberText (lit "machine") (quoted (EscapeJsonString h.machine)) 0x2C
      (memberText (lit "time") (intToDec h.time) 0x2C
      (memberText (lit "is_write") (if h.is_write = true then lit "true" else lit "false")
        0x7D []))))))))) := by
  have e0 : lit "\x7b" = [(0x7B : Byte)] := by decide
  have e1 : lit "\"entity\":\"" = (0x22 : Byte) :: (lit "entity" ++ [0x22, 0x3A, 0x22]) := by
    decide
  have e2 : lit "\"type\":\"" = (0x22 : Byte) :: (lit "type" ++ [0x22, 0x3A, 0x22]) := by
    decide
  have e3 : lit "\"category\":\"" = (0x22 : Byte) :: (lit "category" ++ [0x22, 0x3A, 0x22]) := by
    decide
  have e4 : lit "\"project\":\"" = (0x22 : Byte) :: (lit "project" ++ [0x22, 0x3A, 0x22]) := by
    decide
  have e5 : lit "\"language\":\"" = (0x22 : Byte) :: (lit "language" ++ [0x22, 0x3A, 0x22]) := by
    decide
  have e6 : lit "\"editor\":\"" = (0x22 : Byte) :: (lit "editor" ++ [0x22, 0x3A, 0x22]) := by
    decide
  have e7 : lit "\"operating_system\":\""
      = (0x22 : Byte) :: (lit "operating_system" ++ [0x22, 0x3A, 0x22]) := by
    decide
  have e8 : lit "\"machine\":\"" = (0x22 : Byte) :: (lit "machine" ++ [0x22, 0x3A, 0x22]) := by
    decide
  have e9 : lit "\"time\":" = (0x22 : Byte) :: (lit "time" ++ [0x22, 0x3A]) := by
    decide
  have e10 : lit "\"is_write\":" = (0x22 : Byte) :: (lit "is_write" ++ [0x22, 0x3A]) := by
    decide
  have e11 : lit "\"," = [(0x22 : Byte), 0x2C] := by decide
  have e12 : lit "," = [(0x2C : Byte)] := by decide
  have e13 : lit "\x7d" = [(0x7D : Byte)] := by decide
  unfold HeartbeatToJson memberText quoted
  rw [e0, e1, e2, e3, e4, e5, e6, e7, e8, e9, e10, e11, e12, e13]
  simp only [List.append_assoc, List.cons_append, List.nil_append]

set_option maxRecDepth 100000 in
/-- C9 (amended): when the fields written without escaping (`type`, `category`,
`language`, `editor`, `operating_system`) hold only printable ASCII other than the double
quote and the backslash, and the escaped fields (`entity`, `project`, `machine`) hold only
printable ASCII and the controls `\b`, `\t`, `\n`, `\f`, `\r`, the text of
`HeartbeatToJson` is exactly one JSON object whose members are the ten prescribed keys in
order, with the record's values (`time` an integer, `is_write` a boolean). -/
theorem C9_heartbeat_json_reads_back (h : HeartbeatData)
    (htype : ∀ c ∈ h.type, isPlain c) (hcategory : ∀ c ∈ h.category, isPlain c)
    (hlanguage : ∀ c ∈ h.language, isPlain c) (heditor : ∀ c ∈ h.editor, isPlain c)
    (hos : ∀ c ∈ h.operating_system, isPlain c)
    (hentity : ∀ c ∈ h.entity, isPrintable c ∨ isNamedControl c)
    (hproject : ∀ c ∈ h.project, isPrintable c ∨ isNamedControl c)
    (hmachine : ∀ c ∈ h.machine, isPrintable c ∨ isNamedControl c) :
    parseJsonObject (HeartbeatToJson h) = some (heartbeatMembers h) := by
  have hcomma : ((0x2C : Byte).val = 0x2C) := rfl
  have hbrace : ((0x7D : Byte).val = 0x7D) := rfl
  have hbrace2 : ¬ ((0x7D : Byte).val = 0x2C) := by decide
  have main : ∀ fuel, 10 ≤ fuel →
      parseJsonMembers fuel
        (memberText (lit "entity") (quoted (EscapeJsonString h.entity)) 0x2C
        (memberText (lit "type") (quoted h.type) 0x2C
        (memberText (lit "category") (quoted h.category) 0x2C
        (memberText (lit "project") (quoted (EscapeJsonString h.project)) 0x2C
        (memberText (lit "language") (quoted h.language) 0x2C
        (memberText (lit "editor") (quoted h.editor) 0x2C
        (memberText (lit "operating_system") (quoted h.operating_system) 0x2C
        (memberText (lit "machine") (quoted (EscapeJsonString h.machine)) 0x2C
        (memberText (lit "time") (intToDec h.time) 0x2C
        (memberText (lit "is_write") (if h.is_write = true then lit "true" else lit "false")
          0x7D []))))))))))
        = some (heartbeatMembers h, []) := by
    intro fuel hfuel
    rw [parseJsonMembers_member fuel (by omega) (lit "entity") _ (JsonValue.str h.entity) 0x2C _
        (by decide) (skipWs_quoted _ _)
        (parseJsonValue_quoted _ _ _ (fun q hq => parseJsonChars_escape _ hentity q hq _))
        (by decide), if_pos hcomma,
      parseJsonMembers_member (fuel - 1) (by omega) (lit "type") _ (JsonValue.str h.type) 0x2C _
        (by decide) (skipWs_quoted _ _)
        (parseJsonValue_quoted _ _ _ (fun q hq => parseJsonChars_plain_string _ htype q hq _))
        (by decide), if_pos hcomma,
      parseJsonMembers_member (fuel - 1 - 1) (by omega) (lit "category") _
        (JsonValue.str h.category) 0x2C _
        (by decide) (skipWs_quoted _ _)
        (parseJsonValue_quoted _ _ _
          (fun q hq => parseJsonChars_plain_string _ hcategory q hq _))
        (by decide), if_pos hcomma,
      parseJsonMembers_member (fuel - 1 - 1 - 1) (by omega) (lit "project") _
        (JsonValue.str h.project) 0x2C _
        (by decide) (skipWs_quoted _ _)
        (parseJsonValue_quoted _ _ _ (fun q hq => parseJsonChars_escape _ hproject q hq _))
        (by decide), if_pos hcomma,
      parseJsonMembers_member (fuel - 1 - 1 - 1 - 1) (by omega) (lit "language") _
        (JsonValue.str h.language) 0x2C _
        (by decide) (skipWs_quoted _ _)
        (parseJsonValue_quoted _ _ _
          (fun q hq => parseJsonChars_plain_string _ hlanguage q hq _))
        (by decide), if_pos hcomma,
      parseJsonMembers_member (fuel - 1 - 1 - 1 - 1 - 1) (by omega) (lit "editor") _
        (JsonValue.str h.editor) 0x2C _
        (by decide) (skipWs_quoted _ _)
        (parseJsonValue_quoted _ _ _
          (fun q hq => parseJsonChars_plain_string _ heditor q hq _))
        (by decide), if_pos hcomma,
      parseJsonMembers_member (fuel - 1 - 1 - 1 - 1 - 1 - 1) (by omega)
        (lit "operating_system") _ (JsonValue.str h.operating_system) 0x2C _
        (by decide) (skipWs_quoted _ _)
        (parseJsonValue_quoted _ _ _ (fun q hq => parseJsonChars_plain_string _ hos q hq _))
        (by decide), if_pos hcomma,
      parseJsonMembers_member (fuel - 1 - 1 - 1 - 1 - 1 - 1 - 1) (by omega) (lit "machine") _
        (JsonValue.str h.machine) 0x2C _
        (by decide) (skipWs_quoted _ _)
        (parseJsonValue_quoted _ _ _ (fun q hq => parseJsonChars_escape _ hmachine q hq _))
        (by decide), if_pos hcomma,
      parseJsonMembers_member (fuel - 1 - 1 - 1 - 1 - 1 - 1 - 1 - 1) (by omega) (lit "time") _
        (JsonValue.int h.time) 0x2C _
        (by decide) (skipWs_intToDec _ _)
        (parseJsonValue_int _ _ _ (by decide) (by decide) (by decide) (by decide))
        (by decide), if_pos hcomma,
      parseJsonMembers_member (fuel - 1 - 1 - 1 - 1 - 1 - 1 - 1 - 1 - 1) (by omega)
        (lit "is_write") _ (JsonValue.bool h.is_write) 0x7D _
        (by decide) (skipWs_bool _ _) (parseJsonValue_bool _ _) (by decide),
      if_neg hbrace2, if_pos hbrace]
    rfl
  rw [HeartbeatToJson_eq]
  refine parseJsonObject_of_members _ _ _ (by decide) (by decide) (main _ ?_)
  change 10 ≤ (memberText _ _ _ _).length
  simp only [memberText_length]
  omega

set_option maxRecDepth 100000 in
theorem C9_heartbeat_json_reads_back_witness :
    parseJsonObject (HeartbeatToJson
        { sampleHeartbeat 1700000000 with entity := lit "C:/P/Assets/a \"b\"\n.unity" })
      = some (heartbeatMembers
        { sampleHeartbeat 1700000000 with entity := lit "C:/P/Assets/a \"b\"\n.unity" }) :=
  C9_heartbeat_json_reads_back
    { sampleHeartbeat 1700000000 with entity := lit "C:/P/Assets/a \"b\"\n.unity" }
    (by decide) (by decide) (by decide) (by decide) (by decide) (by decide) (by decide)
    (by decide)

set_option maxRecDepth 100000 in
/-- C9 (as stated, refuted): the `editor` field is written without escaping.  With a double
quote in it the text is not a JSON object at all, and with a backslash followed by `t` the
text is an object whose `editor` value differs from the record's field. -/
theorem C9_unescaped_editor_breaks_json :
    parseJsonObject (HeartbeatToJson { sampleHeartbeat 0 with editor := lit "Unity 1\"2" })
      = none ∧
    parseJsonObject (HeartbeatToJson { sampleHeartbeat 0 with editor := lit "Unity 1\\t2" })
      = some (heartbeatMembers { sampleHeartbeat 0 with editor := lit "Unity 1\t2" }) ∧
    parseJsonObject (HeartbeatToJson { sampleHeartbeat 0 with editor := lit "Unity 1\\t2" })
      ≠ some (heartbeatMembers { sampleHeartbeat 0 with editor := lit "Unity 1\\t2" }) := by
  decide

/-! ## Searching in strings -/

theorem firstIdxAux_none (p : Byte → Bool) (s : Str) (h : ∀ c ∈ s, p c = false) :
    ∀ i, firstIdxAux p s i = npos := by
  induction s with
  | nil => intro i; rfl
  | cons c rest ih =>
    intro i
    rw [firstIdxAux, if_neg (by rw [h c (List.mem_cons_self _ _)]; decide)]
    exact ih (fun x hx => h x (List.mem_cons_of_mem _ hx)) _

theorem firstIdxAux_append (p : Byte → Bool) (pre : Str) (c : Byte) (post : Str)
    (hpre : ∀ x ∈ pre, p x = false) (hc : p c = true) :
    ∀ i, firstIdxAux p (pre ++ c :: post) i = i + pre.length := by
  induction pre with
  | nil => intro i; rw [List.nil_append, firstIdxAux, if_pos hc]; rfl
  | cons x pre ih =>
    intro i
    rw [List.cons_append, firstIdxAux,
      if_neg (by rw [hpre x (List.mem_cons_self _ _)]; decide),
      ih (fun y hy => hpre y (List.mem_cons_of_mem _ hy))]
    simp only [List.length_cons]
    omega

theorem lastIdxAux_append (p : Byte → Bool) (l1 : Str) : ∀ (l2 : Str) (i best : Nat),
    lastIdxAux p (l1 ++ l2) i best = lastIdxAux p l2 (i + l1.length) (lastIdxAux p l1 i best) := by
  induction l1 with
  | nil => intro l2 i best; rfl
  | cons c l1 ih =>
    intro l2 i best
    rw [List.cons_append, lastIdxAux, ih, lastIdxAux]
    simp only [List.length_cons]
    rw [show i + 1 + l1.length = i + (l1.length + 1) by omega]

theorem lastIdxAux_none (p : Byte → Bool) (s : Str) (h : ∀ c ∈ s, p c = false) :
    ∀ i best, lastIdxAux p s i best = best := by
  induction s with
  | nil => intro i best; rfl
  | cons c rest ih =>
    intro i best
    rw [lastIdxAux, ih (fun x hx => h x (List.mem_cons_of_mem _ hx)),
      if_neg (by rw [h c (List.mem_cons_self _ _)]; decide)]

/-- The last position satisfying `p` in `pre ++ c :: suf` when `c` does and nothing in
`suf` does. -/
theorem lastIdx_append (p : Byte → Bool) (pre : Str) (c : Byte) (suf : Str)
    (hc : p c = true) (hsuf : ∀ x ∈ suf, p x = false) :
    lastIdx p (pre ++ c :: suf) = pre.length := by
  unfold lastIdx
  rw [lastIdxAux_append, lastIdxAux, if_pos hc, lastIdxAux_none p suf hsuf]
  omega

theorem lastIdx_none (p : Byte → Bool) (s : Str) (h : ∀ c ∈ s, p c = false) :
    lastIdx p s = npos :=
  lastIdxAux_none p s h 0 npos

theorem findAux_none (needle : Str) (s : Str) (h : ¬ needle <:+: s) :
    ∀ i, findAux needle s i = npos := by
  induction s with
  | nil => intro i; rfl
  | cons c rest ih =>
    intro i
    have h1 : ¬ (needle.isPrefixOf (c :: rest) = true) := by
      intro hp
      exact h (List.isPrefixOf_iff_prefix.1 hp).isInfix
    have h2 : ¬ needle <:+: rest := by
      intro hin
      exact h (hin.trans (List.suffix_cons c rest).isInfix)
    rw [findAux, if_neg h1]
    exact ih h2 _

/-- A needle that does not occur in the string is not found. -/
theorem find_none (s needle : Str) (pos : Nat) (h : ¬ needle <:+: s) :
    find s needle pos = npos := by
  unfold find
  split
  · apply findAux_none
    intro hin
    exact h (hin.trans (List.drop_suffix pos s).isInfix)
  · rfl

/-! ## The editor version -/

theorem parseVersionLine_none (line : Str) (h : ¬ lit "m_EditorVersion:" <:+: line) :
    parseVersionLine line = none := by
  unfold parseVersionLine
  rw [if_neg (by rw [find_none line _ 0 h]; exact fun hc => hc rfl)]

theorem findSome?_none_of_all {α β : Type} (f : α → Option β) (l : List α)
    (h : ∀ x ∈ l, f x = none) : l.findSome? f = none := by
  induction l with
  | nil => rfl
  | cons x l ih =>
    rw [List.findSome?_cons, h x (List.mem_cons_self _ _)]
    exact ih (fun y hy => h y (List.mem_cons_of_mem _ hy))

/-- C14: the derived editor version is the empty string, as an ordinary return value,
when the version file does not exist, when it cannot be opened, and when none of its
lines contains `m_EditorVersion:`. -/
theorem C14_missing_file_or_key_gives_empty :
    (∀ file : Option Str, GetUnityEditorVersion false file = []) ∧
    (∀ fileExists : Bool, GetUnityEditorVersion fileExists none = []) ∧
    (∀ (fileExists : Bool) (content : Str),
      (∀ line ∈ getlineAll 0x0A content, ¬ lit "m_EditorVersion:" <:+: line) →
      GetUnityEditorVersion fileExists (some content) = [] ∧
      ParseProjectVersionFile (some content) = []) := by
  refine ⟨fun file => rfl, ?_, ?_⟩
  · intro fileExists
    cases fileExists <;> rfl
  · intro fileExists content h
    have hp : ParseProjectVersionFile (some content) = [] := by
      unfold ParseProjectVersionFile
      simp only
      rw [findSome?_none_of_all parseVersionLine _
        (fun line hl => parseVersionLine_none line (h line hl))]
      rfl
    refine ⟨?_, hp⟩
    unfold GetUnityEditorVersion
    cases fileExists
    · rfl
    · exact hp

set_option maxRecDepth 100000 in
theorem C14_missing_file_or_key_gives_empty_witness :
    (∀ line ∈ getlineAll 0x0A (lit "%YAML 1.1\nm_Version: 3\n"),
      ¬ lit "m_EditorVersion:" <:+: line) ∧
    GetUnityEditorVersion true (some (lit "%YAML 1.1\nm_Version: 3\n")) = [] :=
  ⟨by decide,
   (C14_missing_file_or_key_gives_empty.2.2 true (lit "%YAML 1.1\nm_Version: 3\n")
      (by decide)).1⟩

/-! ## The extension filter -/

/-- C15: for a file name of representable length, `IsUnityFile` is `true` exactly when the
name has a `.` and the suffix starting at its last `.`, lower-cased, is one of
`UNITY_FILE_EXTENSIONS`; in particular a name without `.` gives `false`. -/
theorem C15_is_unity_file_iff (fileName : Str) (hlen : fileName.length < npos) :
    (IsUnityFile fileName = true ↔
      ∃ pre suf, fileName = pre ++ (0x2E : Byte) :: suf ∧ (0x2E : Byte) ∉ suf ∧
        ((0x2E : Byte) :: suf).map tolower ∈ UNITY_FILE_EXTENSIONS) ∧
    ((0x2E : Byte) ∉ fileName → IsUnityFile fileName = false) := by
  have hnone : (0x2E : Byte) ∉ fileName → IsUnityFile fileName = false := by
    intro hno
    unfold IsUnityFile find_last_of
    rw [lastIdx_none _ fileName (by
      intro c hc
      simp only [decide_eq_false_iff_not]
      intro hce
      exact hno (hce ▸ hc))]
    simp
  have hsome : ∀ pre suf, fileName = pre ++ (0x2E : Byte) :: suf → (0x2E : Byte) ∉ suf →
      IsUnityFile fileName
        = decide (((0x2E : Byte) :: suf).map tolower ∈ UNITY_FILE_EXTENSIONS) := by
    intro pre suf hfn hsuf
    have hl : pre.length + (suf.length + 1) < npos := by
      rw [hfn] at hlen
      simpa [List.length_append] using hlen
    unfold IsUnityFile find_last_of
    rw [hfn, lastIdx_append _ pre 0x2E suf (by simp) (by
      intro c hc
      simp only [decide_eq_false_iff_not]
      intro hce
      exact hsuf (hce ▸ hc))]
    have hne : ¬ pre.length = npos := by omega
    simp only [hne, if_false]
    unfold substr
    rw [List.drop_left, List.take_of_length_le (by simp only [List.length_cons]; omega)]
  refine ⟨⟨?_, ?_⟩, hnone⟩
  · intro htrue
    by_cases hdot : (0x2E : Byte) ∈ fileName
    · obtain ⟨pre, suf, hfn, hsuf⟩ : ∃ pre suf, fileName = pre ++ (0x2E : Byte) :: suf ∧
          (0x2E : Byte) ∉ suf := by
        have hr : (0x2E : Byte) ∈ fileName.reverse := List.mem_reverse.2 hdot
        obtain ⟨s, t, hst, hns⟩ := List.eq_append_cons_of_mem hr
        refine ⟨t.reverse, s.reverse, ?_, ?_⟩
        · have := congrArg List.reverse hst
          simpa using this
        · simpa using hns
      refine ⟨pre, suf, hfn, hsuf, ?_⟩
      rw [hsome pre suf hfn hsuf] at htrue
      exact of_decide_eq_true htrue
    · rw [hnone hdot] at htrue
      cases htrue
  · rintro ⟨pre, suf, hfn, hsuf, hext⟩
    rw [hsome pre suf hfn hsuf]
    exact decide_eq_true hext

set_option maxRecDepth 100000 in
theorem C15_is_unity_file_iff_witness :
    (lit "Assets/Scenes/Main.UNITY").length < npos ∧
    (IsUnityFile (lit "Assets/Scenes/Main.UNITY") = true ↔
      ∃ pre suf, lit "Assets/Scenes/Main.UNITY" = pre ++ (0x2E : Byte) :: suf ∧
        (0x2E : Byte) ∉ suf ∧
        ((0x2E : Byte) :: suf).map tolower ∈ UNITY_FILE_EXTENSIONS) ∧
    IsUnityFile (lit "Assets/Scenes/Main.UNITY") = true ∧
    IsUnityFile (lit "Assets/Scripts/Player.cs") = false :=
  ⟨by decide, (C15_is_unity_file_iff (lit "Assets/Scenes/Main.UNITY") (by decide)).1,
   by decide, by decide⟩

/-! ## The folder policy -/

theorem pathSegments_ne_nil (s : Str) : pathSegments s ≠ [] := by
  cases s with
  | nil => simp [pathSegments]
  | cons c rest =>
    rw [pathSegments]
    split
    · simp
    · split <;> simp

/-- The segments read by the `getline` loop are the segments of the split, except that a
final empty segment is not read. -/
theorem mem_getlineAux_iff (s : Str) : ∀ (cur X : Str), X ≠ [] →
    (X ∈ getlineAux 0x2F s cur ↔
      X ∈ (match pathSegments s with
            | seg :: more => (cur ++ seg) :: more
            | [] => [cur])) := by
  induction s with
  | nil =>
    intro cur X hX
    simp only [getlineAux, pathSegments, List.append_nil]
    split
    · next h => subst h; simp [hX]
    · rfl
  | cons c rest ih =>
    intro cur X hX
    rw [getlineAux, pathSegments]
    by_cases hc : c = (0x2F : Byte)
    · have hv : c.val = 0x2F := by rw [hc]; rfl
      rw [if_pos hc, if_pos hv]
      simp only [List.append_nil, List.mem_cons]
      rw [ih [] X hX]
      cases hseg : pathSegments rest with
      | nil => exact absurd hseg (pathSegments_ne_nil rest)
      | cons seg more => simp
    · have hv : ¬ c.val = 0x2F := fun h => hc (Fin.ext h)
      rw [if_neg hc, if_neg hv, ih (cur ++ [c]) X hX]
      cases hseg : pathSegments rest with
      | nil => exact absurd hseg (pathSegments_ne_nil rest)
      | cons seg more => simp

theorem shouldIgnoreName_iff (fileName : Str) :
    shouldIgnoreName fileName = true ↔ ∃ seg ∈ pathSegments fileName, seg ∈ IGNORE_FOLDERS := by
  have hne : ∀ seg, seg ∈ IGNORE_FOLDERS → seg ≠ [] := by
    intro seg hseg hnil
    subst hnil
    revert hseg
    decide
  have hmem : ∀ X, X ≠ [] → (X ∈ getlineAll 0x2F fileName ↔ X ∈ pathSegments fileName) := by
    intro X hX
    unfold getlineAll
    rw [mem_getlineAux_iff fileName [] X hX]
    cases hseg : pathSegments fileName with
    | nil => exact absurd hseg (pathSegments_ne_nil fileName)
    | cons seg more => simp
  unfold shouldIgnoreName ShouldIgnoreFolder
  simp only [List.any_eq_true, decide_eq_true_eq]
  constructor
  · rintro ⟨seg, h1, h2⟩
    exact ⟨seg, (hmem seg (hne seg h2)).1 h1, h2⟩
  · rintro ⟨seg, h1, h2⟩
    exact ⟨seg, (hmem seg (hne seg h2)).2 h1, h2⟩

/-- C16: a change record with relative name `name` is suppressed by the folder policy
exactly when one of the segments of the name (backslashes turned into `/`, split at `/`)
is in `IGNORE_FOLDERS`; then no event is produced whatever the extension, and when no
segment is in the set an event is produced exactly when the extension filter accepts the
name. -/
theorem C16_folder_policy (projectPath projectName name : Str) (now : Int) (action : Nat) :
    (shouldIgnoreName (replaceChar 0x5C 0x2F name) = true ↔
      ∃ seg ∈ pathSegments (replaceChar 0x5C 0x2F name), seg ∈ IGNORE_FOLDERS) ∧
    ((∃ seg ∈ pathSegments (replaceChar 0x5C 0x2F name), seg ∈ IGNORE_FOLDERS) →
      processRecord projectPath projectName now ⟨action, some name⟩ = none) ∧
    ((¬ ∃ seg ∈ pathSegments (replaceChar 0x5C 0x2F name), seg ∈ IGNORE_FOLDERS) →
      ((processRecord projectPath projectName now ⟨action, some name⟩).isSome = true ↔
        IsUnityFile (replaceChar 0x5C 0x2F name) = true)) := by
  refine ⟨shouldIgnoreName_iff _, ?_, ?_⟩
  · intro h
    have hi := (shouldIgnoreName_iff _).2 h
    unfold processRecord
    simp [hi]
  · intro h
    have hi : shouldIgnoreName (replaceChar 0x5C 0x2F name) = false := by
      cases hb : shouldIgnoreName (replaceChar 0x5C 0x2F name) with
      | false => rfl
      | true => exact absurd ((shouldIgnoreName_iff _).1 hb) h
    unfold processRecord
    simp only [hi, Bool.not_false, Bool.true_and]
    cases IsUnityFile (replaceChar 0x5C 0x2F name) <;> simp

set_option maxRecDepth 100000 in
theorem C16_folder_policy_witness :
    (∃ seg ∈ pathSegments (replaceChar 0x5C 0x2F (lit "Library\\Cache\\a.unity")),
      seg ∈ IGNORE_FOLDERS) ∧
    processRecord (lit "C:\\P") (lit "P") 0 ⟨3, some (lit "Library\\Cache\\a.unity")⟩ = none :=
  ⟨⟨lit "Library", by decide, by decide⟩,
   (C16_folder_policy (lit "C:\\P") (lit "P") (lit "Library\\Cache\\a.unity") 0 3).2.1
      ⟨lit "Library", by decide, by decide⟩⟩

/-! ## The watched set -/

theorem any_path_iff (l : List WatchedProject) (path : Str) :
    l.any (fun project => decide (project.projectPath = path)) = true
      ↔ path ∈ l.map (fun project => project.projectPath) := by
  simp only [List.any_eq_true, decide_eq_true_eq, List.mem_map]

theorem StartWatching_of_watched (w : FileWatcher) (projectPath projectName : Str)
    (env : StartEnv) (h : projectPath ∈ GetWatchedProjects w) :
    StartWatching w projectPath projectName env = (true, w) := by
  unfold StartWatching
  rw [if_pos ((any_path_iff _ _).2 h)]

theorem StartWatching_of_new (w : FileWatcher) (projectPath projectName : Str)
    (env : StartEnv) (h : projectPath ∉ GetWatchedProjects w) :
    StartWatching w projectPath projectName env =
      if env.pathExists = false then (false, w)
      else
        match env.createFile with
        | none => (false, w)
        | some handle =>
          (true,
            { w with
              watchedProjects := w.watchedProjects ++
                [{ projectPath := projectPath, projectName := projectName,
                   directoryHandle := handle, shouldStop := false }],
              threadsStarted := w.threadsStarted + 1 }) := by
  have hany : ¬ (w.watchedProjects.any
      (fun project => decide (project.projectPath = projectPath)) = true) :=
    fun hc => h ((any_path_iff _ _).1 hc)
  unfold StartWatching
  rw [if_neg hany]
  cases env.pathExists <;> simp

/-- C17: when `projectPath` is already watched, `StartWatching` returns `true` and leaves
the manager as it is (same entries in the same order, same count, no worker thread
started), whatever `exists` and `CreateFileA` would answer. -/
theorem C17_start_watching_idempotent (w : FileWatcher) (projectPath projectName : Str)
    (env : StartEnv) (h : projectPath ∈ GetWatchedProjects w) :
    StartWatching w projectPath projectName env = (true, w) ∧
    GetWatchedProjects (StartWatching w projectPath projectName env).2 = GetWatchedProjects w ∧
    GetWatchedProjectCount (StartWatching w projectPath projectName env).2
      = GetWatchedProjectCount w ∧
    (StartWatching w projectPath projectName env).2.threadsStarted = w.threadsStarted := by
  rw [StartWatching_of_watched w projectPath projectName env h]
  exact ⟨rfl, rfl, rfl, rfl⟩

theorem C17_start_watching_idempotent_witness :
    lit "C:\\P" ∈ GetWatchedProjects
      (StartWatching FileWatcher.create (lit "C:\\P") (lit "P") ⟨true, some 7⟩).2 ∧
    StartWatching (StartWatching FileWatcher.create (lit "C:\\P") (lit "P") ⟨true, some 7⟩).2
        (lit "C:\\P") (lit "P") ⟨false, none⟩
      = (true, (StartWatching FileWatcher.create (lit "C:\\P") (lit "P") ⟨true, some 7⟩).2) :=
  ⟨by decide,
   (C17_start_watching_idempotent
      (StartWatching FileWatcher.create (lit "C:\\P") (lit "P") ⟨true, some 7⟩).2
      (lit "C:\\P") (lit "P") ⟨false, none⟩ (by decide)).1⟩

/-- C18: for a path that is not watched yet, `StartWatching` returns `false` exactly when
the path does not exist or `CreateFileA` gives no handle, and then the manager is
unchanged; otherwise it returns `true`, the watched set is the previous one with one new
entry for the path appended, and one worker thread is started. -/
theorem C18_start_watching_new_path (w : FileWatcher) (projectPath projectName : Str)
    (env : StartEnv) (h : projectPath ∉ GetWatchedProjects w) :
    ((StartWatching w projectPath projectName env).1 = false
      ↔ (env.pathExists = false ∨ env.createFile = none)) ∧
    ((StartWatching w projectPath projectName env).1 = false →
      (StartWatching w projectPath projectName env).2 = w) ∧
    ((StartWatching w projectPath projectName env).1 = true →
      ∃ handle, env.createFile = some handle ∧
        (StartWatching w projectPath projectName env).2.watchedProjects
          = w.watchedProjects ++
            [{ projectPath := projectPath, projectName := projectName,
               directoryHandle := handle, shouldStop := false }] ∧
        GetWatchedProjects (StartWatching w projectPath projectName env).2
          = GetWatchedProjects w ++ [projectPath] ∧
        (StartWatching w projectPath projectName env).2.threadsStarted
          = w.threadsStarted + 1) := by
  rw [StartWatching_of_new w projectPath projectName env h]
  cases hex : env.pathExists with
  | false => simp
  | true =>
    cases hcf : env.createFile with
    | none => simp
    | some handle => simp [GetWatchedProjects]

theorem C18_start_watching_new_path_witness :
    lit "C:\\P" ∉ GetWatchedProjects FileWatcher.create ∧
    ((StartWatching FileWatcher.create (lit "C:\\P") (lit "P") ⟨true, none⟩).1 = false
      ↔ ((⟨true, none⟩ : StartEnv).pathExists = false
          ∨ (⟨true, none⟩ : StartEnv).createFile = none)) ∧
    ∃ handle, (⟨true, some 7⟩ : StartEnv).createFile = some handle ∧
      (StartWatching FileWatcher.create (lit "C:\\P") (lit "P")
          ⟨true, some 7⟩).2.watchedProjects
        = FileWatcher.create.watchedProjects ++
          [{ projectPath := lit "C:\\P", projectName := lit "P",
             directoryHandle := handle, shouldStop := false }] ∧
      GetWatchedProjects
          (StartWatching FileWatcher.create (lit "C:\\P") (lit "P") ⟨true, some 7⟩).2
        = GetWatchedProjects FileWatcher.create ++ [lit "C:\\P"] ∧
      (StartWatching FileWatcher.create (lit "C:\\P") (lit "P") ⟨true, some 7⟩).2.threadsStarted
        = FileWatcher.create.threadsStarted + 1 :=
  ⟨by decide,
   (C18_start_watching_new_path FileWatcher.create (lit "C:\\P") (lit "P") ⟨true, none⟩
      (by decide)).1,
   (C18_start_watching_new_path FileWatcher.create (lit "C:\\P") (lit "P") ⟨true, some 7⟩
      (by decide)).2.2 (by decide)⟩

theorem GetWatchedProjects_StopWatching (w : FileWatcher) (projectPath : Str)
    (joined : WatchedProject → Bool) :
    GetWatchedProjects (StopWatching w projectPath joined)
      = (GetWatchedProjects w).filter (fun q => !decide (q = projectPath)) := by
  unfold GetWatchedProjects StopWatching
  simp only [List.filter_map]
  rfl

/-- C19: after `StopWatching(path)` the path does not occur in `GetWatchedProjects()`;
the paths listed are exactly the other paths of before, in the same order; and when the
path was not watched the watched set is unchanged. -/
theorem C19_stop_watching_removes_path (w : FileWatcher) (projectPath : Str)
    (joined : WatchedProject → Bool) :
    projectPath ∉ GetWatchedProjects (StopWatching w projectPath joined) ∧
    GetWatchedProjects (StopWatching w projectPath joined)
      = (GetWatchedProjects w).filter (fun q => !decide (q = projectPath)) ∧
    (∀ q, q ≠ projectPath → q ∈ GetWatchedProjects w →
      q ∈ GetWatchedProjects (StopWatching w projectPath joined)) ∧
    (GetWatchedProjects (StopWatching w projectPath joined)).Sublist (GetWatchedProjects w) ∧
    (projectPath ∉ GetWatchedProjects w →
      (StopWatching w projectPath joined).watchedProjects = w.watchedProjects) := by
  rw [GetWatchedProjects_StopWatching]
  refine ⟨?_, rfl, ?_, List.filter_sublist _, ?_⟩
  · intro hmem
    have := (List.mem_filter.1 hmem).2
    simp at this
  · intro q hq hmem
    exact List.mem_filter.2 ⟨hmem, by simp [hq]⟩
  · intro hnot
    unfold StopWatching
    simp only
    apply List.filter_eq_self.2
    intro p hp
    have : p.projectPath ≠ projectPath := fun hc =>
      hnot (List.mem_map.2 ⟨p, hp, hc⟩)
    simp [this]

theorem C19_stop_watching_removes_path_witness :
    lit "C:\\Q" ∉ GetWatchedProjects
      (StartWatching FileWatcher.create (lit "C:\\P") (lit "P") ⟨true, some 7⟩).2 ∧
    (StopWatching (StartWatching FileWatcher.create (lit "C:\\P") (lit "P") ⟨true, some 7⟩).2
        (lit "C:\\Q") (fun _ => true)).watchedProjects
      = (StartWatching FileWatcher.create (lit "C:\\P") (lit "P")
          ⟨true, some 7⟩).2.watchedProjects ∧
    lit "C:\\P" ∉ GetWatchedProjects
      (StopWatching (StartWatching FileWatcher.create (lit "C:\\P") (lit "P") ⟨true, some 7⟩).2
        (lit "C:\\P") (fun _ => true)) :=
  ⟨by decide,
   (C19_stop_watching_removes_path
      (StartWatching FileWatcher.create (lit "C:\\P") (lit "P") ⟨true, some 7⟩).2
      (lit "C:\\Q") (fun _ => true)).2.2.2.2 (by decide),
   (C19_stop_watching_removes_path
      (StartWatching FileWatcher.create (lit "C:\\P") (lit "P") ⟨true, some 7⟩).2
      (lit "C:\\P") (fun _ => true)).1⟩

theorem StartWatching_nodup (w : FileWatcher) (projectPath projectName : Str) (env : StartEnv)
    (h : (GetWatchedProjects w).Nodup) :
    (GetWatchedProjects (StartWatching w projectPath projectName env).2).Nodup := by
  by_cases hmem : projectPath ∈ GetWatchedProjects w
  · rw [StartWatching_of_watched w projectPath projectName env hmem]
    exact h
  · rw [StartWatching_of_new w projectPath projectName env hmem]
    cases env.pathExists with
    | false => exact h
    | true =>
      cases env.createFile with
      | none => exact h
      | some handle =>
        simp only [GetWatchedProjects, List.map_append, List.map_cons, List.map_nil,
          Bool.true_eq_false, if_false]
        refine List.Nodup.append h (List.nodup_singleton _) ?_
        intro a ha hb
        rw [List.mem_singleton] at hb
        exact hmem (hb ▸ ha)

theorem applyWatchOp_nodup (w : FileWatcher) (op : WatchOp)
    (h : (GetWatchedProjects w).Nodup) : (GetWatchedProjects (applyWatchOp w op)).Nodup := by
  cases op with
  | start projectPath projectName env => exact StartWatching_nodup w projectPath projectName env h
  | stop projectPath joined =>
    show (GetWatchedProjects (StopWatching w projectPath joined)).Nodup
    rw [GetWatchedProjects_StopWatching]
    exact h.filter _
  | stopAll joined => exact List.nodup_nil

theorem runWatchOps_nodup (ops : List WatchOp) : ∀ w : FileWatcher,
    (GetWatchedProjects w).Nodup → (GetWatchedProjects (runWatchOps w ops)).Nodup := by
  induction ops with
  | nil => intro w h; exact h
  | cons op ops ih =>
    intro w h
    exact ih (applyWatchOp w op) (applyWatchOp_nodup w op h)

/-- C20: starting from the empty watched set, after every sequence of `StartWatching`,
`StopWatching` and `StopAllWatching` calls, with any answers of the path-exists and
handle-open checks and any join outcomes, no two watch entries have the same
`projectPath`. -/
theorem C20_watched_paths_unique (ops : List WatchOp) :
    (GetWatchedProjects (runWatchOps FileWatcher.create ops)).Nodup ∧
    ∀ p ∈ (runWatchOps FileWatcher.create ops).watchedProjects,
      ∀ q ∈ (runWatchOps FileWatcher.create ops).watchedProjects,
        p.projectPath = q.projectPath → p = q := by
  have hn := runWatchOps_nodup ops FileWatcher.create List.nodup_nil
  refine ⟨hn, ?_⟩
  intro p hp q hq hpq
  exact List.inj_on_of_nodup_map hn hp hq hpq

/-! ## Parsing the version file -/

theorem find_of_prefix (s needle : Str) (hs : s ≠ []) (h : needle <+: s) :
    find s needle 0 = 0 := by
  cases s with
  | nil => exact absurd rfl hs
  | cons c rest =>
    unfold find
    rw [if_pos (by simp), List.drop_zero, findAux, if_pos (List.isPrefixOf_iff_prefix.2 h)]

theorem firstIdx_zero_append (p : Byte → Bool) (pre : Str) (c : Byte) (post : Str)
    (hpre : ∀ x ∈ pre, p x = false) (hc : p c = true) :
    firstIdx p (pre ++ c :: post) 0 = pre.length := by
  unfold firstIdx
  rw [if_pos (by simp), List.drop_zero, firstIdxAux_append p pre c post hpre hc]
  omega

theorem getlineAux_segment (d : Byte) (seg : Str) (hseg : d ∉ seg) : ∀ (rest cur : Str),
    getlineAux d (seg ++ d :: rest) cur = (cur ++ seg) :: getlineAux d rest [] := by
  induction seg with
  | nil => intro rest cur; rw [List.nil_append, getlineAux, if_pos rfl, List.append_nil]
  | cons c seg ih =>
    intro rest cur
    have hc : ¬ c = d := fun h => hseg (h ▸ List.mem_cons_self _ _)
    rw [List.cons_append, getlineAux, if_neg hc,
      ih (fun h => hseg (List.mem_cons_of_mem _ h)), List.append_assoc]
    rfl

theorem getlineAux_last (d : Byte) (seg : Str) (hseg : d ∉ seg) : ∀ cur : Str,
    cur ++ seg ≠ [] → getlineAux d seg cur = [cur ++ seg] := by
  induction seg with
  | nil =>
    intro cur hne
    rw [List.append_nil] at hne ⊢
    rw [getlineAux, if_neg hne]
  | cons c seg ih =>
    intro cur _
    have hc : ¬ c = d := fun h => hseg (h ▸ List.mem_cons_self _ _)
    rw [getlineAux, if_neg hc, ih (fun h => hseg (List.mem_cons_of_mem _ h)) _ (by simp),
      List.append_assoc]
    rfl

/-- The first two parts of `A.B`, of `A.B.rest`: `A` and `B`. -/
theorem version_parts (A B tail : Str) (hA : (0x2E : Byte) ∉ A) (hB : (0x2E : Byte) ∉ B)
    (htail : (tail = [] ∧ B ≠ []) ∨ ∃ r, tail = (0x2E : Byte) :: r) :
    (getlineAll 0x2E (A ++ (0x2E : Byte) :: (B ++ tail))).take 2 = [A, B] := by
  unfold getlineAll
  rw [getlineAux_segment 0x2E A hA, List.nil_append]
  rcases htail with ⟨h1, h2⟩ | ⟨r, hr⟩
  · rw [h1, List.append_nil, getlineAux_last 0x2E B hB [] (by simpa using h2)]
    rfl
  · rw [hr, getlineAux_segment 0x2E B hB, List.nil_append]
    rfl

/-- Removing the trailing white space the way `ParseProjectVersionFile` does. -/
theorem rtrim_body (body ws2 : Str) (hlen : (body ++ ws2).length < npos)
    (hbody : ∃ init last, body = init ++ [last] ∧ last ∉ lit " \t\r\n")
    (hws2 : ∀ c ∈ ws2, c ∈ lit " \t\r\n") :
    (body ++ ws2).take (sizeAdd (find_last_not_of (body ++ ws2) (lit " \t\r\n")) 1) = body := by
  obtain ⟨init, last, hb, hlast⟩ := hbody
  subst hb
  have hl : init.length + 1 + ws2.length < npos := by
    simp only [List.length_append, List.length_cons, List.length_nil] at hlen
    omega
  unfold find_last_not_of
  rw [List.append_assoc, List.singleton_append,
    lastIdx_append _ init last ws2 (by simpa using hlast) (by
      intro c hc
      simpa using hws2 c hc)]
  have hs : sizeAdd init.length 1 = init.length + 1 := by
    unfold sizeAdd
    unfold npos at hl
    omega
  rw [hs, ← List.singleton_append, ← List.append_assoc, List.take_left']
  simp

/-- Removing the leading blanks the way `ParseProjectVersionFile` does. -/
theorem ltrim_body (ws1 : Str) (b : Byte) (rest : Str) (hws1 : ∀ c ∈ ws1, c ∈ lit " \t")
    (hb : b ∉ lit " \t") :
    (ws1 ++ b :: rest).drop (find_first_not_of (ws1 ++ b :: rest) (lit " \t") 0) = b :: rest := by
  unfold find_first_not_of
  rw [firstIdx_zero_append _ ws1 b rest (by
      intro c hc
      simpa using hws1 c hc) (by simpa using hb), List.drop_left]

theorem lit_version_key :
    lit "m_EditorVersion:" = lit "m_EditorVersion" ++ [(0x3A : Byte)] := by decide

set_option maxRecDepth 100000 in
theorem version_key_no_colon : ∀ x ∈ lit "m_EditorVersion", decide (x = (0x3A : Byte)) = false := by
  decide

/-- The value returned for a line of the form key, blanks, `A.B`, optional further
components, trailing white space. -/
theorem parseVersionLine_form (ws1 A B tail ws2 : Str)
    (hlen : (lit "m_EditorVersion:" ++ ws1 ++ A ++ (0x2E : Byte) :: B ++ tail ++ ws2).length
      < npos)
    (hws1 : ∀ c ∈ ws1, c ∈ lit " \t")
    (hA : (0x2E : Byte) ∉ A) (hA0 : ∀ c, A.head? = some c → c ∉ lit " \t")
    (hB : (0x2E : Byte) ∉ B)
    (htail : (tail = [] ∧ B ≠ []) ∨ ∃ r, tail = (0x2E : Byte) :: r)
    (hend : ∀ c, (A ++ (0x2E : Byte) :: B ++ tail).getLast? = some c → c ∉ lit " \t\r\n")
    (hws2 : ∀ c ∈ ws2, c ∈ lit " \t\r\n") :
    parseVersionLine (lit "m_EditorVersion:" ++ ws1 ++ A ++ (0x2E : Byte) :: B ++ tail ++ ws2)
      = some (A ++ (0x2E : Byte) :: B) := by
  -- the line, written as key text, colon, and what follows the colon
  have hline : lit "m_EditorVersion:" ++ ws1 ++ A ++ (0x2E : Byte) :: B ++ tail ++ ws2
      = lit "m_EditorVersion" ++ (0x3A : Byte)
          :: (ws1 ++ ((A ++ (0x2E : Byte) :: (B ++ tail)) ++ ws2)) := by
    rw [lit_version_key]
    simp only [List.append_assoc, List.cons_append, List.nil_append]
  have hlen2 : (ws1 ++ ((A ++ (0x2E : Byte) :: (B ++ tail)) ++ ws2)).length < npos := by
    rw [hline] at hlen
    simp only [List.length_append, List.length_cons] at hlen ⊢
    omega
  have hbodyeq : A ++ (0x2E : Byte) :: B ++ tail = A ++ (0x2E : Byte) :: (B ++ tail) := by
    simp only [List.append_assoc, List.cons_append]
  rw [hbodyeq] at hend
  -- the key is found, and the first colon is the one of the key
  have hfind : find (lit "m_EditorVersion:" ++ ws1 ++ A ++ (0x2E : Byte) :: B ++ tail ++ ws2)
      (lit "m_EditorVersion:") 0 = 0 := by
    apply find_of_prefix
    · rw [hline]; simp
    · simp only [List.append_assoc]
      exact List.prefix_append _ _
  have hcolon : findChar (lit "m_EditorVersion" ++ (0x3A : Byte)
      :: (ws1 ++ ((A ++ (0x2E : Byte) :: (B ++ tail)) ++ ws2))) 0x3A 0 = 15 := by
    unfold findChar
    rw [firstIdx_zero_append _ _ _ _ version_key_no_colon (by simp)]
    decide
  -- the body starts with a character that is not a blank and ends with one that is not
  -- white space
  obtain ⟨b, rest, hbr, hbne⟩ : ∃ b rest, A ++ (0x2E : Byte) :: (B ++ tail) = b :: rest ∧
      b ∉ lit " \t" := by
    cases hAc : A with
    | nil => exact ⟨0x2E, B ++ tail, rfl, by decide⟩
    | cons a A' =>
      refine ⟨a, A' ++ (0x2E : Byte) :: (B ++ tail), rfl, hA0 a ?_⟩
      rw [hAc]; rfl
  have hne : A ++ (0x2E : Byte) :: (B ++ tail) ≠ [] := by simp
  have hbody : ∃ init last, A ++ (0x2E : Byte) :: (B ++ tail) = init ++ [last] ∧
      last ∉ lit " \t\r\n" := by
    refine ⟨(A ++ (0x2E : Byte) :: (B ++ tail)).dropLast,
      (A ++ (0x2E : Byte) :: (B ++ tail)).getLast hne,
      (List.dropLast_append_getLast hne).symm, hend _ ?_⟩
    exact List.getLast?_eq_getLast _ hne
  unfold parseVersionLine
  rw [if_pos (by rw [hfind]; decide)]
  rw [hline, hcolon]
  simp only
  rw [if_pos (by decide)]
  have hsub : substr (lit "m_EditorVersion" ++ (0x3A : Byte)
      :: (ws1 ++ ((A ++ (0x2E : Byte) :: (B ++ tail)) ++ ws2))) (15 + 1) npos
      = ws1 ++ ((A ++ (0x2E : Byte) :: (B ++ tail)) ++ ws2) := by
    unfold substr
    rw [show (15 + 1) = (lit "m_EditorVersion" ++ [(0x3A : Byte)]).length by decide,
      show lit "m_EditorVersion" ++ (0x3A : Byte)
          :: (ws1 ++ ((A ++ (0x2E : Byte) :: (B ++ tail)) ++ ws2))
        = (lit "m_EditorVersion" ++ [(0x3A : Byte)])
          ++ (ws1 ++ ((A ++ (0x2E : Byte) :: (B ++ tail)) ++ ws2)) by simp,
      List.drop_left, List.take_of_length_le (by omega)]
  rw [hsub]
  have hl : (ws1 ++ ((A ++ (0x2E : Byte) :: (B ++ tail)) ++ ws2)).drop
      (find_first_not_of (ws1 ++ ((A ++ (0x2E : Byte) :: (B ++ tail)) ++ ws2)) (lit " \t") 0)
      = (A ++ (0x2E : Byte) :: (B ++ tail)) ++ ws2 := by
    rw [hbr, List.cons_append]
    exact ltrim_body ws1 b (rest ++ ws2) hws1 hbne
  rw [hl]
  have hr := rtrim_body (A ++ (0x2E : Byte) :: (B ++ tail)) ws2
    (by
      simp only [List.length_append, List.length_cons] at hlen2 ⊢
      omega) hbody hws2
  rw [hr, if_pos hne, version_parts A B tail hA hB htail]
  simp only [List.length_cons, List.length_nil]
  rw [if_pos (by decide), show lit "." = [(0x2E : Byte)] by decide]
  simp [List.getD]

theorem findSome?_first {α β : Type} (f : α → Option β) (pre : List α) (x : α)
    (post : List α) (y : β) (hpre : ∀ a ∈ pre, f a = none) (hx : f x = some y) :
    (pre ++ x :: post).findSome? f = some y := by
  induction pre with
  | nil => rw [List.nil_append, List.findSome?_cons, hx]
  | cons a pre ih =>
    rw [List.cons_append, List.findSome?_cons, hpre a (List.mem_cons_self _ _)]
    exact ih (fun b hb => hpre b (List.mem_cons_of_mem _ hb))

set_option maxRecDepth 100000 in
/-- C13 (as stated, refuted): the line `m_EditorVersion: 2022.` has the stated form with
`A = 2022` and an empty `B`, the claimed result is `2022.`, and the function returns the
empty string. -/
theorem C13_empty_minor_gives_nothing :
    lit "m_EditorVersion: 2022."
      = lit "m_EditorVersion:" ++ lit " " ++ lit "2022" ++ (0x2E : Byte) :: [] ∧
    ParseProjectVersionFile (some (lit "m_EditorVersion: 2022.\n")) = [] ∧
    ParseProjectVersionFile (some (lit "m_EditorVersion: 2022.\n"))
      ≠ lit "2022" ++ (0x2E : Byte) :: [] := by
  decide

/-- C13 (amended): let the first line of the version file that contains
`m_EditorVersion:` be the key, blanks (spaces, tabs), `A`, a dot, `B`, optionally a further
dot and anything, then white space, where `A` and `B` contain no dot, `A` does not start
with a blank, the text before the trailing white space does not end in white space, and
`B` is not empty unless a further dot follows it.  Then `ParseProjectVersionFile` returns
exactly `A`, a dot, `B`. -/
theorem C13_version_major_minor (content : Str) (pre post : List Str)
    (ws1 A B tail ws2 : Str)
    (hlines : getlineAll 0x0A content
      = pre ++ (lit "m_EditorVersion:" ++ ws1 ++ A ++ (0x2E : Byte) :: B ++ tail ++ ws2) :: post)
    (hpre : ∀ l ∈ pre, ¬ lit "m_EditorVersion:" <:+: l)
    (hlen : (lit "m_EditorVersion:" ++ ws1 ++ A ++ (0x2E : Byte) :: B ++ tail ++ ws2).length
      < npos)
    (hws1 : ∀ c ∈ ws1, c ∈ lit " \t")
    (hA : (0x2E : Byte) ∉ A) (hA0 : ∀ c, A.head? = some c → c ∉ lit " \t")
    (hB : (0x2E : Byte) ∉ B)
    (htail : (tail = [] ∧ B ≠ []) ∨ ∃ r, tail = (0x2E : Byte) :: r)
    (hend : ∀ c, (A ++ (0x2E : Byte) :: B ++ tail).getLast? = some c → c ∉ lit " \t\r\n")
    (hws2 : ∀ c ∈ ws2, c ∈ lit " \t\r\n") :
    ParseProjectVersionFile (some content) = A ++ (0x2E : Byte) :: B := by
  unfold ParseProjectVersionFile
  simp only
  rw [hlines, findSome?_first parseVersionLine pre _ post (A ++ (0x2E : Byte) :: B)
    (fun l hl => parseVersionLine_none l (hpre l hl))
    (parseVersionLine_form ws1 A B tail ws2 hlen hws1 hA hA0 hB htail hend hws2)]
  rfl

set_option maxRecDepth 100000 in
theorem C13_version_major_minor_witness :
    ParseProjectVersionFile (some (lit
      "%YAML 1.1\nm_EditorVersion: 2022.3.15f1 \nm_EditorVersionWithRevision: 2022.3.15f1 (b58)\n"))
      = lit "2022" ++ (0x2E : Byte) :: lit "3" :=
  C13_version_major_minor
    (lit "%YAML 1.1\nm_EditorVersion: 2022.3.15f1 \nm_EditorVersionWithRevision: 2022.3.15f1 (b58)\n")
    [lit "%YAML 1.1"] [lit "m_EditorVersionWithRevision: 2022.3.15f1 (b58)"]
    (lit " ") (lit "2022") (lit "3") (lit ".15f1") (lit " ")
    (by decide) (by decide) (by decide) (by decide) (by decide)
    (by intro c h; cases h; decide) (by decide) (Or.inr ⟨lit "15f1", by decide⟩)
    (by intro c h; cases h; decide) (by decide)

/-! ## The project name -/

/-- Going back from the end over characters that are no separators, in a text whose last
separator is `sep`: what is left is the text behind `sep`. -/
theorem tail_after_last_slash (X : Str) (sep : Byte) (name : Str) (hsep : isSlash sep = true)
    (hname : ∀ c ∈ name, isSlash c = false) :
    ((X ++ sep :: name).reverse.takeWhile (fun c => !isSlash c)).reverse = name := by
  rw [List.reverse_append, List.reverse_cons, List.append_assoc, List.singleton_append,
    List.takeWhile_append_of_pos (by
      intro a ha
      rw [hname a (List.mem_reverse.1 ha)]
      rfl),
    List.takeWhile_cons_of_neg (by rw [hsep]; decide), List.append_nil, List.reverse_reverse]

theorem tail_of_no_slash (name : Str) (hname : ∀ c ∈ name, isSlash c = false) :
    (name.reverse.takeWhile (fun c => !isSlash c)).reverse = name := by
  rw [List.takeWhile_eq_self_iff.2 (by
    intro a ha
    rw [hname a (List.mem_reverse.1 ha)]
    rfl), List.reverse_reverse]

theorem dropWhile_no_slash (name : Str) (hname : ∀ c ∈ name, isSlash c = false) :
    name.dropWhile isSlash = name := by
  cases name with
  | nil => rfl
  | cons c rest =>
    rw [List.dropWhile_cons_of_neg (by rw [hname c (List.mem_cons_self _ _)]; decide)]

/-- Skipping leading separators keeps the last separator and what follows it, or leaves
just what follows it. -/
theorem dropWhile_keeps_tail (X : Str) (sep : Byte) (name : Str) (hsep : isSlash sep = true)
    (hname : ∀ c ∈ name, isSlash c = false) :
    (∃ Y, (X ++ sep :: name).dropWhile isSlash = Y ++ sep :: name) ∨
      (X ++ sep :: name).dropWhile isSlash = name := by
  induction X with
  | nil =>
    right
    rw [List.nil_append, List.dropWhile_cons_of_pos hsep]
    exact dropWhile_no_slash name hname
  | cons x X ih =>
    by_cases hx : isSlash x = true
    · rw [List.cons_append, List.dropWhile_cons_of_pos hx]
      exact ih
    · left
      exact ⟨x :: X, by rw [List.cons_append, List.dropWhile_cons_of_neg hx]⟩

theorem filename_of_relativePath (p X : Str) (sep : Byte) (name : Str)
    (hsep : isSlash sep = true) (hname : ∀ c ∈ name, isSlash c = false)
    (h : p.drop (findRootNameEnd p) = X ++ sep :: name) : filename p = name := by
  unfold filename relativePath
  rw [h]
  rcases dropWhile_keeps_tail X sep name hsep hname with ⟨Y, hY⟩ | hY
  · rw [hY]
    exact tail_after_last_slash Y sep name hsep hname
  · rw [hY]
    exact tail_of_no_slash name hname

theorem slash_not_letter (c : Byte) (h : isSlash c = true) :
    isDriveLetter c = false ∧ c.val ≠ 0x3A := by
  unfold isSlash at h
  unfold isDriveLetter
  simp only [Bool.or_eq_true, decide_eq_true_eq] at h
  rcases h with h | h <;> simp [h]

theorem length_takeWhile_before (L : Str) (sep : Byte) (rest : Str)
    (hsep : isSlash sep = true) :
    ((L ++ sep :: rest).takeWhile (fun c => !isSlash c)).length ≤ L.length := by
  induction L with
  | nil =>
    rw [List.nil_append, List.takeWhile_cons_of_neg (by rw [hsep]; decide)]
  | cons x L ih =>
    rw [List.cons_append, List.takeWhile_cons]
    split
    · simp only [List.length_cons]
      omega
    · simp

/-- The root-name of a path does not reach beyond its last separator, unless the path is
two separators followed by a name. -/
theorem findRootNameEnd_le (pre : Str) (sep : Byte) (name : Str) (hsep : isSlash sep = true)
    (hname : ∀ c ∈ name, isSlash c = false) (hne : name ≠ [])
    (hpre : ¬ ∃ s0, pre = [s0] ∧ isSlash s0 = true) :
    findRootNameEnd (pre ++ sep :: name) ≤ pre.length := by
  obtain ⟨hsl, hsc⟩ := slash_not_letter sep hsep
  cases name with
  | nil => exact absurd rfl hne
  | cons n0 name1 =>
  have hn0 : isSlash n0 = false := hname n0 (List.mem_cons_self _ _)
  cases pre with
  | nil =>
    cases name1 with
    | nil => simp [findRootNameEnd, hsl, hsep, hn0]
    | cons n1 name2 =>
      have hn1 : isSlash n1 = false :=
        hname n1 (List.mem_cons_of_mem _ (List.mem_cons_self _ _))
      cases name2 with
      | nil => simp [findRootNameEnd, hsl, hsep, hn0]
      | cons n2 name3 =>
        have hn2 : isSlash n2 = false :=
          hname n2 (List.mem_cons_of_mem _ (List.mem_cons_of_mem _ (List.mem_cons_self _ _)))
        simp [findRootNameEnd, hsl, hsep, hn0, hn2]
  | cons s0 pre1 =>
    cases pre1 with
    | nil =>
      have hs0 : isSlash s0 = false := by
        cases h : isSlash s0 with
        | false => rfl
        | true => exact absurd ⟨s0, rfl, h⟩ hpre
      simp [findRootNameEnd, hsc, hs0]
    | cons s1 pre2 =>
      simp only [List.cons_append, List.length_cons]
      unfold findRootNameEnd
      simp only
      split
      · omega
      split
      · omega
      cases pre2 with
      | nil => simp [hsep, hn0]
      | cons a pre3 =>
        cases pre3 with
        | nil =>
          simp only [List.nil_append, List.cons_append, List.length_cons, List.length_nil]
          split
          · omega
          split
          · rw [List.takeWhile_cons_of_neg (by rw [hsep]; decide)]
            simp
          · omega
        | cons b pre4 =>
          simp only [List.cons_append, List.length_cons]
          split
          · omega
          split
          · have := length_takeWhile_before (b :: pre4) sep (n0 :: name1) hsep
            simp only [List.cons_append, List.length_cons] at this
            omega
          · omega

/-- The file name of a path whose last separator is not part of a leading pair of
separators: the text behind that separator. -/
theorem filename_after_last_sep (pre : Str) (sep : Byte) (name : Str)
    (hsep : isSlash sep = true) (hname : ∀ c ∈ name, isSlash c = false) (hne : name ≠ [])
    (hpre : ¬ ∃ s0, pre = [s0] ∧ isSlash s0 = true) :
    filename (pre ++ sep :: name) = name := by
  have hk := findRootNameEnd_le pre sep name hsep hname hne hpre
  apply filename_of_relativePath (pre ++ sep :: name)
    (pre.drop (findRootNameEnd (pre ++ sep :: name))) sep name hsep hname
  rw [List.drop_append_of_le_length hk]

/-- The file name of `\\server`: empty, the whole path being its root-name. -/
theorem filename_double_slash (s0 s1 : Byte) (name : Str) (h0 : isSlash s0 = true)
    (h1 : isSlash s1 = true) (hname : ∀ c ∈ name, isSlash c = false) (hne : name ≠ []) :
    filename (s0 :: s1 :: name) = [] := by
  obtain ⟨hsl, -⟩ := slash_not_letter s0 h0
  have hroot : findRootNameEnd (s0 :: s1 :: name) = (s0 :: s1 :: name).length := by
    cases name with
    | nil => exact absurd rfl hne
    | cons n0 name1 =>
      have hn0 : isSlash n0 = false := hname n0 (List.mem_cons_self _ _)
      cases name1 with
      | nil => simp [findRootNameEnd, hsl, h0, h1, hn0]
      | cons n1 name2 =>
        have hn1 : isSlash n1 = false :=
          hname n1 (List.mem_cons_of_mem _ (List.mem_cons_self _ _))
        have htw : (n1 :: name2).takeWhile (fun c => !isSlash c) = n1 :: name2 :=
          List.takeWhile_eq_self_iff.2 (by
            intro a ha
            rw [hname a (List.mem_cons_of_mem _ ha)]
            rfl)
        unfold findRootNameEnd
        simp only [hsl, h0, h1, hn0, hn1, htw, List.length_cons]
        simp
        omega
  unfold filename relativePath
  rw [hroot, List.drop_length]
  rfl

/-- The file name of a path without separator and without drive prefix: the path. -/
theorem filename_plain (p : Str) (hp : ∀ c ∈ p, isSlash c = false)
    (hdrive : ∀ d colon rest, p = d :: colon :: rest →
      ¬ (isDriveLetter d = true ∧ colon.val = 0x3A)) :
    filename p = p := by
  have hroot : findRootNameEnd p = 0 := by
    cases p with
    | nil => rfl
    | cons c0 p1 =>
      cases p1 with
      | nil => rfl
      | cons c1 p2 =>
        have h0 : isSlash c0 = false := hp c0 (List.mem_cons_self _ _)
        have hd := hdrive c0 c1 p2 rfl
        unfold findRootNameEnd
        simp only
        rw [if_neg (by simpa using hd), if_pos (by rw [h0]; rfl)]
  unfold filename relativePath
  rw [hroot, List.drop_zero, dropWhile_no_slash p hp]
  exact tail_of_no_slash p hp

/-- The file name of `X:name` without separator: `name`. -/
theorem filename_drive_relative (d colon : Byte) (name : Str) (hd : isDriveLetter d = true)
    (hcolon : colon.val = 0x3A) (hname : ∀ c ∈ name, isSlash c = false) :
    filename (d :: colon :: name) = name := by
  have hroot : findRootNameEnd (d :: colon :: name) = 2 := by
    unfold findRootNameEnd
    simp [hd, hcolon]
  unfold filename relativePath
  rw [hroot]
  show ((name.dropWhile isSlash).reverse.takeWhile (fun c => !isSlash c)).reverse = name
  rw [dropWhile_no_slash name hname]
  exact tail_of_no_slash name hname

set_option maxRecDepth 100000 in
/-- C12 (as stated, refuted): the path `\\server` is not empty and does not end in a
separator, the text behind its last separator is `server`, and `GetProjectName` returns
the empty string, the whole path being a root-name; and for the path `C:Proj`, which has no
separator at all, it returns `Proj` and not the path's only segment `C:Proj`. -/
theorem C12_unc_root_has_no_name :
    lit "\\\\server" = lit "\\" ++ (0x5C : Byte) :: lit "server" ∧
    (∀ c ∈ lit "server", isSlash c = false) ∧
    GetProjectName (lit "\\\\server") = [] ∧
    GetProjectName (lit "\\\\server") ≠ lit "server" ∧
    (∀ c ∈ lit "C:Proj", isSlash c = false) ∧
    GetProjectName (lit "C:Proj") = lit "Proj" ∧
    GetProjectName (lit "C:Proj") ≠ lit "C:Proj" := by
  decide

set_option maxRecDepth 100000 in
/-- C12 (amended): for an ASCII project path `p` (for such paths the conversion between
the narrow string and the wide characters of the path is the identity) that does not end
in a separator, `GetProjectName` returns the text behind the last `\` or `/`, unless
that separator is the second of two leading separators (`\\server`), where it returns the
empty string; a path without separator is returned whole, without its drive prefix `X:`
if it has one; the empty path gives the empty string; `C:\Proj One` gives `Proj One`. -/
theorem C12_project_name (p : Str) (_hascii : ∀ c ∈ p, c.val < 0x80) :
    GetProjectName [] = [] ∧
    (∀ pre sep name, p = pre ++ sep :: name → isSlash sep = true →
      (∀ c ∈ name, isSlash c = false) → name ≠ [] →
      (¬ ∃ s0, pre = [s0] ∧ isSlash s0 = true) → GetProjectName p = name) ∧
    (∀ s0 s1 name, p = s0 :: s1 :: name → isSlash s0 = true → isSlash s1 = true →
      (∀ c ∈ name, isSlash c = false) → name ≠ [] → GetProjectName p = []) ∧
    (∀ d colon name, p = d :: colon :: name → isDriveLetter d = true → colon.val = 0x3A →
      (∀ c ∈ name, isSlash c = false) → GetProjectName p = name) ∧
    ((∀ c ∈ p, isSlash c = false) →
      (∀ d colon rest, p = d :: colon :: rest → ¬ (isDriveLetter d = true ∧ colon.val = 0x3A)) →
      GetProjectName p = p) ∧
    GetProjectName (lit "C:\\Proj One") = lit "Proj One" := by
  refine ⟨rfl, ?_, ?_, ?_, ?_, by decide⟩
  · intro pre sep name hp hsep hname hne hpre
    subst hp
    unfold GetProjectName
    rw [if_neg (by simp)]
    exact filename_after_last_sep pre sep name hsep hname hne hpre
  · intro s0 s1 name hp h0 h1 hname hne
    subst hp
    unfold GetProjectName
    rw [if_neg (by simp)]
    exact filename_double_slash s0 s1 name h0 h1 hname hne
  · intro d colon name hp hd hcolon hname
    subst hp
    unfold GetProjectName
    rw [if_neg (by simp)]
    exact filename_drive_relative d colon name hd hcolon hname
  · intro hp hdrive
    unfold GetProjectName
    split
    · next h => rw [h]
    · exact filename_plain p hp hdrive

set_option maxRecDepth 100000 in
theorem C12_project_name_witness :
    (∀ c ∈ lit "C:\\Proj One", c.val < 0x80) ∧
    GetProjectName (lit "C:\\Proj One") = lit "Proj One" :=
  ⟨by decide,
   (C12_project_name (lit "C:\\Proj One") (by decide)).2.1 (lit "C:") 0x5C (lit "Proj One")
      (by decide) (by decide) (by decide) (by decide) (by decide)⟩

set_option maxRecDepth 100000 in
/-- C11 (the code departs from the claim): for the command line
`Foo.exe -batchmode -projectPath "C:\Proj One" -other` the flag is found in the lower-cased
copy, but the search for the lower-case spelling in the original text fails and
`ExtractProjectPath` returns the empty string instead of `C:\Proj One`; with the flag
spelled `-projectpath` the same command line yields `C:\Proj One`. -/
theorem C11_mixed_case_flag_gives_empty :
    ExtractProjectPath (lit "Foo.exe -batchmode -projectPath \"C:\\Proj One\" -other") = [] ∧
    find ((lit "Foo.exe -batchmode -projectPath \"C:\\Proj One\" -other").map tolower)
      (lit "-projectpath") 0 = 19 ∧
    find (lit "Foo.exe -batchmode -projectPath \"C:\\Proj One\" -other")
      (lit "-projectpath") 19 = npos ∧
    ExtractProjectPath (lit "Foo.exe -batchmode -projectpath \"C:\\Proj One\" -other")
      = lit "C:\\Proj One" := by
  decide

/-! ## The active-instance map -/

theorem mapFind_eq_none_iff (m : ActiveMap) (key : Nat) :
    mapFind m key = none ↔ key ∉ mapKeys m := by
  induction m with
  | nil => simp [mapFind, mapKeys]
  | cons e rest ih =>
    obtain ⟨k, v⟩ := e
    unfold mapKeys at ih ⊢
    rw [mapFind]
    by_cases hk : k = key
    · simp [hk]
    · rw [if_neg hk, ih]
      simp only [List.map_cons, List.mem_cons, not_or]
      exact ⟨fun h => ⟨fun hc => hk hc.symm, h⟩, fun h => h.2⟩

/-- Looking up a key after the assignment `m[key] = value`. -/
theorem mapFind_mapAssign (m : ActiveMap) (key : Nat) (value : UnityInstance) (key2 : Nat) :
    mapFind (mapAssign m key value) key2
      = if key = key2 then some value else mapFind m key2 := by
  induction m with
  | nil => simp [mapAssign, mapFind]
  | cons e rest ih =>
    obtain ⟨k, v⟩ := e
    rw [mapAssign]
    by_cases h1 : key < k
    · rw [if_pos h1, mapFind]
    · rw [if_neg h1]
      by_cases h2 : key = k
      · rw [if_pos h2, mapFind, mapFind]
        subst h2
        by_cases h3 : key = key2
        · simp [h3]
        · simp [h3]
      · rw [if_neg h2, mapFind, ih, mapFind]
        by_cases h3 : k = key2
        · have h4 : ¬ key = key2 := fun h => h2 (h.trans h3.symm)
          simp [h3, h4]
        · simp [h3]

theorem mem_mapKeys_mapAssign (m : ActiveMap) (key : Nat) (value : UnityInstance) (key2 : Nat) :
    key2 ∈ mapKeys (mapAssign m key value) ↔ key2 = key ∨ key2 ∈ mapKeys m := by
  have h1 := mapFind_eq_none_iff (mapAssign m key value) key2
  have h2 := mapFind_eq_none_iff m key2
  rw [mapFind_mapAssign] at h1
  by_cases hk : key = key2
  · rw [if_pos hk] at h1
    constructor
    · intro _; exact Or.inl hk.symm
    · intro _
      by_contra hc
      exact absurd (h1.2 hc) (by simp)
  · rw [if_neg hk] at h1
    constructor
    · intro h
      right
      by_contra hc
      exact (h1.1 (h2.2 hc)) h
    · rintro (h | h)
      · exact absurd h.symm hk
      · by_contra hc
        exact (h2.1 (h1.2 hc)) h

/-- Ascending keys stay ascending under the assignment. -/
theorem mapAssign_sorted (m : ActiveMap) (key : Nat) (value : UnityInstance)
    (h : (mapKeys m).Pairwise (· < ·)) : (mapKeys (mapAssign m key value)).Pairwise (· < ·) := by
  induction m with
  | nil => simp [mapAssign, mapKeys]
  | cons e rest ih =>
    obtain ⟨k, v⟩ := e
    have hrest : (mapKeys rest).Pairwise (· < ·) := (List.pairwise_cons.1 h).2
    have hk : ∀ x ∈ mapKeys rest, k < x := (List.pairwise_cons.1 h).1
    rw [mapAssign]
    by_cases h1 : key < k
    · rw [if_pos h1]
      refine List.pairwise_cons.2 ⟨?_, h⟩
      intro x hx
      rcases List.mem_cons.1 hx with hx | hx
      · rw [hx]; exact h1
      · exact Nat.lt_trans h1 (hk x hx)
    · rw [if_neg h1]
      by_cases h2 : key = k
      · rw [if_pos h2]
        subst h2
        exact h
      · rw [if_neg h2]
        refine List.pairwise_cons.2 ⟨?_, ih hrest⟩
        intro x hx
        show k < x
        rcases (mem_mapKeys_mapAssign rest key value x).1 hx with hx | hx
        · rw [hx]; omega
        · exact hk x hx

theorem firstOccurrences_congr (l : List UnityInstance) : ∀ (s1 s2 : List Nat),
    (∀ k, k ∈ s1 ↔ k ∈ s2) → firstOccurrences s1 l = firstOccurrences s2 l := by
  induction l with
  | nil => intro s1 s2 _; rfl
  | cons i rest ih =>
    intro s1 s2 h
    rw [firstOccurrences, firstOccurrences]
    by_cases hi : i.processId ∈ s1
    · rw [if_pos hi, if_pos ((h _).1 hi)]
      exact ih s1 s2 h
    · rw [if_neg hi, if_neg (fun hc => hi ((h _).2 hc))]
      congr 1
      apply ih
      intro k
      simp only [List.mem_cons]
      rw [h k]

/-- What `firstOccurrences` keeps: a sublist of the scan, with pairwise different process
ids, none of them seen before, and covering every unseen process id of the scan. -/
theorem firstOccurrences_spec (l : List UnityInstance) : ∀ (seen : List Nat),
    (firstOccurrences seen l).Sublist l ∧
    (∀ i ∈ firstOccurrences seen l, i.processId ∉ seen) ∧
    ((firstOccurrences seen l).map (fun i => i.processId)).Nodup ∧
    (∀ i ∈ l, i.processId ∉ seen →
      i.processId ∈ (firstOccurrences seen l).map (fun i => i.processId)) := by
  induction l with
  | nil =>
    intro seen
    simp [firstOccurrences]
  | cons a rest ih =>
    intro seen
    rw [firstOccurrences]
    by_cases ha : a.processId ∈ seen
    · rw [if_pos ha]
      obtain ⟨h1, h2, h3, h4⟩ := ih seen
      refine ⟨h1.cons a, h2, h3, ?_⟩
      intro i hi hn
      rcases List.mem_cons.1 hi with hi | hi
      · rw [hi] at hn
        exact absurd ha hn
      · exact h4 i hi hn
    · rw [if_neg ha]
      obtain ⟨h1, h2, h3, h4⟩ := ih (a.processId :: seen)
      refine ⟨h1.cons₂ a, ?_, ?_, ?_⟩
      · intro i hi
        rcases List.mem_cons.1 hi with hi | hi
        · rw [hi]; exact ha
        · exact fun hc => h2 i hi (List.mem_cons_of_mem _ hc)
      · rw [List.map_cons]
        refine List.nodup_cons.2 ⟨?_, h3⟩
        intro hc
        obtain ⟨i, hi, hik⟩ := List.mem_map.1 hc
        exact h2 i hi (by rw [hik]; exact List.mem_cons_self _ _)
      · intro i hi hn
        rw [List.map_cons]
        rcases List.mem_cons.1 hi with hi | hi
        · rw [hi]; exact List.mem_cons_self _ _
        · by_cases hia : i.processId = a.processId
          · rw [hia]; exact List.mem_cons_self _ _
          · refine List.mem_cons_of_mem _ (h4 i hi ?_)
            intro hc
            rcases List.mem_cons.1 hc with hc | hc
            · exact hia hc
            · exact hn hc

/-- The loop of `GetNewInstances`, started with `newInstances = acc` and the map `m`. -/
theorem GetNewInstances_loop (l : List UnityInstance) : ∀ (acc : List UnityInstance)
    (m : ActiveMap),
    (l.foldl
      (fun st inst =>
        if (mapFind st.2 inst.processId).isNone then
          (st.1 ++ [inst], mapAssign st.2 inst.processId inst)
        else st)
      (acc, m)).1 = acc ++ firstOccurrences (mapKeys m) l ∧
    (∀ key, mapFind (l.foldl
      (fun st inst =>
        if (mapFind st.2 inst.processId).isNone then
          (st.1 ++ [inst], mapAssign st.2 inst.processId inst)
        else st)
      (acc, m)).2 key
        = match mapFind m key with
          | some v => some v
          | none => (firstOccurrences (mapKeys m) l).find? (fun i => decide (i.processId = key))) ∧
    ((mapKeys m).Pairwise (· < ·) →
      (mapKeys (l.foldl
        (fun st inst =>
          if (mapFind st.2 inst.processId).isNone then
            (st.1 ++ [inst], mapAssign st.2 inst.processId inst)
          else st)
        (acc, m)).2).Pairwise (· < ·)) := by
  induction l with
  | nil =>
    intro acc m
    refine ⟨by simp [firstOccurrences], ?_, fun h => h⟩
    intro key
    simp only [List.foldl_nil, firstOccurrences, List.find?_nil]
    cases mapFind m key <;> rfl
  | cons i rest ih =>
    intro acc m
    rw [List.foldl_cons, firstOccurrences]
    by_cases hi : i.processId ∈ mapKeys m
    · have hsome : (mapFind m i.processId).isNone = false := by
        cases hf : mapFind m i.processId with
        | none => exact absurd hi ((mapFind_eq_none_iff m _).1 hf)
        | some v => rfl
      simp only [hsome, Bool.false_eq_true, if_false, if_pos hi]
      exact ih acc m
    · have hnone : mapFind m i.processId = none := (mapFind_eq_none_iff m _).2 hi
      simp only [hnone, Option.isNone_none, if_true, if_neg hi]
      obtain ⟨h1, h2, h3⟩ := ih (acc ++ [i]) (mapAssign m i.processId i)
      have hc : firstOccurrences (mapKeys (mapAssign m i.processId i)) rest
          = firstOccurrences (i.processId :: mapKeys m) rest := by
        apply firstOccurrences_congr
        intro k
        rw [mem_mapKeys_mapAssign, List.mem_cons]
      rw [hc] at h1 h2
      refine ⟨by rw [h1, List.append_assoc]; rfl, ?_, fun h => h3 (mapAssign_sorted m _ _ h)⟩
      intro key
      rw [h2 key, mapFind_mapAssign, List.find?_cons]
      by_cases hk : i.processId = key
      · rw [if_pos hk, ← hk, hnone]
        simp
      · rw [if_neg hk]
        cases mapFind m key with
        | some v => rfl
        | none => simp [hk]

/-- C21: `GetNewInstances` returns the instances of the scan whose process id is not a key
of the map, the first one for each process id and in scan order: the result is a sublist
of the scan, its process ids are pairwise different, none is a key of the map, and every
process id of the scan that is not a key of the map is among them.  Afterwards a key of
the old map still has its old instance, whatever the scan says about it, every other key
has the instance reported for it, and no other key is present; the keys stay in order. -/
theorem C21_new_instances (M : ActiveMap) (S : List UnityInstance) :
    (GetNewInstances M S).1 = firstOccurrences (mapKeys M) S ∧
    (GetNewInstances M S).1.Sublist S ∧
    (∀ i ∈ (GetNewInstances M S).1, i.processId ∉ mapKeys M) ∧
    ((GetNewInstances M S).1.map (fun i => i.processId)).Nodup ∧
    (∀ i ∈ S, i.processId ∉ mapKeys M →
      i.processId ∈ (GetNewInstances M S).1.map (fun i => i.processId)) ∧
    (∀ key v, mapFind M key = some v → mapFind (GetNewInstances M S).2 key = some v) ∧
    (∀ key, mapFind M key = none →
      mapFind (GetNewInstances M S).2 key
        = (GetNewInstances M S).1.find? (fun i => decide (i.processId = key))) ∧
    (∀ key, key ∈ mapKeys (GetNewInstances M S).2 ↔
      key ∈ mapKeys M ∨ key ∈ (GetNewInstances M S).1.map (fun i => i.processId)) ∧
    ((mapKeys M).Pairwise (· < ·) → (mapKeys (GetNewInstances M S).2).Pairwise (· < ·)) := by
  obtain ⟨h1, h2, h3⟩ := GetNewInstances_loop S [] M
  rw [List.nil_append] at h1
  have hA : ∀ key v, mapFind M key = some v → mapFind (GetNewInstances M S).2 key = some v := by
    intro key v hv
    unfold GetNewInstances
    rw [h2 key, hv]
  have hB : ∀ key, mapFind M key = none →
      mapFind (GetNewInstances M S).2 key
        = (GetNewInstances M S).1.find? (fun i => decide (i.processId = key)) := by
    intro key hv
    unfold GetNewInstances
    rw [h2 key, hv, h1]
  obtain ⟨hs1, hs2, hs3, hs4⟩ := firstOccurrences_spec S (mapKeys M)
  have h1b : (GetNewInstances M S).1 = firstOccurrences (mapKeys M) S := h1
  refine ⟨h1, by rw [h1b]; exact hs1, by rw [h1b]; exact hs2, by rw [h1b]; exact hs3,
    by rw [h1b]; exact hs4, hA, hB, ?_, h3⟩
  intro key
  cases hv : mapFind M key with
  | some v =>
    have hin : key ∈ mapKeys M := by
      by_contra hc
      rw [(mapFind_eq_none_iff M key).2 hc] at hv
      cases hv
    have hin2 : key ∈ mapKeys (GetNewInstances M S).2 := by
      by_contra hc
      have hA2 := hA key v hv
      rw [(mapFind_eq_none_iff _ key).2 hc] at hA2
      exact absurd hA2 (by simp)
    exact ⟨fun _ => Or.inl hin, fun _ => hin2⟩
  | none =>
    have hnot : key ∉ mapKeys M := (mapFind_eq_none_iff M key).1 hv
    have hB' := hB key hv
    constructor
    · intro hin
      right
      cases hf : (GetNewInstances M S).1.find? (fun i => decide (i.processId = key)) with
      | none =>
        rw [hf] at hB'
        exact absurd hin ((mapFind_eq_none_iff _ key).1 hB')
      | some i =>
        have hmem := List.mem_of_find?_eq_some hf
        have hp := List.find?_some hf
        exact List.mem_map.2 ⟨i, hmem, of_decide_eq_true hp⟩
    · rintro (hin | hin)
      · exact absurd hin hnot
      · obtain ⟨i, hi, hik⟩ := List.mem_map.1 hin
        by_contra hc
        rw [(mapFind_eq_none_iff _ key).2 hc] at hB'
        have := List.find?_eq_none.1 hB'.symm i hi
        simp [hik] at this

/-- The result of `GetClosedInstances` as two filters of the map. -/
theorem GetClosedInstances_eq (M : ActiveMap) (alive : Nat → Bool) :
    (GetClosedInstances M alive).1 = (M.filter (fun e => !alive e.1)).map (fun e => e.2) ∧
    (GetClosedInstances M alive).2 = M.filter (fun e => alive e.1) := by
  induction M with
  | nil => exact ⟨rfl, rfl⟩
  | cons e rest ih =>
    obtain ⟨pid, inst⟩ := e
    rw [GetClosedInstances]
    cases h : alive pid <;> simp [h, ih.1, ih.2]

/-- C22: `GetClosedInstances` returns the instances of the entries whose process is not
running and leaves in the map exactly the entries whose process is running; the two
parts make up the old map, every entry falling on exactly one side, and the keys stay
in order.  The scan does not enter the computation. -/
theorem C22_closed_instances (M : ActiveMap) (alive : Nat → Bool) :
    (GetClosedInstances M alive).1 = (M.filter (fun e => !alive e.1)).map (fun e => e.2) ∧
    (GetClosedInstances M alive).2 = M.filter (fun e => alive e.1) ∧
    (∀ e, e ∈ M ↔ ((e ∈ M.filter (fun e => !alive e.1) ∧ alive e.1 = false) ∨
      (e ∈ (GetClosedInstances M alive).2 ∧ alive e.1 = true))) ∧
    (M.filter (fun e => !alive e.1) ++ (GetClosedInstances M alive).2).Perm M ∧
    ((mapKeys M).Pairwise (· < ·) →
      (mapKeys (GetClosedInstances M alive).2).Pairwise (· < ·)) := by
  obtain ⟨h1, h2⟩ := GetClosedInstances_eq M alive
  rw [h2]
  refine ⟨h1, rfl, ?_, ?_, ?_⟩
  · intro e
    simp only [List.mem_filter, Bool.not_eq_true']
    cases h : alive e.1 <;> simp
  · have := List.filter_append_perm (fun e : Nat × UnityInstance => alive e.1) M
    refine (List.perm_append_comm).trans ?_
    simpa using this
  · intro h
    unfold mapKeys at h ⊢
    exact (h.sublist ((List.filter_sublist M).map _))

/-! ## Scanning the process list -/

theorem getlineAux_head (d : Byte) (s : Str) : ∀ cur : Str,
    (getlineAux d s cur).headD [] = cur ++ s.takeWhile (fun c => !decide (c = d)) := by
  induction s with
  | nil =>
    intro cur
    rw [getlineAux]
    by_cases h : cur = []
    · simp [h]
    · simp [h]
  | cons c rest ih =>
    intro cur
    rw [getlineAux]
    by_cases h : c = d
    · simp [h]
    · rw [if_neg h, ih, List.takeWhile_cons_of_pos (by simp [h])]
      simp

/-- The first call of `std::getline` delivers the text before the first line feed. -/
theorem getlineAll_head (s : Str) :
    (getlineAll 0x0A s).headD [] = s.takeWhile (fun c => !decide (c = (0x0A : Byte))) := by
  unfold getlineAll
  rw [getlineAux_head]
  rfl

theorem sizeSub_of_le (a b : Nat) (hb : b ≤ a) (ha : a < 2 ^ 64) : sizeSub a b = a - b := by
  unfold sizeSub
  have h1 : b % 2 ^ 64 = b := Nat.mod_eq_of_lt (by omega)
  rw [h1]
  have h2 : a + 2 ^ 64 - b = (a - b) + 2 ^ 64 := by omega
  rw [h2, Nat.add_mod_right]
  exact Nat.mod_eq_of_lt (by omega)

theorem sizeSub_of_lt (a b : Nat) (hab : a < b) (hb : b < 2 ^ 64) :
    sizeSub a b = a + 2 ^ 64 - b := by
  unfold sizeSub
  have h1 : b % 2 ^ 64 = b := Nat.mod_eq_of_lt hb
  rw [h1]
  exact Nat.mod_eq_of_lt (by omega)

theorem substrChecked_of_le (s : Str) (pos n : Nat) (h : pos ≤ s.length) :
    substrChecked s pos n = Outcome.returned ((s.drop pos).take n) := by
  unfold substrChecked
  rw [if_neg (by omega)]

theorem substrChecked_of_gt (s : Str) (pos n : Nat) (h : s.length < pos) :
    substrChecked s pos n = Outcome.out_of_range := by
  unfold substrChecked
  rw [if_pos h]

theorem bind_of_returned {α β : Type} (o : Outcome α) (value : α) (rest : α → Outcome β)
    (h : o = Outcome.returned value) : Outcome.bind o rest = rest value := by
  rw [h]
  rfl

theorem bind_of_thrown {α β : Type} (o : Outcome α) (rest : α → Outcome β)
    (h : o = Outcome.out_of_range) : Outcome.bind o rest = Outcome.out_of_range := by
  rw [h]
  rfl

/-- A call that ends after the first part never returns `false` when the rest returns
`true`. -/
theorem bind_true_ne_false (o : Outcome Str) :
    Outcome.bind o (fun _ => Outcome.returned true) ≠ Outcome.returned false := by
  cases o with
  | returned value => intro h; cases h
  | out_of_range => intro h; cases h

/-- For a key of at least four characters `GetMaskedApiKey` returns. -/
theorem GetMaskedApiKey_long (c : WakaTimeClient) (h4 : 4 ≤ c.apiKey.length)
    (hlen : c.apiKey.length < 2 ^ 64) :
    GetMaskedApiKey c
      = Outcome.returned (c.apiKey.take 8 ++ lit "****" ++ c.apiKey.drop (c.apiKey.length - 4)) := by
  have hle : ((c.apiKey.drop (c.apiKey.length - 4)).length ≤ npos) := by
    rw [List.length_drop]
    unfold npos
    omega
  have h1 : substrChecked c.apiKey 0 8 = Outcome.returned (c.apiKey.take 8) :=
    substrChecked_of_le _ 0 8 (Nat.zero_le _)
  have h2 : substrChecked c.apiKey (sizeSub c.apiKey.length 4) npos
      = Outcome.returned (c.apiKey.drop (c.apiKey.length - 4)) := by
    have hk : sizeSub c.apiKey.length 4 = c.apiKey.length - 4 := sizeSub_of_le _ _ h4 hlen
    have hs := substrChecked_of_le c.apiKey (c.apiKey.length - 4) npos (by omega)
    exact (congrArg (fun k => substrChecked c.apiKey k npos) hk).trans
      (hs.trans (congrArg Outcome.returned (List.take_of_length_le hle)))
  exact (bind_of_returned _ _ _ h1).trans (bind_of_returned _ _ _ h2)

/-- For a key of fewer than four characters the second `substr` raises
`std::out_of_range`. -/
theorem GetMaskedApiKey_short (c : WakaTimeClient) (h4 : c.apiKey.length < 4) :
    GetMaskedApiKey c = Outcome.out_of_range := by
  have h64 : (4 : Nat) < 2 ^ 64 := by norm_num
  have h1 : substrChecked c.apiKey 0 8 = Outcome.returned (c.apiKey.take 8) :=
    substrChecked_of_le _ 0 8 (Nat.zero_le _)
  have h2 : substrChecked c.apiKey (sizeSub c.apiKey.length 4) npos = Outcome.out_of_range := by
    have hk : sizeSub c.apiKey.length 4 = c.apiKey.length + 2 ^ 64 - 4 :=
      sizeSub_of_lt _ _ h4 h64
    have hs := substrChecked_of_gt c.apiKey (c.apiKey.length + 2 ^ 64 - 4) npos (by omega)
    exact (congrArg (fun k => substrChecked c.apiKey k npos) hk).trans hs
  exact (bind_of_returned _ _ _ h1).trans (bind_of_thrown _ _ h2)

/-- `LoadApiKeyFromFile` on a file that could be opened, in terms of the key it stores. -/
theorem LoadApiKeyFromFile_some (c : WakaTimeClient) (content key : Str)
    (hkey : key = (content.takeWhile (fun ch => !decide (ch = (0x0A : Byte)))).filter
      (fun ch => !isspace ch)) :
    LoadApiKeyFromFile c (some content)
      = if key = [] then (Outcome.returned false, { c with apiKey := key })
        else (Outcome.bind (GetMaskedApiKey { c with apiKey := key })
          (fun _ => Outcome.returned true), { c with apiKey := key }) := by
  rw [hkey, ← getlineAll_head]
  rfl

set_option maxRecDepth 100000 in
/-- C24 (the claim as written fails): for the file text `ab cd` followed by a line feed the
loaded key is `abcd`, while the first line trimmed of leading and trailing white space is
`ab cd`. -/
theorem C24_inner_space_removed :
    (LoadApiKeyFromFile (WakaTimeClient.create []) (some (lit "ab cd\n"))).2.apiKey = lit "abcd" ∧
    trimSpaces ((lit "ab cd\n").takeWhile (fun c => !decide (c = (0x0A : Byte)))) = lit "ab cd" ∧
    (LoadApiKeyFromFile (WakaTimeClient.create []) (some (lit "ab cd\n"))).2.apiKey
      ≠ trimSpaces ((lit "ab cd\n").takeWhile (fun c => !decide (c = (0x0A : Byte)))) := by
  decide!

/-- C24 (amended): for every file text the key loaded by `LoadApiKeyFromFile` is the first
line, the text before the first line feed, with every white-space character removed;
the call returns `false` exactly when the file is absent or that key is empty, which is
when the first line holds white space only; an absent file leaves the key as it was. -/
theorem C24_key_is_first_line_without_spaces (c : WakaTimeClient) (file : Option Str) :
    (∀ content, file = some content →
      (LoadApiKeyFromFile c file).2.apiKey
        = (content.takeWhile (fun ch => !decide (ch = (0x0A : Byte)))).filter
            (fun ch => !isspace ch)) ∧
    (file = none → (LoadApiKeyFromFile c file).2 = c) ∧
    ((LoadApiKeyFromFile c file).1 = Outcome.returned false ↔
      (file = none ∨ ∃ content, file = some content ∧
        (content.takeWhile (fun ch => !decide (ch = (0x0A : Byte)))).filter
          (fun ch => !isspace ch) = [])) ∧
    ((LoadApiKeyFromFile c file).1 = Outcome.returned false ↔
      (file = none ∨ ∃ content, file = some content ∧
        ∀ ch ∈ content.takeWhile (fun ch => !decide (ch = (0x0A : Byte))), isspace ch = true)) := by
  cases file with
  | none =>
    refine ⟨fun content h => (by cases h), fun _ => rfl, ?_, ?_⟩
    · exact ⟨fun _ => Or.inl rfl, fun _ => rfl⟩
    · exact ⟨fun _ => Or.inl rfl, fun _ => rfl⟩
  | some content =>
    have hL := LoadApiKeyFromFile_some c content _ rfl
    generalize hk : (content.takeWhile (fun ch => !decide (ch = (0x0A : Byte)))).filter
      (fun ch => !isspace ch) = key at hL
    generalize GetMaskedApiKey { c with apiKey := key } = o at hL
    have hkey : (LoadApiKeyFromFile c (some content)).2.apiKey = key := by
      rw [hL]
      by_cases h : key = []
      · rw [if_pos h]
      · rw [if_neg h]
    have hret : (LoadApiKeyFromFile c (some content)).1 = Outcome.returned false ↔ key = [] := by
      rw [hL]
      by_cases h : key = []
      · rw [if_pos h]
        exact ⟨fun _ => h, fun _ => rfl⟩
      · rw [if_neg h]
        exact ⟨fun hc => absurd hc (bind_true_ne_false o), fun hc => absurd hc h⟩
    have hblank : key = [] ↔
        ∀ ch ∈ content.takeWhile (fun ch => !decide (ch = (0x0A : Byte))), isspace ch = true := by
      rw [← hk, List.filter_eq_nil_iff]
      constructor
      · intro h ch hch
        have := h ch hch
        simpa using this
      · intro h ch hch
        simp [h ch hch]
    refine ⟨?_, fun h => (by cases h), ?_, ?_⟩
    · intro content2 h
      cases h
      rw [hkey, hk]
    · rw [hret]
      constructor
      · intro h
        exact Or.inr ⟨content, rfl, hk.trans h⟩
      · rintro (h | ⟨content2, h, h2⟩)
        · cases h
        · cases h
          exact hk.symm.trans h2
    · rw [hret, hblank]
      constructor
      · intro h
        exact Or.inr ⟨content, rfl, h⟩
      · rintro (h | ⟨content2, h, h2⟩)
        · cases h
        · cases h
          exact h2

set_option maxRecDepth 100000 in
/-- C30 (the code departs from the claim): for the three-character key `abc`
`GetMaskedApiKey` ends in `std::out_of_range`, and so does `LoadApiKeyFromFile` on a file
whose first line is `abc`; every key of fewer than four characters behaves so, and every
key of at least four characters yields its first eight characters at most, the four
stars and its last four characters. -/
theorem C30_short_key_raises :
    GetMaskedApiKey { WakaTimeClient.create [] with apiKey := lit "abc" } = Outcome.out_of_range ∧
    (LoadApiKeyFromFile (WakaTimeClient.create []) (some (lit "abc\n"))).1
      = Outcome.out_of_range ∧
    (∀ c : WakaTimeClient, c.apiKey.length < 4 → GetMaskedApiKey c = Outcome.out_of_range) ∧
    (∀ c : WakaTimeClient, 4 ≤ c.apiKey.length → c.apiKey.length < 2 ^ 64 →
      GetMaskedApiKey c = Outcome.returned
        (c.apiKey.take 8 ++ lit "****" ++ c.apiKey.drop (c.apiKey.length - 4))) :=
  ⟨by decide!, by decide!, GetMaskedApiKey_short, GetMaskedApiKey_long⟩

/-! ## The queue lock -/

theorem lockInvariant_init (c : WakaTimeClient) : lockInvariant (initSys c) := by
  constructor
  · simp [initSys, senderHolds]
  · intro t
    simp [initSys, callerHolds]

theorem lockInvariant_stepSender (s : SysState) (env : HttpEnv) (h : lockInvariant s) :
    lockInvariant (stepSender s env).1 := by
  obtain ⟨h1, h2⟩ := h
  unfold stepSender
  cases hpc : s.sender with
  | loopTest =>
    rw [hpc] at h1
    simp only
    split <;> exact ⟨by simpa [senderHolds] using h1, h2⟩
  | lockQueue =>
    rw [hpc] at h1
    simp only
    cases ho : s.owner with
    | none =>
      rw [ho] at h2
      refine ⟨by simp [senderHolds], fun t => ?_⟩
      have := h2 t
      simp only [reduceCtorEq, false_iff] at this
      simp [this]
    | some x =>
      simp only
      exact ⟨by rw [hpc]; exact h1, h2⟩
  | takeFront =>
    rw [hpc] at h1
    simp only
    split <;> exact ⟨by simpa [senderHolds] using h1, h2⟩
  | unlockQueue taken =>
    rw [hpc] at h1
    have ho : s.owner = some ThreadId.sender := h1.2 rfl
    rw [ho] at h2
    simp only
    refine ⟨?_, fun t => ?_⟩
    · cases taken <;> simp [senderHolds]
    · have := h2 t
      simp only [Option.some.injEq, reduceCtorEq, false_iff] at this
      simp [this]
  | serialize heartbeat =>
    rw [hpc] at h1
    exact ⟨by simpa [senderHolds] using h1, h2⟩
  | send jsonData =>
    rw [hpc] at h1
    exact ⟨by simpa [senderHolds] using h1, h2⟩
  | sleepAfterSend =>
    rw [hpc] at h1
    exact ⟨by simpa [senderHolds] using h1, h2⟩
  | sleepIdle =>
    rw [hpc] at h1
    exact ⟨by simpa [senderHolds] using h1, h2⟩
  | stopped =>
    simp only
    exact ⟨by rw [hpc]; rw [hpc] at h1; exact h1, h2⟩

/-- Moving a thread between two points on the same side of its guard keeps the lock
invariant. -/
theorem lockInvariant_setCaller (s : SysState) (t : Nat) (pc : CallerPc)
    (h : lockInvariant s) (hpc : callerHolds pc = callerHolds (s.callers t)) :
    lockInvariant (setCaller s t pc) := by
  obtain ⟨h1, h2⟩ := h
  refine ⟨h1, fun u => ?_⟩
  show s.owner = some (ThreadId.caller u) ↔ callerHolds (if u = t then pc else s.callers u) = true
  by_cases hu : u = t
  · rw [if_pos hu, hpc, hu]
    exact h2 t
  · rw [if_neg hu]
    exact h2 u

/-- Taking the free lock keeps the lock invariant. -/
theorem lockInvariant_acquire (s : SysState) (t : Nat) (pc : CallerPc)
    (h : lockInvariant s) (ho : s.owner = none) (hpc : callerHolds pc = true) :
    lockInvariant (setCaller { s with owner := some (ThreadId.caller t) } t pc) := by
  obtain ⟨h1, h2⟩ := h
  rw [ho] at h1 h2
  refine ⟨?_, fun u => ?_⟩
  · show some (ThreadId.caller t) = some ThreadId.sender ↔ senderHolds s.sender = true
    simp only [reduceCtorEq, false_iff] at h1
    simp [h1]
  · show some (ThreadId.caller t) = some (ThreadId.caller u)
      ↔ callerHolds (if u = t then pc else s.callers u) = true
    by_cases hu : u = t
    · rw [if_pos hu, hpc, hu]
      simp
    · rw [if_neg hu]
      have := h2 u
      simp only [reduceCtorEq, false_iff] at this
      have hne : ¬ t = u := fun hc => hu hc.symm
      simp [this, hne]

/-- Giving the lock back keeps the lock invariant. -/
theorem lockInvariant_release (s : SysState) (t : Nat) (pc : CallerPc)
    (h : lockInvariant s) (hold : callerHolds (s.callers t) = true)
    (hpc : callerHolds pc = false) :
    lockInvariant (setCaller { s with owner := none } t pc) := by
  obtain ⟨h1, h2⟩ := h
  have ho : s.owner = some (ThreadId.caller t) := (h2 t).2 hold
  rw [ho] at h1 h2
  refine ⟨?_, fun u => ?_⟩
  · show none = some ThreadId.sender ↔ senderHolds s.sender = true
    simp only [Option.some.injEq, reduceCtorEq, false_iff] at h1
    simp [h1]
  · show none = some (ThreadId.caller u)
      ↔ callerHolds (if u = t then pc else s.callers u) = true
    by_cases hu : u = t
    · rw [if_pos hu, hpc]
      simp
    · rw [if_neg hu]
      have := h2 u
      have hne : ¬ t = u := fun hc => hu hc.symm
      simp only [Option.some.injEq, ThreadId.caller.injEq, hne, false_iff] at this
      simp [this]

theorem lockInvariant_stepCaller (s : SysState) (t : Nat) (now : Int) (h : lockInvariant s) :
    lockInvariant (stepCaller s t now).1 := by
  unfold stepCaller
  cases hpc : s.callers t with
  | entry filePath projectName unityVersion isWrite =>
    simp only
    split
    · exact lockInvariant_setCaller s t _ h (by rw [hpc]; rfl)
    · exact lockInvariant_setCaller s t _ h (by rw [hpc]; rfl)
  | lockQueue heartbeat =>
    simp only
    cases ho : s.owner with
    | none => exact lockInvariant_acquire s t _ h ho rfl
    | some x => exact h
  | push heartbeat =>
    exact lockInvariant_setCaller
      { s with client :=
          { s.client with heartbeatQueue := s.client.heartbeatQueue ++ [heartbeat] } }
      t _ h (by show _ = callerHolds (s.callers t); rw [hpc]; rfl)
  | unlockQueue => exact lockInvariant_release s t _ h (by rw [hpc]; rfl) rfl
  | sizeLock =>
    simp only
    cases ho : s.owner with
    | none => exact lockInvariant_acquire s t _ h ho rfl
    | some x => exact h
  | sizeRead => exact lockInvariant_setCaller s t _ h (by rw [hpc]; rfl)
  | sizeUnlock size => exact lockInvariant_release s t _ h (by rw [hpc]; rfl) rfl
  | returned => exact h

theorem lockInvariant_stepSys (s : SysState) (ev : Sched) (h : lockInvariant s) :
    lockInvariant (stepSys s ev).1 := by
  cases ev with
  | sender env => exact lockInvariant_stepSender s env h
  | caller t now => exact lockInvariant_stepCaller s t now h
  | callSendHeartbeat t filePath projectName unityVersion isWrite =>
    by_cases hr : s.callers t = CallerPc.returned
    · simp only [stepSys, hr, if_true]
      exact lockInvariant_setCaller s t _ h (by rw [hr]; rfl)
    · simp only [stepSys, hr, if_false]
      exact h
  | callGetQueueSize t =>
    by_cases hr : s.callers t = CallerPc.returned
    · simp only [stepSys, hr, if_true]
      exact lockInvariant_setCaller s t _ h (by rw [hr]; rfl)
    · simp only [stepSys, hr, if_false]
      exact h
  | requestStop => exact h

/-- Every state a schedule leads to satisfies the lock invariant. -/
theorem lockInvariant_runSys (schedule : List Sched) : ∀ s : SysState,
    lockInvariant s → lockInvariant (runSys s schedule) := by
  induction schedule with
  | nil => intro s h; exact h
  | cons ev rest ih =>
    intro s h
    exact ih _ (lockInvariant_stepSys s ev h)

/-- In a state that satisfies the lock invariant: the sender thread does not own the lock
at its serializing, sending and sleeping points, the owner of the lock only computes,
a calling thread never does network input or output and never sleeps, and a calling thread
that waits for the lock while the sender thread is sending waits for another calling
thread. -/
theorem lock_scope_of_invariant (s : SysState) (h : lockInvariant s) :
    (∀ heartbeat, s.sender = SenderPc.serialize heartbeat → s.owner ≠ some ThreadId.sender) ∧
    (∀ jsonData, s.sender = SenderPc.send jsonData → s.owner ≠ some ThreadId.sender) ∧
    (∀ env, (stepSender s env).2 = StepKind.network ∨ (stepSender s env).2 = StepKind.sleeps →
      s.owner ≠ some ThreadId.sender) ∧
    (∀ env, s.owner = some ThreadId.sender → (stepSender s env).2 = StepKind.compute) ∧
    (∀ t now, (stepCaller s t now).2 ≠ StepKind.network ∧
      (stepCaller s t now).2 ≠ StepKind.sleeps) ∧
    (∀ t now, s.owner = some (ThreadId.caller t) → (stepCaller s t now).2 = StepKind.compute) ∧
    (∀ t now, s.owner = none → (stepCaller s t now).2 ≠ StepKind.blocked) ∧
    (∀ t now jsonData, s.sender = SenderPc.send jsonData →
      (stepCaller s t now).2 = StepKind.blocked →
      ∃ u, u ≠ t ∧ s.owner = some (ThreadId.caller u)) := by
  obtain ⟨h1, h2⟩ := h
  have hsender : ∀ env, s.owner = some ThreadId.sender →
      (stepSender s env).2 = StepKind.compute := by
    intro env ho
    have hh := h1.1 ho
    unfold stepSender
    cases hpc : s.sender with
    | takeFront =>
      simp only
      split <;> rfl
    | unlockQueue taken => rfl
    | loopTest => simp [hpc, senderHolds] at hh
    | lockQueue => simp [hpc, senderHolds] at hh
    | serialize heartbeat => simp [hpc, senderHolds] at hh
    | send jsonData => simp [hpc, senderHolds] at hh
    | sleepAfterSend => simp [hpc, senderHolds] at hh
    | sleepIdle => simp [hpc, senderHolds] at hh
    | stopped => simp [hpc, senderHolds] at hh
  have hkind : ∀ t now, (stepCaller s t now).2 ≠ StepKind.network ∧
      (stepCaller s t now).2 ≠ StepKind.sleeps := by
    intro t now
    unfold stepCaller
    cases s.callers t with
    | entry filePath projectName unityVersion isWrite =>
      simp only
      split <;> exact ⟨by simp, by simp⟩
    | lockQueue heartbeat =>
      simp only
      cases s.owner <;> exact ⟨by simp, by simp⟩
    | sizeLock =>
      simp only
      cases s.owner <;> exact ⟨by simp, by simp⟩
    | push heartbeat => exact ⟨by simp, by simp⟩
    | unlockQueue => exact ⟨by simp, by simp⟩
    | sizeRead => exact ⟨by simp, by simp⟩
    | sizeUnlock size => exact ⟨by simp, by simp⟩
    | returned => exact ⟨by simp, by simp⟩
  have hblocked : ∀ t now, (stepCaller s t now).2 = StepKind.blocked →
      s.owner ≠ none ∧ callerHolds (s.callers t) = false := by
    intro t now
    unfold stepCaller
    cases s.callers t with
    | entry filePath projectName unityVersion isWrite =>
      simp only
      split <;> simp
    | lockQueue heartbeat =>
      simp only
      cases s.owner <;> simp [callerHolds]
    | sizeLock =>
      simp only
      cases s.owner <;> simp [callerHolds]
    | push heartbeat => simp
    | unlockQueue => simp
    | sizeRead => simp
    | sizeUnlock size => simp
    | returned => simp
  refine ⟨?_, ?_, ?_, hsender, hkind, ?_, ?_, ?_⟩
  · intro heartbeat hpc ho
    have := h1.1 ho
    rw [hpc] at this
    cases this
  · intro jsonData hpc ho
    have := h1.1 ho
    rw [hpc] at this
    cases this
  · intro env hk ho
    rw [hsender env ho] at hk
    rcases hk with hk | hk <;> cases hk
  · intro t now ho
    have hh := (h2 t).1 ho
    unfold stepCaller
    cases hpc : s.callers t with
    | push heartbeat => rfl
    | unlockQueue => rfl
    | sizeRead => rfl
    | sizeUnlock size => rfl
    | entry filePath projectName unityVersion isWrite => simp [hpc, callerHolds] at hh
    | lockQueue heartbeat => simp [hpc, callerHolds] at hh
    | sizeLock => simp [hpc, callerHolds] at hh
    | returned => simp [hpc, callerHolds] at hh
  · intro t now ho hb
    exact (hblocked t now hb).1 ho
  · intro t now jsonData hpc hb
    obtain ⟨hne, hnh⟩ := hblocked t now hb
    cases ho : s.owner with
    | none => exact absurd ho hne
    | some x =>
      cases x with
      | sender =>
        have := h1.1 ho
        rw [hpc] at this
        cases this
      | caller u =>
        refine ⟨u, ?_, rfl⟩
        intro hu
        rw [hu] at ho
        have := (h2 t).1 ho
        rw [hnh] at this
        cases this

/-- C25: in every state that a schedule of steps of the sender thread and of the calling
threads leads to from the start, the sender thread does not own `queueMutex` when it
stands before `HeartbeatToJson` or before `SendHttpRequest`, nor at any step that does
network input or output or sleeps; while it owns the lock its steps only compute; no
step of a calling thread, in `SendHeartbeat` or `GetQueueSize`, does network input or
output or sleeps; a calling thread that owns the lock only computes; a calling thread is
not kept waiting when the lock is free, and one that waits while the sender thread is
at `SendHttpRequest` waits for another calling thread, never for the sender. -/
theorem C25_lock_released_before_sending (c : WakaTimeClient) (schedule : List Sched) :
    (∀ heartbeat, (runSys (initSys c) schedule).sender = SenderPc.serialize heartbeat →
      (runSys (initSys c) schedule).owner ≠ some ThreadId.sender) ∧
    (∀ jsonData, (runSys (initSys c) schedule).sender = SenderPc.send jsonData →
      (runSys (initSys c) schedule).owner ≠ some ThreadId.sender) ∧
    (∀ env, (stepSender (runSys (initSys c) schedule) env).2 = StepKind.network ∨
        (stepSender (runSys (initSys c) schedule) env).2 = StepKind.sleeps →
      (runSys (initSys c) schedule).owner ≠ some ThreadId.sender) ∧
    (∀ env, (runSys (initSys c) schedule).owner = some ThreadId.sender →
      (stepSender (runSys (initSys c) schedule) env).2 = StepKind.compute) ∧
    (∀ t now, (stepCaller (runSys (initSys c) schedule) t now).2 ≠ StepKind.network ∧
      (stepCaller (runSys (initSys c) schedule) t now).2 ≠ StepKind.sleeps) ∧
    (∀ t now, (runSys (initSys c) schedule).owner = some (ThreadId.caller t) →
      (stepCaller (runSys (initSys c) schedule) t now).2 = StepKind.compute) ∧
    (∀ t now, (runSys (initSys c) schedule).owner = none →
      (stepCaller (runSys (initSys c) schedule) t now).2 ≠ StepKind.blocked) ∧
    (∀ t now jsonData, (runSys (initSys c) schedule).sender = SenderPc.send jsonData →
      (stepCaller (runSys (initSys c) schedule) t now).2 = StepKind.blocked →
      ∃ u, u ≠ t ∧ (runSys (initSys c) schedule).owner = some (ThreadId.caller u)) :=
  lock_scope_of_invariant _ (lockInvariant_runSys schedule _ (lockInvariant_init c))

/-- A calling thread alone runs `SendHeartbeat` in four steps; the client afterwards is
the one the function `SendHeartbeat` gives, and the lock is free again. -/
theorem caller_steps_give_SendHeartbeat (s : SysState) (t : Nat) (now : Int)
    (filePath projectName unityVersion : Str) (isWrite : Bool)
    (hpc : s.callers t = CallerPc.entry filePath projectName unityVersion isWrite)
    (ho : s.owner = none) :
    (runSys s (List.replicate 4 (Sched.caller t now))).client
      = SendHeartbeat s.client filePath projectName unityVersion isWrite now ∧
    (runSys s (List.replicate 4 (Sched.caller t now))).owner = none ∧
    (runSys s (List.replicate 4 (Sched.caller t now))).callers t = CallerPc.returned := by
  cases hinit : s.client.initialized with
  | false =>
    simp [runSys, List.replicate, stepSys, stepCaller, setCaller, hpc, hinit, ho, SendHeartbeat]
  | true =>
    simp [runSys, List.replicate, stepSys, stepCaller, setCaller, hpc, hinit, ho, SendHeartbeat]

/-- The sender thread alone runs one pass of its loop over a non-empty queue in seven
steps; the client afterwards is the one `senderIteration` gives, and the lock is free. -/
theorem sender_steps_give_senderIteration (s : SysState) (env : HttpEnv)
    (hpc : s.sender = SenderPc.loopTest) (ho : s.owner = none)
    (hstop : s.client.shouldStop = false) (hq : s.client.heartbeatQueue ≠ []) :
    (runSys s (List.replicate 7 (Sched.sender env))).client
      = (senderIteration s.client env).client ∧
    (runSys s (List.replicate 7 (Sched.sender env))).owner = none ∧
    (runSys s (List.replicate 7 (Sched.sender env))).sender = SenderPc.loopTest := by
  cases hqq : s.client.heartbeatQueue with
  | nil => exact absurd hqq hq
  | cons heartbeat rest =>
    simp [runSys, List.replicate, stepSys, stepSender, hpc, ho, hstop, hqq, senderIteration]

set_option maxRecDepth 100000 in
/-- A run in which a call of `SendHeartbeat` passes through its guarded block while the
sender thread stands before `SendHttpRequest`: the record is in the queue, the lock is
free, and the sender thread has not moved. -/
theorem enqueue_completes_during_send :
    (runSys (initSys (queuedClient [sampleHeartbeat 1]))
      (List.replicate 5 (Sched.sender ⟨some 1, some 1, true, true, some 200⟩))).sender
      = SenderPc.send (HeartbeatToJson (sampleHeartbeat 1)) ∧
    (runSys (initSys (queuedClient [sampleHeartbeat 1]))
      (List.replicate 5 (Sched.sender ⟨some 1, some 1, true, true, some 200⟩)
        ++ Sched.callSendHeartbeat 0 (lit "a.unity") (lit "P") [] true
        :: List.replicate 4 (Sched.caller 0 2))).sender
      = SenderPc.send (HeartbeatToJson (sampleHeartbeat 1)) ∧
    (runSys (initSys (queuedClient [sampleHeartbeat 1]))
      (List.replicate 5 (Sched.sender ⟨some 1, some 1, true, true, some 200⟩)
        ++ Sched.callSendHeartbeat 0 (lit "a.unity") (lit "P") [] true
        :: List.replicate 4 (Sched.caller 0 2))).client.heartbeatQueue.map (fun h => h.entity)
      = [lit "a.unity"] ∧
    (runSys (initSys (queuedClient [sampleHeartbeat 1]))
      (List.replicate 5 (Sched.sender ⟨some 1, some 1, true, true, some 200⟩)
        ++ Sched.callSendHeartbeat 0 (lit "a.unity") (lit "P") [] true
        :: List.replicate 4 (Sched.caller 0 2))).owner = none ∧
    (runSys (initSys (queuedClient [sampleHeartbeat 1]))
      (List.replicate 5 (Sched.sender ⟨some 1, some 1, true, true, some 200⟩)
        ++ Sched.callSendHeartbeat 0 (lit "a.unity") (lit "P") [] true
        :: List.replicate 4 (Sched.caller 0 2))).callers 0 = CallerPc.returned :=
  ⟨rfl, rfl, rfl, rfl, rfl⟩

/-! ## The project path against its reference -/

theorem firstIdxAux_eq (p q : Byte → Bool) (hq : ∀ c, q c = !p c) (t : Str) : ∀ i,
    firstIdxAux p t i = if t.dropWhile q = [] then npos else i + (t.takeWhile q).length := by
  induction t with
  | nil => intro i; rfl
  | cons c rest ih =>
    intro i
    rw [firstIdxAux]
    cases hp : p c with
    | true =>
      have hqc : q c = false := by rw [hq, hp]; rfl
      rw [if_pos rfl, List.dropWhile_cons_of_neg (by simp [hqc]),
        List.takeWhile_cons_of_neg (by simp [hqc]), if_neg (by simp)]
      rfl
    | false =>
      have hqc : q c = true := by rw [hq, hp]; rfl
      rw [if_neg (by simp), ih, List.dropWhile_cons_of_pos hqc, List.takeWhile_cons_of_pos hqc]
      split
      · rfl
      · simp only [List.length_cons]; omega

/-- Searching `pre ++ suf` from the position where `suf` starts. -/
theorem firstIdx_at_split (p q : Byte → Bool) (hq : ∀ c, q c = !p c) (pre suf : Str) :
    firstIdx p (pre ++ suf) pre.length =
      if suf.dropWhile q = [] then npos else pre.length + (suf.takeWhile q).length := by
  unfold firstIdx
  by_cases hs : suf = []
  · subst hs; simp
  · have hlt : pre.length < (pre ++ suf).length := by
      rw [List.length_append]
      have := List.length_pos.2 hs
      omega
    rw [if_pos hlt, List.drop_left, firstIdxAux_eq p q hq]

theorem takeWhile_length_lt (q : Byte → Bool) (t : Str) (h : t.dropWhile q ≠ []) :
    (t.takeWhile q).length < t.length := by
  have h1 : (t.takeWhile q ++ t.dropWhile q).length = t.length := by
    rw [List.takeWhile_append_dropWhile]
  rw [List.length_append] at h1
  have := List.length_pos.2 h
  omega

theorem suffixFromFlag_none (t : Str) : suffixFromFlag t = none →
    ∀ i, findAux (lit "-projectpath") (t.map tolower) i = npos := by
  induction t with
  | nil => intro _ i; rfl
  | cons c rest ih =>
    intro h i
    rw [suffixFromFlag] at h
    by_cases hp : (lit "-projectpath").isPrefixOf ((c :: rest).map tolower) = true
    · rw [if_pos hp] at h
      cases h
    · rw [if_neg hp] at h
      rw [List.map_cons] at hp ⊢
      rw [findAux, if_neg hp]
      exact ih h _

theorem suffixFromFlag_some (t : Str) : ∀ (suf : Str) (i : Nat), suffixFromFlag t = some suf →
    ∃ pre, t = pre ++ suf ∧ suf ≠ [] ∧
      findAux (lit "-projectpath") (t.map tolower) i = i + pre.length := by
  induction t with
  | nil => intro suf i h; cases h
  | cons c rest ih =>
    intro suf i h
    rw [suffixFromFlag] at h
    by_cases hp : (lit "-projectpath").isPrefixOf ((c :: rest).map tolower) = true
    · rw [if_pos hp] at h
      cases h
      refine ⟨[], rfl, by simp, ?_⟩
      rw [List.map_cons] at hp ⊢
      rw [findAux, if_pos hp]
      rfl
    · rw [if_neg hp] at h
      obtain ⟨pre, h1, h2, h3⟩ := ih suf (i + 1) h
      refine ⟨c :: pre, by rw [h1]; rfl, h2, ?_⟩
      rw [List.map_cons] at hp ⊢
      rw [findAux, if_neg hp, h3]
      simp only [List.length_cons]
      omega

theorem sizeSub_self (a : Nat) (ha : a < 2 ^ 64) : sizeSub a a = 0 := by
  rw [sizeSub_of_le a a (Nat.le_refl a) ha]
  omega

theorem sizeSub_zero (a : Nat) (ha : a < 2 ^ 64) : sizeSub a 0 = a := by
  rw [sizeSub_of_le a 0 (Nat.zero_le a) ha]
  omega

theorem take_takeWhile_length (q : Byte → Bool) (t : Str) :
    t.take (t.takeWhile q).length = t.takeWhile q := by
  induction t with
  | nil => rfl
  | cons c rest ih =>
    cases h : q c with
    | true => rw [List.takeWhile_cons_of_pos h, List.length_cons, List.take_succ_cons, ih]
    | false => rw [List.takeWhile_cons_of_neg (by simp [h])]; rfl

theorem takeWhile_of_dropWhile_nil (q : Byte → Bool) (t : Str) (h : t.dropWhile q = []) :
    t.takeWhile q = t := by
  have := List.takeWhile_append_dropWhile q t
  rw [h, List.append_nil] at this
  exact this

/-- The last stage of `ExtractProjectPath`: the argument that starts at the position of
`c`, quoted or not. -/
theorem extractArg_eq (pre : Str) (c : Byte) (rest : Str)
    (hlen : (pre ++ c :: rest).length < npos) :
    (if (pre ++ c :: rest).getD pre.length 0 = (0x22 : Byte) then
      if findChar (pre ++ c :: rest) 0x22 (pre.length + 1) ≠ npos then
        substr (pre ++ c :: rest) (pre.length + 1)
          (findChar (pre ++ c :: rest) 0x22 (pre.length + 1) - (pre.length + 1))
      else []
    else
      substr (pre ++ c :: rest) pre.length
        ((if find_first_of (pre ++ c :: rest) (lit " \t") pre.length = npos
          then (pre ++ c :: rest).length
          else find_first_of (pre ++ c :: rest) (lit " \t") pre.length) - pre.length))
    = if c = (0x22 : Byte) then
        if (0x22 : Byte) ∈ rest then rest.takeWhile (fun x => !decide (x = (0x22 : Byte)))
        else []
      else (c :: rest).takeWhile (fun x => !isBlank x) := by
  have hget : (pre ++ c :: rest).getD pre.length 0 = c := by
    rw [List.getD_append_right _ _ _ _ (Nat.le_refl _), Nat.sub_self]
    rfl
  rw [hget]
  rw [List.length_append, List.length_cons] at hlen
  by_cases hc : c = (0x22 : Byte)
  · rw [if_pos hc, if_pos hc]
    have hf : findChar (pre ++ c :: rest) 0x22 (pre.length + 1)
        = if rest.dropWhile (fun x => !decide (x = (0x22 : Byte))) = [] then npos
          else pre.length + 1 + (rest.takeWhile (fun x => !decide (x = (0x22 : Byte)))).length := by
      have := firstIdx_at_split (fun x => decide (x = (0x22 : Byte)))
        (fun x => !decide (x = (0x22 : Byte))) (fun _ => rfl) (pre ++ [c]) rest
      rw [List.append_assoc, List.length_append] at this
      exact this
    have hd : (pre ++ c :: rest).drop (pre.length + 1) = rest := by
      have := List.drop_left (pre ++ [c]) rest
      rw [List.append_assoc, List.length_append] at this
      exact this
    rw [hf]
    by_cases hm : (0x22 : Byte) ∈ rest
    · have hdw : rest.dropWhile (fun x => !decide (x = (0x22 : Byte))) ≠ [] := by
        intro hnil
        have := (List.dropWhile_eq_nil_iff.1 hnil) _ hm
        simp at this
      have hlt := takeWhile_length_lt _ rest hdw
      rw [if_neg hdw, if_pos hm, if_pos (by unfold npos at hlen ⊢; omega)]
      unfold substr
      rw [hd, Nat.add_sub_cancel_left, take_takeWhile_length]
    · have hdw : rest.dropWhile (fun x => !decide (x = (0x22 : Byte))) = [] := by
        apply List.dropWhile_eq_nil_iff.2
        intro x hx
        have : x ≠ (0x22 : Byte) := fun h => hm (h ▸ hx)
        simp [this]
      rw [if_pos hdw, if_neg hm, if_neg (by simp)]
  · rw [if_neg hc, if_neg hc]
    have hf : find_first_of (pre ++ c :: rest) (lit " \t") pre.length
        = if (c :: rest).dropWhile (fun x => !isBlank x) = [] then npos
          else pre.length + ((c :: rest).takeWhile (fun x => !isBlank x)).length :=
      firstIdx_at_split (fun x => decide (x ∈ lit " \t")) (fun x => !isBlank x)
        (fun _ => rfl) pre (c :: rest)
    rw [hf]
    unfold substr
    rw [List.drop_left]
    by_cases hdw : (c :: rest).dropWhile (fun x => !isBlank x) = []
    · rw [if_pos hdw, if_pos rfl, takeWhile_of_dropWhile_nil _ _ hdw, List.length_append,
        Nat.add_sub_cancel_left, List.take_length]
    · have hlt := takeWhile_length_lt _ (c :: rest) hdw
      rw [List.length_cons] at hlt
      rw [if_neg hdw, if_neg (by unfold npos at hlen ⊢; omega), Nat.add_sub_cancel_left,
        take_takeWhile_length]

/-- The middle stage: skipping the run of blanks that starts where `suf` starts. -/
theorem extractAfterBlanks_eq (pre suf : Str) (hlen : (pre ++ suf).length < npos) :
    (if find_first_not_of (pre ++ suf) (lit " \t") pre.length = npos then []
     else if (pre ++ suf).getD (find_first_not_of (pre ++ suf) (lit " \t") pre.length) 0
          = (0x22 : Byte) then
      if findChar (pre ++ suf) 0x22
          (find_first_not_of (pre ++ suf) (lit " \t") pre.length + 1) ≠ npos then
        substr (pre ++ suf) (find_first_not_of (pre ++ suf) (lit " \t") pre.length + 1)
          (findChar (pre ++ suf) 0x22
              (find_first_not_of (pre ++ suf) (lit " \t") pre.length + 1)
            - (find_first_not_of (pre ++ suf) (lit " \t") pre.length + 1))
      else []
    else
      substr (pre ++ suf) (find_first_not_of (pre ++ suf) (lit " \t") pre.length)
        ((if find_first_of (pre ++ suf) (lit " \t")
              (find_first_not_of (pre ++ suf) (lit " \t") pre.length) = npos
          then (pre ++ suf).length
          else find_first_of (pre ++ suf) (lit " \t")
              (find_first_not_of (pre ++ suf) (lit " \t") pre.length))
          - find_first_not_of (pre ++ suf) (lit " \t") pre.length))
    = match suf.dropWhile isBlank with
      | [] => []
      | c :: rest =>
        if c = (0x22 : Byte) then
          if (0x22 : Byte) ∈ rest then rest.takeWhile (fun x => !decide (x = (0x22 : Byte)))
          else []
        else (c :: rest).takeWhile (fun x => !isBlank x) := by
  have hf : find_first_not_of (pre ++ suf) (lit " \t") pre.length
      = if suf.dropWhile isBlank = [] then npos
        else pre.length + (suf.takeWhile isBlank).length :=
    firstIdx_at_split (fun x => !decide (x ∈ lit " \t")) isBlank
      (fun x => by simp [isBlank]) pre suf
  have hsplit := List.takeWhile_append_dropWhile isBlank suf
  cases hd : suf.dropWhile isBlank with
  | nil =>
    rw [hf, hd, if_pos rfl, if_pos rfl]
  | cons c rest =>
    rw [hd] at hsplit hf
    rw [if_neg (by simp)] at hf
    have hlt : (suf.takeWhile isBlank).length < suf.length :=
      takeWhile_length_lt _ suf (by rw [hd]; simp)
    have hcmd : pre ++ suf = (pre ++ suf.takeWhile isBlank) ++ c :: rest := by
      rw [List.append_assoc, hsplit]
    have hpos : pre.length + (suf.takeWhile isBlank).length
        = (pre ++ suf.takeWhile isBlank).length := by
      rw [List.length_append]
    rw [List.length_append] at hlen
    rw [hf, if_neg (by unfold npos at hlen ⊢; omega)]
    simp only
    rw [hpos, hcmd]
    apply extractArg_eq
    rw [← hcmd, List.length_append]
    exact hlen

/-- The first stage: the search for the first blank from the place where `suf` starts. -/
theorem extractAfterFlag_eq (pre suf : Str) (hlen : (pre ++ suf).length < npos) :
    (if find_first_of (pre ++ suf) (lit " \t") pre.length = npos then []
     else
      if find_first_not_of (pre ++ suf) (lit " \t")
          (find_first_of (pre ++ suf) (lit " \t") pre.length) = npos then []
      else if (pre ++ suf).getD (find_first_not_of (pre ++ suf) (lit " \t")
          (find_first_of (pre ++ suf) (lit " \t") pre.length)) 0 = (0x22 : Byte) then
        if findChar (pre ++ suf) 0x22
            (find_first_not_of (pre ++ suf) (lit " \t")
              (find_first_of (pre ++ suf) (lit " \t") pre.length) + 1) ≠ npos then
          substr (pre ++ suf)
            (find_first_not_of (pre ++ suf) (lit " \t")
              (find_first_of (pre ++ suf) (lit " \t") pre.length) + 1)
            (findChar (pre ++ suf) 0x22
                (find_first_not_of (pre ++ suf) (lit " \t")
                  (find_first_of (pre ++ suf) (lit " \t") pre.length) + 1)
              - (find_first_not_of (pre ++ suf) (lit " \t")
                  (find_first_of (pre ++ suf) (lit " \t") pre.length) + 1))
        else []
      else
        substr (pre ++ suf)
          (find_first_not_of (pre ++ suf) (lit " \t")
            (find_first_of (pre ++ suf) (lit " \t") pre.length))
          ((if find_first_of (pre ++ suf) (lit " \t")
                (find_first_not_of (pre ++ suf) (lit " \t")
                  (find_first_of (pre ++ suf) (lit " \t") pre.length)) = npos
            then (pre ++ suf).length
            else find_first_of (pre ++ suf) (lit " \t")
                (find_first_not_of (pre ++ suf) (lit " \t")
                  (find_first_of (pre ++ suf) (lit " \t") pre.length)))
            - find_first_not_of (pre ++ suf) (lit " \t")
                (find_first_of (pre ++ suf) (lit " \t") pre.length)))
    = match (suf.dropWhile (fun c => !isBlank c)).dropWhile isBlank with
      | [] => []
      | c :: rest =>
        if c = (0x22 : Byte) then
          if (0x22 : Byte) ∈ rest then rest.takeWhile (fun x => !decide (x = (0x22 : Byte)))
          else []
        else (c :: rest).takeWhile (fun x => !isBlank x) := by
  have hf : find_first_of (pre ++ suf) (lit " \t") pre.length
      = if suf.dropWhile (fun x => !isBlank x) = [] then npos
        else pre.length + (suf.takeWhile (fun x => !isBlank x)).length :=
    firstIdx_at_split (fun x => decide (x ∈ lit " \t")) (fun x => !isBlank x)
      (fun _ => rfl) pre suf
  have hsplit := List.takeWhile_append_dropWhile (fun x => !isBlank x) suf
  by_cases hd : suf.dropWhile (fun x => !isBlank x) = []
  · rw [hf, hd, if_pos rfl, if_pos rfl]
    rfl
  · rw [if_neg hd] at hf
    have hlt : (suf.takeWhile (fun x => !isBlank x)).length < suf.length :=
      takeWhile_length_lt _ suf hd
    have hcmd : pre ++ suf
        = (pre ++ suf.takeWhile (fun x => !isBlank x)) ++ suf.dropWhile (fun x => !isBlank x) := by
      rw [List.append_assoc, hsplit]
    have hpos : pre.length + (suf.takeWhile (fun x => !isBlank x)).length
        = (pre ++ suf.takeWhile (fun x => !isBlank x)).length := by
      rw [List.length_append]
    have hlen2 := hlen
    rw [List.length_append] at hlen2
    rw [hf, if_neg (by unfold npos at hlen2 ⊢; omega)]
    rw [hpos, hcmd]
    apply extractAfterBlanks_eq
    rw [← hcmd]
    exact hlen

/-- When the first place where the flag stands in any letter case has it in lower case,
`ExtractProjectPath` is its reference. -/
theorem ExtractProjectPath_eq_ref (commandLine : Str) (hlen : commandLine.length < npos)
    (hflag : ∀ suf, suffixFromFlag commandLine = some suf → lit "-projectpath" <+: suf) :
    ExtractProjectPath commandLine = extractProjectPathRef commandLine := by
  have hl : commandLine.length < 2 ^ 64 := by unfold npos at hlen; omega
  unfold extractProjectPathRef
  cases hs : suffixFromFlag commandLine with
  | none =>
    have h1 : find (commandLine.map tolower) (lit "-projectpath") 0 = npos := by
      unfold find
      split
      · rw [List.drop_zero]
        exact suffixFromFlag_none commandLine hs 0
      · rfl
    unfold ExtractProjectPath
    simp only [h1, if_true]
  | some suf =>
    obtain ⟨pre, hcmd, hne, hfind⟩ := suffixFromFlag_some commandLine suf 0 hs
    have hpre := hflag suf hs
    subst hcmd
    have hpl : pre.length < (pre ++ suf).length := by
      rw [List.length_append]
      have := List.length_pos.2 hne
      omega
    have h1 : find ((pre ++ suf).map tolower) (lit "-projectpath") 0 = pre.length := by
      unfold find
      rw [if_pos (by rw [List.length_map]; omega), List.drop_zero, hfind, Nat.zero_add]
    have h2 : find (pre ++ suf) (lit "-projectpath") pre.length = pre.length := by
      unfold find
      rw [if_pos hpl, List.drop_left]
      cases suf with
      | nil => exact absurd rfl hne
      | cons c rest =>
        rw [findAux, if_pos (List.isPrefixOf_iff_prefix.2 hpre)]
    have hn : ¬ pre.length = npos := by omega
    unfold ExtractProjectPath
    simp only [List.length_map]
    rw [h1, sizeSub_self _ hl, sizeSub_zero _ (by omega), h2]
    simp only [if_neg hn]
    exact extractAfterFlag_eq pre suf hlen

set_option maxRecDepth 100000 in
/-- C26: for every command line in which the first place where the flag stands, letter case
ignored, has it spelled `-projectpath`, `ExtractProjectPath` returns what the reference
returns: from the flag skip to the first space or tab and over the run of spaces and tabs;
a quote there gives the text up to the next quote, or nothing without a closing quote;
anything else gives the text up to the next space or tab or the end; nothing is returned
when no blank or no argument follows the flag, nor when the flag is absent. -/
theorem C26_extract_matches_reference (commandLine : Str) (hlen : commandLine.length < npos)
    (hflag : ∀ suf, suffixFromFlag commandLine = some suf → lit "-projectpath" <+: suf) :
    ExtractProjectPath commandLine = extractProjectPathRef commandLine :=
  ExtractProjectPath_eq_ref commandLine hlen hflag

set_option maxRecDepth 100000 in
theorem C26_extract_matches_reference_witness :
    (lit "Unity.exe -projectpath \"C:\\Proj One\" -x").length < npos ∧
    (∀ suf, suffixFromFlag (lit "Unity.exe -projectpath \"C:\\Proj One\" -x") = some suf →
      lit "-projectpath" <+: suf) ∧
    ExtractProjectPath (lit "Unity.exe -projectpath \"C:\\Proj One\" -x")
      = extractProjectPathRef (lit "Unity.exe -projectpath \"C:\\Proj One\" -x") ∧
    extractProjectPathRef (lit "Unity.exe -projectpath \"C:\\Proj One\" -x")
      = lit "C:\\Proj One" := by
  have hs : suffixFromFlag (lit "Unity.exe -projectpath \"C:\\Proj One\" -x")
      = some (lit "-projectpath \"C:\\Proj One\" -x") := by decide!
  have hp : (lit "-projectpath").isPrefixOf (lit "-projectpath \"C:\\Proj One\" -x") = true := by
    decide!
  have hflag : ∀ suf, suffixFromFlag (lit "Unity.exe -projectpath \"C:\\Proj One\" -x") = some suf →
      lit "-projectpath" <+: suf := by
    intro suf h
    rw [hs] at h
    cases h
    exact List.isPrefixOf_iff_prefix.1 hp
  exact ⟨by decide!, hflag, C26_extract_matches_reference _ (by decide!) hflag,
    by decide!⟩

/-! ## From notification records to heartbeats -/

theorem replaceChar_not_mem (old new : Byte) (s : Str) (h : new ≠ old) :
    old ∉ replaceChar old new s := by
  unfold replaceChar
  intro hc
  obtain ⟨c, _, hcv⟩ := List.mem_map.1 hc
  by_cases hco : c = old
  · rw [if_pos hco] at hcv
    exact h hcv
  · rw [if_neg hco] at hcv
    exact hco hcv

/-- What `processRecord` yields, by cases on the record. -/
theorem processRecord_eq (projectPath projectName : Str) (now : Int) (r : NotifyRecord) :
    processRecord projectPath projectName now r
      = if (r.FileName.map (fun name =>
              !shouldIgnoreName (replaceChar 0x5C 0x2F name)
                && IsUnityFile (replaceChar 0x5C 0x2F name))).getD false
        then some
          { filePath := replaceChar 0x5C 0x2F (projectPath ++ lit "\\" ++ r.FileName.getD []),
            fileName := replaceChar 0x5C 0x2F (r.FileName.getD []),
            projectPath := projectPath, projectName := projectName,
            action := r.Action, timestamp := now }
        else none := by
  unfold processRecord
  cases r.FileName with
  | none => rfl
  | some name => rfl

/-- C27: the events `ProcessFileChanges` hands to the callback are, in the order of the
records of the buffer, those of the records whose normalized name passes the folder filter
and the extension filter; each event carries the action code of its record, as `fileName`
the name of the record with every backslash replaced by `/`, and as `filePath` the text
`projectPath`, backslash, name with every backslash replaced by `/`; neither field holds
a backslash. -/
theorem C27_events_in_record_order (projectPath projectName : Str) (now : Int)
    (records : List NotifyRecord) :
    ProcessFileChanges projectPath projectName now records
      = (records.filter (fun r =>
            (r.FileName.map (fun name =>
              !shouldIgnoreName (replaceChar 0x5C 0x2F name)
                && IsUnityFile (replaceChar 0x5C 0x2F name))).getD false)).map
          (fun r =>
            { filePath := replaceChar 0x5C 0x2F (projectPath ++ lit "\\" ++ r.FileName.getD []),
              fileName := replaceChar 0x5C 0x2F (r.FileName.getD []),
              projectPath := projectPath, projectName := projectName,
              action := r.Action, timestamp := now }) ∧
    (∀ e ∈ ProcessFileChanges projectPath projectName now records,
      (0x5C : Byte) ∉ e.fileName ∧ (0x5C : Byte) ∉ e.filePath) ∧
    ((ProcessFileChanges projectPath projectName now records).map (fun e => e.action)).Sublist
      (records.map (fun r => r.Action)) := by
  have hmain : ProcessFileChanges projectPath projectName now records
      = (records.filter (fun r =>
            (r.FileName.map (fun name =>
              !shouldIgnoreName (replaceChar 0x5C 0x2F name)
                && IsUnityFile (replaceChar 0x5C 0x2F name))).getD false)).map
          (fun r =>
            { filePath := replaceChar 0x5C 0x2F (projectPath ++ lit "\\" ++ r.FileName.getD []),
              fileName := replaceChar 0x5C 0x2F (r.FileName.getD []),
              projectPath := projectPath, projectName := projectName,
              action := r.Action, timestamp := now }) := by
    unfold ProcessFileChanges
    induction records with
    | nil => rfl
    | cons r rest ih =>
      rw [List.filterMap_cons, processRecord_eq, List.filter_cons]
      by_cases h : (r.FileName.map (fun name =>
              !shouldIgnoreName (replaceChar 0x5C 0x2F name)
                && IsUnityFile (replaceChar 0x5C 0x2F name))).getD false = true
      · rw [if_pos h, if_pos h, List.map_cons, ih]
      · rw [if_neg h, if_neg h, ih]
  refine ⟨hmain, ?_, ?_⟩
  · intro e he
    rw [hmain] at he
    obtain ⟨r, _, hr⟩ := List.mem_map.1 he
    rw [← hr]
    exact ⟨replaceChar_not_mem _ _ _ (by decide), replaceChar_not_mem _ _ _ (by decide)⟩
  · rw [hmain, List.map_map]
    exact (List.filter_sublist records).map _

theorem escapeChar_high (b : Byte) (h : 0x80 ≤ b.val) : escapeChar b = lit "\\u0000" := by
  have hv : charVal b < 0x20 := by
    unfold charVal
    have := b.isLt
    rw [if_neg (by omega)]
    omega
  unfold escapeChar
  rw [if_neg (by omega), if_neg (by omega), if_neg (by omega), if_neg (by omega),
    if_neg (by omega), if_neg (by omega), if_neg (by omega), if_pos hv]
  decide

set_option maxRecDepth 100000 in
/-- C28 (the code departs from the claim): the two bytes `0xC3 0xA9`, the UTF-8 form of
the letter e with acute accent, come out of `EscapeJsonString` as `\u0000\u0000`, neither
byte being copied; every byte from `0x80` on is replaced by the text `\u0000`. -/
theorem C28_high_bytes_replaced :
    EscapeJsonString [0xC3, 0xA9] = lit "\\u0000\\u0000" ∧
    (0xC3 : Byte) ∉ EscapeJsonString [0xC3, 0xA9] ∧
    (0xA9 : Byte) ∉ EscapeJsonString [0xC3, 0xA9] ∧
    (∀ b : Byte, 0x80 ≤ b.val → escapeChar b = lit "\\u0000") :=
  ⟨by decide, by decide, by decide, escapeChar_high⟩

/-- The heartbeat `SendHeartbeat` puts at the back of the queue of an initialized client. -/
theorem SendHeartbeat_pushes (c : WakaTimeClient) (filePath projectName unityVersion : Str)
    (isWrite : Bool) (now : Int) (hinit : c.initialized = true) :
    (SendHeartbeat c filePath projectName unityVersion isWrite now).heartbeatQueue
      = c.heartbeatQueue ++
        [{ entity := filePath, project := projectName, language := lit "Unity",
           machine := c.machineName, time := now, is_write := isWrite,
           editor := if unityVersion ≠ [] then lit "Unity " ++ unityVersion else lit "Unity" }] := by
  unfold SendHeartbeat
  simp [hinit]

theorem ProcessFileChanges_unityVersion (projectPath projectName : Str) (now : Int)
    (records : List NotifyRecord) :
    ∀ e ∈ ProcessFileChanges projectPath projectName now records, e.unityVersion = [] := by
  intro e he
  unfold ProcessFileChanges at he
  obtain ⟨r, _, hr⟩ := List.mem_filterMap.1 he
  rw [processRecord_eq] at hr
  split at hr
  · cases hr; rfl
  · cases hr

set_option maxRecDepth 100000 in
/-- C29 (the claim as written fails): the record `Assets\a.unity` of the project `C:\P`
makes `ProcessFileChanges` build an event, yet on the client as the constructor leaves
it, which is not initialized, `SendHeartbeatFromEvent` puts nothing in the queue for that
event: no heartbeat with the label `Unity` is enqueued. -/
theorem C29_uninitialized_client_enqueues_nothing :
    ProcessFileChanges (lit "C:\\P") (lit "P") 7 [⟨3, some (lit "Assets\\a.unity")⟩]
      = [{ filePath := lit "C:/P/Assets/a.unity", fileName := lit "Assets/a.unity",
           projectPath := lit "C:\\P", projectName := lit "P", action := 3, timestamp := 7 }] ∧
    (WakaTimeClient.create (lit "PC")).initialized = false ∧
    (SendHeartbeatFromEvent (WakaTimeClient.create (lit "PC"))
      { filePath := lit "C:/P/Assets/a.unity", fileName := lit "Assets/a.unity",
        projectPath := lit "C:\\P", projectName := lit "P", action := 3, timestamp := 7 }
      9).heartbeatQueue = [] ∧
    ¬ ∃ hb : HeartbeatData,
      (SendHeartbeatFromEvent (WakaTimeClient.create (lit "PC"))
        { filePath := lit "C:/P/Assets/a.unity", fileName := lit "Assets/a.unity",
          projectPath := lit "C:\\P", projectName := lit "P", action := 3, timestamp := 7 }
        9).heartbeatQueue = (WakaTimeClient.create (lit "PC")).heartbeatQueue ++ [hb] := by
  refine ⟨by decide!, rfl, rfl, ?_⟩
  rintro ⟨hb, h⟩
  have hq : (SendHeartbeatFromEvent (WakaTimeClient.create (lit "PC"))
      { filePath := lit "C:/P/Assets/a.unity", fileName := lit "Assets/a.unity",
        projectPath := lit "C:\\P", projectName := lit "P", action := 3, timestamp := 7 }
      9).heartbeatQueue = [] := rfl
  have hc : (WakaTimeClient.create (lit "PC")).heartbeatQueue = [] := rfl
  rw [hq, hc] at h
  cases h

/-- C29 (amended): every event of `ProcessFileChanges` has an empty `unityVersion`; for
such an event `SendHeartbeatFromEvent` on an initialized client appends exactly one
heartbeat, whose `editor` is `Unity` with no version and whose `entity` and `project`
are those of the event, while on a client that is not initialized it changes nothing;
on the initialized client `SendHeartbeat` gives the label `Unity`, a space and the
version exactly when the version it receives is not empty, and the bare `Unity`
otherwise. -/
theorem C29_event_editor_is_unity (projectPath projectName : Str) (now : Int)
    (records : List NotifyRecord) (c : WakaTimeClient) (t : Int) (e : FileChangeEvent)
    (he : e ∈ ProcessFileChanges projectPath projectName now records)
    (hinit : c.initialized = true) :
    (∀ e2 ∈ ProcessFileChanges projectPath projectName now records, e2.unityVersion = []) ∧
    (∃ hb : HeartbeatData,
      (SendHeartbeatFromEvent c e t).heartbeatQueue = c.heartbeatQueue ++ [hb] ∧
      hb.editor = lit "Unity" ∧ hb.entity = e.filePath ∧ hb.project = projectName) ∧
    (∀ c2 : WakaTimeClient, c2.initialized = false → SendHeartbeatFromEvent c2 e t = c2) ∧
    (∀ (filePath name version : Str) (isWrite : Bool),
      ∃ hb : HeartbeatData,
        (SendHeartbeat c filePath name version isWrite t).heartbeatQueue
          = c.heartbeatQueue ++ [hb] ∧
        (version ≠ [] → hb.editor = lit "Unity " ++ version) ∧
        (version = [] → hb.editor = lit "Unity") ∧
        (hb.editor = lit "Unity " ++ version ↔ version ≠ [])) := by
  have hv := ProcessFileChanges_unityVersion projectPath projectName now records
  refine ⟨hv, ?_, ?_, ?_⟩
  · have hpn : e.projectName = projectName := by
      unfold ProcessFileChanges at he
      obtain ⟨r, _, hr⟩ := List.mem_filterMap.1 he
      rw [processRecord_eq] at hr
      split at hr
      · cases hr; rfl
      · cases hr
    refine ⟨_, SendHeartbeat_pushes c _ _ _ _ t hinit, ?_, rfl, hpn⟩
    show (if e.unityVersion ≠ [] then lit "Unity " ++ e.unityVersion else lit "Unity") = lit "Unity"
    rw [hv e he]
    rfl
  · intro c2 hinit2
    unfold SendHeartbeatFromEvent SendHeartbeat
    simp [hinit2]
  · intro filePath name version isWrite
    refine ⟨_, SendHeartbeat_pushes c _ _ _ _ t hinit, ?_, ?_, ?_⟩
    · intro h
      show (if version ≠ [] then lit "Unity " ++ version else lit "Unity") = _
      rw [if_pos h]
    · intro h
      show (if version ≠ [] then lit "Unity " ++ version else lit "Unity") = _
      rw [if_neg (by simp [h])]
    · show (if version ≠ [] then lit "Unity " ++ version else lit "Unity") = _ ↔ _
      by_cases h : version = []
      · rw [if_neg (by simp [h])]
        subst h
        simp only [ne_eq, not_true_eq_false, iff_false]
        decide
      · rw [if_pos h]
        simp [h]

set_option maxRecDepth 100000 in
theorem C29_event_editor_is_unity_witness :
    ({ filePath := lit "C:/P/Assets/a.unity", fileName := lit "Assets/a.unity",
       projectPath := lit "C:\\P", projectName := lit "P", action := 3, timestamp := 7 }
        : FileChangeEvent)
      ∈ ProcessFileChanges (lit "C:\\P") (lit "P") 7 [⟨3, some (lit "Assets\\a.unity")⟩] ∧
    (readyClient (lit "key") (lit "PC") 1).initialized = true ∧
    (∃ hb : HeartbeatData,
      (SendHeartbeatFromEvent (readyClient (lit "key") (lit "PC") 1)
        { filePath := lit "C:/P/Assets/a.unity", fileName := lit "Assets/a.unity",
          projectPath := lit "C:\\P", projectName := lit "P", action := 3, timestamp := 7 }
        9).heartbeatQueue = (readyClient (lit "key") (lit "PC") 1).heartbeatQueue ++ [hb] ∧
      hb.editor = lit "Unity" ∧ hb.entity = lit "C:/P/Assets/a.unity" ∧
      hb.project = lit "P") :=
  ⟨by decide!, rfl,
   (C29_event_editor_is_unity (lit "C:\\P") (lit "P") 7 [⟨3, some (lit "Assets\\a.unity")⟩]
      (readyClient (lit "key") (lit "PC") 1) 9
      { filePath := lit "C:/P/Assets/a.unity", fileName := lit "Assets/a.unity",
        projectPath := lit "C:\\P", projectName := lit "P", action := 3, timestamp := 7 }
      (by decide!) rfl).2.1⟩

end UnityWakatime
